import Mathlib

/-!
Verification of `cdst.h`: byte containers and intrusive lists.

A shallow embedding of `src/cdst.h`.

* `size_t` values are natural numbers below `SIZE_MOD`; every `+` and `-` of the
  source on `size_t` is `sz_add` / `sz_sub`, which wrap modulo `SIZE_MOD`, and `%` is
  `sz_mod`, undefined for a zero divisor.
* A `struct buf` is the list of the bytes it points at; its `size` field is the
  length of that list (the view is valid for exactly `size` bytes).
* A function of the source that writes through a pointer returns the new value
  of what it points at.  The memory of a destination view and the memory of the
  container's own view are distinct objects.
* List nodes live in a memory indexed by address (`DHeap` for `struct dlist`, `SHeap`
  for `struct slist`); a pointer is `none` (`NULL`) or `some a`.  Every statement of
  the source reads the memory left by the previous statement.
* A result `none` stands for undefined behaviour of the C program (an access
  outside an object, a dereferenced null pointer, a division by zero) or, for a loop,
  for fuel that ran out.
-/

namespace Cdst

/-! ## Machine sizes -/

/-- Number of values of `size_t` (64-bit). -/
def SIZE_MOD : Nat := 18446744073709551616

/-- Largest size an object can have (`PTRDIFF_MAX`). -/
def PTRDIFF_MAX : Nat := 9223372036854775807

/-- Addition on `size_t`. -/
def sz_add (a b : Nat) : Nat := (a + b) % SIZE_MOD

/-- Subtraction on `size_t`. -/
def sz_sub (a b : Nat) : Nat := (a + SIZE_MOD - b % SIZE_MOD) % SIZE_MOD

/-- The `%` of C on `size_t`: undefined for a zero divisor. -/
def sz_mod (a b : Nat) : Option Nat := if b = 0 then none else some (a % b)

/-! ## Memory -/

/-- `memcpy(&dst[doff], &src[soff], n)`: the new bytes of `dst`; undefined when a
range leaves its object. -/
def memcpy (dst : List Nat) (doff : Nat) (src : List Nat) (soff n : Nat) :
    Option (List Nat) :=
  if doff + n ≤ dst.length ∧ soff + n ≤ src.length then
    some (dst.take doff ++ ((src.drop soff).take n ++ dst.drop (doff + n)))
  else none

/-- The `struct buf`: an area of memory. -/
structure Buf where
  mem : List Nat
deriving DecidableEq, Repr

/-- The field `size` of a `struct buf`. -/
def Buf.size (b : Buf) : Nat := b.mem.length

/-- The `struct fifo`. -/
structure Fifo where
  buf : Buf
  tail : Nat
  head : Nat
deriving DecidableEq, Repr

/-- The `struct stack`. -/
structure Stack where
  buf : Buf
  size : Nat
deriving DecidableEq, Repr

/-- Source: `buf`. -/
def buf (mem : List Nat) : Buf := { mem := mem }

/-- Source: `fifo`. -/
def fifo (b : Buf) : Fifo := { buf := b, tail := 0, head := 0 }

/-- Source: `stack`. -/
def stack (b : Buf) : Stack := { buf := b, size := 0 }

/-! ## Stack -/

/-- Source: `stack_push`.  Returns the new stack and the return value. -/
def stack_push (dst : Stack) (src : Buf) : Option (Stack × Nat) :=
  if sz_add dst.size src.size > dst.buf.size then
    some (dst, 0)
  else
    (memcpy dst.buf.mem dst.size src.mem 0 src.size).map fun m =>
      ({ buf := { mem := m }, size := sz_add dst.size src.size }, src.size)

/-- Source: `stack_pop`.  Returns the new stack, the new bytes of the destination and
the return value. -/
def stack_pop (src : Stack) (dst : Buf) : Option (Stack × Buf × Nat) :=
  if src.size < dst.size then
    some (src, dst, 0)
  else
    (memcpy dst.mem 0 src.buf.mem (sz_sub src.size dst.size) dst.size).map fun m =>
      ({ src with size := sz_sub src.size dst.size }, { mem := m }, dst.size)

/-- Source: `stack_size`. -/
def stack_size (src : Stack) : Nat := src.size

/-! ## Ring buffer -/

/-- Source: `fifo_size`. -/
def fifo_size (src : Fifo) : Nat :=
  if src.head ≥ src.tail then sz_sub src.head src.tail
  else sz_add src.head (sz_sub src.buf.size src.tail)

/-- Source: `fifo_push`.  Returns the new ring buffer and the return value. -/
def fifo_push (dst : Fifo) (src : Buf) : Option (Fifo × Nat) :=
  if sz_add (fifo_size dst) src.size ≥ dst.buf.size then
    some (dst, 0)
  else
    let m :=
      if sz_add dst.head src.size ≥ dst.buf.size then
        (memcpy dst.buf.mem dst.head src.mem 0 (sz_sub dst.buf.size dst.head)).bind fun m1 =>
          memcpy m1 0 src.mem (sz_sub dst.buf.size dst.head)
            (sz_sub src.size (sz_sub dst.buf.size dst.head))
      else
        memcpy dst.buf.mem dst.head src.mem 0 src.size
    m.bind fun m2 =>
      (sz_mod (sz_add dst.head src.size) dst.buf.size).map fun hd =>
        ({ dst with buf := { mem := m2 }, head := hd }, src.size)

/-- Source: `fifo_peek`.  Returns the new bytes of the destination and the return
value; the ring buffer is not written. -/
def fifo_peek (src : Fifo) (dst : Buf) : Option (Buf × Nat) :=
  if fifo_size src < dst.size then
    some (dst, 0)
  else
    let m :=
      if sz_add src.tail dst.size ≥ src.buf.size then
        (memcpy dst.mem 0 src.buf.mem src.tail (sz_sub src.buf.size src.tail)).bind fun m1 =>
          memcpy m1 (sz_sub src.buf.size src.tail) src.buf.mem 0
            (sz_sub dst.size (sz_sub src.buf.size src.tail))
      else
        memcpy dst.mem 0 src.buf.mem src.tail dst.size
    m.map fun m2 => ({ mem := m2 }, dst.size)

/-- Source: `fifo_pop`.  Returns the new ring buffer, the new bytes of the destination
and the return value. -/
def fifo_pop (src : Fifo) (dst : Buf) : Option (Fifo × Buf × Nat) :=
  (fifo_peek src dst).bind fun r =>
    if r.2 ≤ 0 then
      some (src, r.1, 0)
    else
      (sz_mod (sz_add src.tail dst.size) src.buf.size).map fun tl =>
        ({ src with tail := tl }, r.1, dst.size)


/-! ## Specification vocabulary for the byte containers -/

/-- The `n` bytes of `mem` read from offset `t`, wrapping at the end of `mem`. -/
def ring_slice (mem : List Nat) (t n : Nat) : List Nat :=
  (List.range n).map fun i => mem.getD ((t + i) % mem.length) 0

/-- The bytes held by a ring buffer: `fifo_size` bytes from offset `tail`. -/
def contents (f : Fifo) : List Nat := ring_slice f.buf.mem f.tail (fifo_size f)

/-- A ring buffer of capacity 8 holding `[4,5,6,7,8,9]` across the physical end. -/
def exFifo : Fifo := { buf := { mem := [9, 2, 3, 4, 5, 6, 7, 8] }, tail := 3, head := 1 }

/-- The bytes of `mem` after `data` has been written from offset `h`, wrapping at the
end of `mem`. -/
def ring_write (mem : List Nat) (h : Nat) (data : List Nat) : List Nat :=
  (List.range mem.length).map fun i =>
    if h ≤ i ∧ i < h + data.length then data.getD (i - h) 0
    else if i + mem.length < h + data.length then data.getD (i + mem.length - h) 0
    else mem.getD i 0

/-- The ring buffer the source builds in a successful `fifo_push`: `data` written
from `head` with wraparound, `head` advanced modulo the capacity. -/
def fifo_pushed (f : Fifo) (data : Buf) : Fifo :=
  { buf := { mem := ring_write f.buf.mem f.head data.mem }, tail := f.tail,
    head := (f.head + data.size) % f.buf.size }

/-- The ring buffer of capacity 8 after `[1,2,3,4,5]` was pushed. -/
def exFifo1 : Fifo := { buf := { mem := [1, 2, 3, 4, 5, 0, 0, 0] }, tail := 0, head := 5 }

/-- The ring buffer `exFifo1` after three bytes were popped. -/
def exFifo2 : Fifo := { buf := { mem := [1, 2, 3, 4, 5, 0, 0, 0] }, tail := 3, head := 5 }

/-- Calls `stack_push` for each view in order; returns the final stack and the return
values. -/
def stack_push_all : Stack → List Buf → Option (Stack × List Nat)
  | s, [] => some (s, [])
  | s, d :: ds =>
    (stack_push s d).bind fun r =>
      (stack_push_all r.1 ds).map fun q => (q.1, r.2 :: q.2)

/-- Calls `stack_pop` for each destination in order; returns the final stack, the
destinations as left by the calls and the return values. -/
def stack_pop_all : Stack → List Buf → Option (Stack × List Buf × List Nat)
  | s, [] => some (s, [], [])
  | s, d :: ds =>
    (stack_pop s d).bind fun r =>
      (stack_pop_all r.1 ds).map fun q => (q.1, r.2.1 :: q.2.1, r.2.2 :: q.2.2)

/-- A stack of capacity 8 holding the two bytes `[7, 7]`. -/
def exStack : Stack := { buf := { mem := [7, 7, 0, 0, 0, 0, 0, 0] }, size := 2 }

/-- A call on a ring buffer: `fifo_push`, `fifo_peek` or `fifo_pop` with its view. -/
inductive FifoOp where
  | push (data : Buf)
  | peek (dst : Buf)
  | pop (dst : Buf)
deriving DecidableEq, Repr

/-- The ring buffer after one call. -/
def fifo_step (f : Fifo) : FifoOp → Option Fifo
  | .push d => (fifo_push f d).map fun r => r.1
  | .peek d => (fifo_peek f d).map fun _ => f
  | .pop d => (fifo_pop f d).map fun r => r.1

/-- The ring buffer after a sequence of calls. -/
def fifo_run : Fifo → List FifoOp → Option Fifo
  | f, [] => some f
  | f, op :: ops => (fifo_step f op).bind fun f1 => fifo_run f1 ops

/-- The data handed to `fifo_push` is an object: no larger than `PTRDIFF_MAX`.  The
destination of `fifo_peek` and `fifo_pop` is arbitrary. -/
def FifoOp.valid : FifoOp → Prop
  | .push d => d.size ≤ PTRDIFF_MAX
  | .peek _ => True
  | .pop _ => True

instance FifoOp.decidableValid : DecidablePred FifoOp.valid := fun op =>
  match op with
  | .push d => inferInstanceAs (Decidable (d.size ≤ PTRDIFF_MAX))
  | .peek _ => isTrue trivial
  | .pop _ => isTrue trivial

/-- A sequence of calls on a ring buffer of capacity 8, with failing calls. -/
def exOps : List FifoOp :=
  [.push (buf [1, 2, 3, 4, 5]), .push (buf [6, 7, 8, 9]), .pop (buf [0, 0, 0]),
   .push (buf [6, 7, 8, 9]), .peek (buf [0, 0]), .pop (buf [0, 0, 0, 0, 0, 0]),
   .pop (buf [0]), .push (buf [1, 2, 3, 4, 5, 6, 7])]

/-! ## Doubly-linked list -/

/-- A pointer to a node: `none` is `NULL`, `some a` the node at address `a`. -/
abbrev Ptr := Option Nat

/-- The `struct dlist`. -/
structure Dlist where
  cont : Option Nat
  next : Ptr
  prev : Ptr
deriving DecidableEq, Repr

/-- The nodes in memory, by address. -/
abbrev DHeap := Nat → Dlist

/-- Reads `p->next`; undefined for `NULL`. -/
def rd_next (h : DHeap) (p : Ptr) : Option Ptr := p.map fun a => (h a).next

/-- Reads `p->prev`; undefined for `NULL`. -/
def rd_prev (h : DHeap) (p : Ptr) : Option Ptr := p.map fun a => (h a).prev

/-- The memory after the field `cont` of the node at `a` was set to `v`. -/
def set_cont (h : DHeap) (a : Nat) (v : Option Nat) : DHeap :=
  Function.update h a { h a with cont := v }

/-- The memory after the field `next` of the node at `a` was set to `v`. -/
def set_next (h : DHeap) (a : Nat) (v : Ptr) : DHeap :=
  Function.update h a { h a with next := v }

/-- The memory after the field `prev` of the node at `a` was set to `v`. -/
def set_prev (h : DHeap) (a : Nat) (v : Ptr) : DHeap :=
  Function.update h a { h a with prev := v }

/-- Executes `p->cont = v`; undefined for `NULL`. -/
def wr_cont (h : DHeap) (p : Ptr) (v : Option Nat) : Option DHeap :=
  p.map fun a => set_cont h a v

/-- Executes `p->next = v`; undefined for `NULL`. -/
def wr_next (h : DHeap) (p : Ptr) (v : Ptr) : Option DHeap :=
  p.map fun a => set_next h a v

/-- Executes `p->prev = v`; undefined for `NULL`. -/
def wr_prev (h : DHeap) (p : Ptr) (v : Ptr) : Option DHeap :=
  p.map fun a => set_prev h a v

/-- Source: `dlist_init`. -/
def dlist_init (h : DHeap) (dst : Ptr) (cont : Option Nat) : Option (DHeap × Ptr) :=
  (wr_cont h dst cont).bind fun h1 =>
  (wr_next h1 dst dst).bind fun h2 =>
  (wr_prev h2 dst dst).bind fun h3 =>
  some (h3, dst)

/-- Source: `dlist_head_init`. -/
def dlist_head_init (h : DHeap) (dst : Ptr) : Option (DHeap × Ptr) :=
  dlist_init h dst none

/-- Source: `dlist_pop`. -/
def dlist_pop (h : DHeap) (target : Ptr) : Option (DHeap × Ptr) :=
  match target with
  | none => some (h, none)
  | some t =>
    if (h t).prev ≠ none ∧ (h t).next ≠ none then
      (rd_prev h target).bind fun p =>
      (rd_next h target).bind fun n =>
      (wr_next h p n).bind fun h1 =>
      (rd_next h1 target).bind fun n1 =>
      (rd_prev h1 target).bind fun p1 =>
      (wr_prev h1 n1 p1).bind fun h2 =>
      some (h2, target)
    else some (h, none)

/-- Source: `dlist_push_after`. -/
def dlist_push_after (h : DHeap) (dst src : Ptr) : Option (DHeap × Ptr) :=
  match src, dst with
  | some _, some d =>
    if (h d).next ≠ none then
      (rd_next h dst).bind fun dn =>
      (wr_prev h dn src).bind fun h1 =>
      (rd_next h1 dst).bind fun dn1 =>
      (wr_next h1 src dn1).bind fun h2 =>
      (wr_next h2 dst src).bind fun h3 =>
      (wr_prev h3 src dst).bind fun h4 =>
      some (h4, src)
    else some (h, none)
  | _, _ => some (h, none)

/-- Source: `dlist_push_before`. -/
def dlist_push_before (h : DHeap) (dst src : Ptr) : Option (DHeap × Ptr) :=
  match src, dst with
  | some _, some d =>
    if (h d).prev ≠ none then
      (rd_prev h dst).bind fun dp =>
      (wr_next h dp src).bind fun h1 =>
      (rd_prev h1 dst).bind fun dp1 =>
      (wr_prev h1 src dp1).bind fun h2 =>
      (wr_prev h2 dst src).bind fun h3 =>
      (wr_next h3 src dst).bind fun h4 =>
      some (h4, src)
    else some (h, none)
  | _, _ => some (h, none)

/-- Source: `dlist_push_back`. -/
def dlist_push_back (h : DHeap) (self src : Ptr) : Option (DHeap × Ptr) :=
  (rd_prev h self).bind fun p => dlist_push_after h p src

/-- Source: `dlist_push_front`. -/
def dlist_push_front (h : DHeap) (self src : Ptr) : Option (DHeap × Ptr) :=
  (rd_next h self).bind fun n => dlist_push_before h n src

/-- Source: `dlist_splice_after`. -/
def dlist_splice_after (h : DHeap) (dst src : Ptr) : Option (DHeap × Ptr) :=
  let body : Option DHeap :=
    match dst, src with
    | some _, some s =>
      if (h s).next ≠ src then
        (rd_next h dst).bind fun dn =>
        (rd_prev h src).bind fun sp =>
        (wr_prev h dn sp).bind fun h1 =>
        (rd_prev h1 src).bind fun sp1 =>
        (rd_next h1 dst).bind fun dn1 =>
        (wr_next h1 sp1 dn1).bind fun h2 =>
        (rd_next h2 src).bind fun sn =>
        (wr_prev h2 sn dst).bind fun h3 =>
        (rd_next h3 src).bind fun sn1 =>
        (wr_next h3 dst sn1).bind fun h4 =>
        (wr_prev h4 src src).bind fun h5 =>
        wr_next h5 src src
      else some h
    | _, _ => some h
  body.bind fun h1 => (rd_next h1 dst).map fun r => (h1, r)

/-- Source: `dlist_splice_before`. -/
def dlist_splice_before (h : DHeap) (dst src : Ptr) : Option (DHeap × Ptr) :=
  let body : Option DHeap :=
    match dst, src with
    | some _, some s =>
      if (h s).next ≠ src then
        (rd_prev h dst).bind fun dp =>
        (rd_next h src).bind fun sn =>
        (wr_next h dp sn).bind fun h1 =>
        (rd_next h1 src).bind fun sn1 =>
        (rd_prev h1 dst).bind fun dp1 =>
        (wr_prev h1 sn1 dp1).bind fun h2 =>
        (rd_prev h2 src).bind fun sp =>
        (wr_next h2 sp dst).bind fun h3 =>
        (rd_prev h3 src).bind fun sp1 =>
        (wr_prev h3 dst sp1).bind fun h4 =>
        (wr_prev h4 src src).bind fun h5 =>
        wr_next h5 src src
      else some h
    | _, _ => some h
  body.bind fun h1 => (rd_next h1 dst).map fun r => (h1, r)

/-- The loop of the macro `dlist_foreach` from the iterator value `iter`, with a body
that updates a state `st` and does not write the list; one unit of fuel per evaluation
of the loop condition. -/
def dlist_foreach_loop {σ : Type} (body : σ → Ptr → σ) :
    Nat → DHeap → Ptr → Ptr → σ → Option σ
  | 0, _, _, _, _ => none
  | fuel + 1, h, list, iter, st =>
    if iter = list then some st
    else (rd_next h iter).bind fun nx => dlist_foreach_loop body fuel h list nx (body st iter)

/-- Source: the macro `dlist_foreach`. -/
def dlist_foreach {σ : Type} (body : σ → Ptr → σ) (fuel : Nat) (h : DHeap) (list : Ptr)
    (st : σ) : Option σ :=
  (rd_next h list).bind fun it => dlist_foreach_loop body fuel h list it st

/-- Source: `dlist_length`. -/
def dlist_length (fuel : Nat) (h : DHeap) (self : Ptr) : Option Nat :=
  dlist_foreach (fun i _ => sz_add i 1) fuel h self 0

/-- The values the iterator of `dlist_foreach` takes, in order. -/
def dlist_traversal (fuel : Nat) (h : DHeap) (self : Ptr) : Option (List Ptr) :=
  dlist_foreach (fun acc it => acc ++ [it]) fuel h self []

/-- The loop of `dlist_reverse` from the node `node`. -/
def dlist_reverse_loop : Nat → DHeap → Ptr → Ptr → Option DHeap
  | 0, _, _, _ => none
  | fuel + 1, h, self, node =>
    if node = self then some h
    else
      (rd_next h node).bind fun tmp =>
      (rd_prev h node).bind fun p =>
      (wr_next h node p).bind fun h1 =>
      (wr_prev h1 node tmp).bind fun h2 =>
      (rd_prev h2 node).bind fun nx =>
      dlist_reverse_loop fuel h2 self nx

/-- Source: `dlist_reverse`. -/
def dlist_reverse (fuel : Nat) (h : DHeap) (self : Ptr) : Option DHeap :=
  (rd_next h self).bind fun tmp =>
  (rd_prev h self).bind fun p =>
  (wr_next h self p).bind fun h1 =>
  (wr_prev h1 self tmp).bind fun h2 =>
  (rd_prev h2 self).bind fun node =>
  dlist_reverse_loop fuel h2 self node

/-! ## Specification vocabulary for the lists -/

/-- Node `v` follows node `u`: `u->next == v` and `v->prev == u`. -/
def link (h : DHeap) (u v : Nat) : Prop := (h u).next = some v ∧ (h v).prev = some u

instance link.decidable (h : DHeap) : DecidableRel (link h) := fun u v =>
  inferInstanceAs (Decidable ((h u).next = some v ∧ (h v).prev = some u))

/-- Each node of the list is followed by the next one. -/
def linked (h : DHeap) : List Nat → Prop
  | [] => True
  | [_] => True
  | a :: b :: t => link h a b ∧ linked h (b :: t)

instance linked.decidable (h : DHeap) : (l : List Nat) → Decidable (linked h l)
  | [] => isTrue trivial
  | [_] => isTrue trivial
  | a :: b :: t => @instDecidableAnd _ _ (link.decidable h a b) (linked.decidable h (b :: t))

/-- A well-formed circular list with sentinel `H` whose forward traversal is `L`:
following `next` from `H` visits `L` and returns to `H`, which is not in `L`, and each
`prev` points back. -/
def Ring (h : DHeap) (H : Nat) (L : List Nat) : Prop :=
  H ∉ L ∧ linked h (H :: L ++ [H])

instance Ring.decidable (h : DHeap) (H : Nat) (L : List Nat) : Decidable (Ring h H L) :=
  inferInstanceAs (Decidable (H ∉ L ∧ linked h (H :: L ++ [H])))

/-- Memory in which no node is linked. -/
def exHeap0 : DHeap := fun _ => { cont := none, next := none, prev := none }

/-- The nodes of `c`, all distinct, form one circular list in this order: each is
followed by the next one and the last by the first. -/
def Cyc (h : DHeap) : List Nat → Prop
  | [] => False
  | a :: l => (a :: l).Nodup ∧ List.Chain' (link h) (a :: l ++ [a])

/-- Memory holding the list with sentinel at address 10 and the elements at 1, 2, 3 in
this order; the node at 4 is not linked. -/
def exHeapABC : DHeap := fun a =>
  if a = 10 then { cont := none, next := some 1, prev := some 3 }
  else if a = 1 then { cont := some 101, next := some 2, prev := some 10 }
  else if a = 2 then { cont := some 102, next := some 3, prev := some 1 }
  else if a = 3 then { cont := some 103, next := some 10, prev := some 2 }
  else { cont := none, next := none, prev := none }

/-- The list `l` with the whole of `LS` inserted immediately after the first
occurrence of `dst`. -/
def insert_after (dst : Nat) (LS : List Nat) : List Nat → List Nat
  | [] => []
  | a :: l => if a = dst then a :: (LS ++ l) else a :: insert_after dst LS l

/-- The list `l` with the whole of `LS` inserted immediately before the first
occurrence of `dst`. -/
def insert_before (dst : Nat) (LS : List Nat) : List Nat → List Nat
  | [] => []
  | a :: l => if a = dst then LS ++ a :: l else a :: insert_before dst LS l

/-- Memory holding two lists: sentinel 10 with elements 1, 2, 3 and sentinel 20 with
elements 5, 6. -/
def exHeapTwo : DHeap := fun a =>
  if a = 20 then { cont := none, next := some 5, prev := some 6 }
  else if a = 5 then { cont := some 105, next := some 6, prev := some 20 }
  else if a = 6 then { cont := some 106, next := some 20, prev := some 5 }
  else exHeapABC a

/-- The memory in which the nodes of `S` have their `next` and `prev` exchanged. -/
def swap_fields (h : DHeap) (S : List Nat) : DHeap := fun a =>
  if a ∈ S then { cont := (h a).cont, next := (h a).prev, prev := (h a).next } else h a

/-- The memory after `dlist_head_init` of the node at 10 and `dlist_push_back` of the
nodes at 1, 2 and 3 in this order, starting from memory with no links. -/
def exPushedABC : Option DHeap :=
  (dlist_head_init exHeap0 (some 10)).bind fun r0 =>
  (dlist_push_back r0.1 (some 10) (some 1)).bind fun r1 =>
  (dlist_push_back r1.1 (some 10) (some 2)).bind fun r2 =>
  (dlist_push_back r2.1 (some 10) (some 3)).map fun r3 => r3.1

/-- The node at `n` satisfies `n->next->prev == n` and `n->prev->next == n`. -/
def node_ok (h : DHeap) (n : Nat) : Prop :=
  (h n).next.bind (fun nx => (h nx).prev) = some n ∧
    (h n).prev.bind (fun pv => (h pv).next) = some n

instance node_ok.decidable (h : DHeap) (n : Nat) : Decidable (node_ok h n) :=
  inferInstanceAs (Decidable ((h n).next.bind (fun nx => (h nx).prev) = some n ∧
    (h n).prev.bind (fun pv => (h pv).next) = some n))

/-- The loop that walks backward from the iterator value `iter`, following `prev` until
`list` is reached, with a body that updates a state and does not write the list. -/
def dlist_backward_loop {σ : Type} (body : σ → Ptr → σ) :
    Nat → DHeap → Ptr → Ptr → σ → Option σ
  | 0, _, _, _, _ => none
  | fuel + 1, h, list, iter, st =>
    if iter = list then some st
    else (rd_prev h iter).bind fun nx => dlist_backward_loop body fuel h list nx (body st iter)

/-- The nodes visited from `self` following `prev` until `self` is reached again. -/
def backward_traversal (fuel : Nat) (h : DHeap) (self : Ptr) : Option (List Ptr) :=
  (rd_prev h self).bind fun it =>
    dlist_backward_loop (fun acc it => acc ++ [it]) fuel h self it []

/-- The facts that make a list well-formed in both directions: every node of the ring
satisfies `next->prev == self` and `prev->next == self`, the forward traversal is `L`
and the backward traversal is the reverse of `L`. -/
def BothWays (fuel : Nat) (h : DHeap) (H : Nat) (L : List Nat) : Prop :=
  Ring h H L ∧ (∀ n ∈ H :: L, node_ok h n) ∧
    dlist_traversal fuel h (some H) = some (L.map some) ∧
    backward_traversal fuel h (some H) = some (L.reverse.map some)

/-- The `struct slist`. -/
structure Slist where
  next : Ptr
  cont : Option Nat
deriving DecidableEq, Repr

/-- The singly-linked nodes in memory, by address. -/
abbrev SHeap := Nat → Slist

/-- Reads `p->next` of a singly-linked node; undefined for `NULL`. -/
def srd_next (h : SHeap) (p : Ptr) : Option Ptr := p.map fun a => (h a).next

/-- The memory after the field `next` of the singly-linked node at `a` was set to `v`. -/
def sset_next (h : SHeap) (a : Nat) (v : Ptr) : SHeap :=
  Function.update h a { h a with next := v }

/-- The memory after the field `cont` of the singly-linked node at `a` was set to `v`. -/
def sset_cont (h : SHeap) (a : Nat) (v : Option Nat) : SHeap :=
  Function.update h a { h a with cont := v }

/-- Executes `p->next = v` on a singly-linked node; undefined for `NULL`. -/
def swr_next (h : SHeap) (p : Ptr) (v : Ptr) : Option SHeap :=
  p.map fun a => sset_next h a v

/-- Executes `p->cont = v` on a singly-linked node; undefined for `NULL`. -/
def swr_cont (h : SHeap) (p : Ptr) (v : Option Nat) : Option SHeap :=
  p.map fun a => sset_cont h a v

/-- Source: `slist_init`. -/
def slist_init (h : SHeap) (dst : Ptr) (cont : Option Nat) : Option (SHeap × Ptr) :=
  (swr_next h dst none).bind fun h1 =>
  (swr_cont h1 dst cont).bind fun h2 =>
  some (h2, dst)

/-- Source: `slist_pop_after`. -/
def slist_pop_after (h : SHeap) (src : Ptr) : Option (SHeap × Ptr) :=
  match src with
  | none => some (h, none)
  | some s =>
    if (h s).next ≠ none then
      (srd_next h src).bind fun tmp =>
      (srd_next h src).bind fun n =>
      (srd_next h n).bind fun nn =>
      (swr_next h src nn).bind fun h1 =>
      some (h1, tmp)
    else some (h, none)

/-- Source: `slist_push_after`. -/
def slist_push_after (h : SHeap) (dst src : Ptr) : Option (SHeap × Ptr) :=
  match src, dst with
  | some _, some _ =>
    (srd_next h dst).bind fun dn =>
    (swr_next h src dn).bind fun h1 =>
    (swr_next h1 dst src).bind fun h2 =>
    some (h2, src)
  | _, _ => some (h, none)

/-- Source: `slist_push_front`. -/
def slist_push_front (h : SHeap) (self src : Ptr) : Option (SHeap × Ptr) :=
  slist_push_after h self src

/-- Source: `slist_length`: the counter is initialised and returned; the list is not
read. -/
def slist_length (_h : SHeap) (_self : Ptr) : Nat :=
  let i := 0
  i

/-- The chain after the node at `n` is `L`: `n->next`, `n->next->next`, ... up to the
first absent `next`. -/
def schain (h : SHeap) : Nat → List Nat → Prop
  | n, [] => (h n).next = none
  | n, x :: xs => (h n).next = some x ∧ schain h x xs

instance schain.decidable (h : SHeap) : (n : Nat) → (L : List Nat) → Decidable (schain h n L)
  | n, [] => inferInstanceAs (Decidable ((h n).next = none))
  | n, x :: xs =>
    @instDecidableAnd _ _ (inferInstanceAs (Decidable ((h n).next = some x)))
      (schain.decidable h x xs)

/-- Memory holding the singly-linked list with head at address 0 and the chain 1, 2; the
node at 5 is not linked. -/
def exSHeap : SHeap := fun a =>
  if a = 0 then { next := some 1, cont := none }
  else if a = 1 then { next := some 2, cont := some 101 }
  else if a = 2 then { next := none, cont := some 102 }
  else { next := none, cont := none }

/-- Memory holding the list with sentinel 10 and elements 1, 2, 3 and the empty list
with sentinel 20. -/
def exHeapEmptySrc : DHeap := fun a =>
  if a = 20 then { cont := none, next := some 20, prev := some 20 } else exHeapABC a

/-- The loop of the macro `dlist_foreach_reverse` from the iterator value `iter`: the
source steps with `(_iter_p) = (_iter_p)->next`. -/
def dlist_foreach_reverse_loop {σ : Type} (body : σ → Ptr → σ) :
    Nat → DHeap → Ptr → Ptr → σ → Option σ
  | 0, _, _, _, _ => none
  | fuel + 1, h, list, iter, st =>
    if iter = list then some st
    else (rd_next h iter).bind fun nx =>
      dlist_foreach_reverse_loop body fuel h list nx (body st iter)

/-- Source: the macro `dlist_foreach_reverse`; it starts with
`(_iter_p) = (_list_p)->next`. -/
def dlist_foreach_reverse {σ : Type} (body : σ → Ptr → σ) (fuel : Nat) (h : DHeap)
    (list : Ptr) (st : σ) : Option σ :=
  (rd_next h list).bind fun it => dlist_foreach_reverse_loop body fuel h list it st

/-- Source: the macro `dlist_popeach`: the initialisation and the step are both
`(_iter_p) = dlist_pop((_list_p)->next)`, the condition is `(_iter_p) != (_list_p)`.
The body is any code: it is run on the memory left by the `dlist_pop`, with the state of
the caller and the iterator, and gives the memory and the state it leaves; the loop goes
on from that memory.  One unit of fuel per evaluation of the condition.  Returns the
memory and the state at the end of the loop. -/
def dlist_popeach {σ : Type} (body : DHeap → σ → Ptr → DHeap × σ) :
    Nat → DHeap → Ptr → σ → Option (DHeap × σ)
  | 0, _, _, _ => none
  | fuel + 1, h, list, st =>
    (rd_next h list).bind fun n =>
    (dlist_pop h n).bind fun r =>
    if r.2 = list then some (r.1, st)
    else dlist_popeach body fuel (body r.1 st r.2).1 list (body r.1 st r.2).2

/-- Source: the macro `dlist_popeach_reverse`: as `dlist_popeach`, with
`dlist_pop((_list_p)->prev)`. -/
def dlist_popeach_reverse {σ : Type} (body : DHeap → σ → Ptr → DHeap × σ) :
    Nat → DHeap → Ptr → σ → Option (DHeap × σ)
  | 0, _, _, _ => none
  | fuel + 1, h, list, st =>
    (rd_prev h list).bind fun n =>
    (dlist_pop h n).bind fun r =>
    if r.2 = list then some (r.1, st)
    else dlist_popeach_reverse body fuel (body r.1 st r.2).1 list (body r.1 st r.2).2

/-- The body `body` with a record added to its state: each run appends the value of the
iterator to the record and otherwise does what `body` does. -/
def with_log {σ : Type} (body : DHeap → σ → Ptr → DHeap × σ) :
    DHeap → σ × List Ptr → Ptr → DHeap × (σ × List Ptr) :=
  fun hh s it => ((body hh s.1 it).1, ((body hh s.1 it).2, s.2 ++ [it]))

/-- The body does not modify the ring of `H` while the elements `es` are popped in this
order, starting from the memory `h` and the state `st`: each run of the body, on the
memory left by the `dlist_pop` of the element, leaves the `next` and the `prev` of the
sentinel and of the elements still in the list as they were.  The body may write every
other node, the popped one included, and the `cont` of every node. -/
def body_keeps_ring {σ : Type} (body : DHeap → σ → Ptr → DHeap × σ) (H : Nat) :
    List Nat → DHeap → σ → Prop
  | [], _, _ => True
  | e :: es, h, st =>
    match dlist_pop h (some e) with
    | none => True
    | some r =>
      (∀ a ∈ H :: es, ((body r.1 st (some e)).1 a).next = (r.1 a).next ∧
        ((body r.1 st (some e)).1 a).prev = (r.1 a).prev) ∧
      body_keeps_ring body H es (body r.1 st (some e)).1 (body r.1 st (some e)).2

instance body_keeps_ring.decidable {σ : Type} (body : DHeap → σ → Ptr → DHeap × σ)
    (H : Nat) : (es : List Nat) → (h : DHeap) → (st : σ) →
    Decidable (body_keeps_ring body H es h st)
  | [], _, _ => isTrue trivial
  | e :: es, h, st =>
    match hp : dlist_pop h (some e) with
    | none => isTrue (by simp [body_keeps_ring, hp])
    | some r =>
      @decidable_of_iff _
        ((∀ a ∈ H :: es, ((body r.1 st (some e)).1 a).next = (r.1 a).next ∧
            ((body r.1 st (some e)).1 a).prev = (r.1 a).prev) ∧
          body_keeps_ring body H es (body r.1 st (some e)).1 (body r.1 st (some e)).2)
        (by rw [body_keeps_ring, hp])
        (@instDecidableAnd _ _ inferInstance
          (body_keeps_ring.decidable body H es (body r.1 st (some e)).1
            (body r.1 st (some e)).2))

/-- A loop body that links the popped node at the back of the list with sentinel 20
and records the iterator. -/
def exBodyMove : DHeap → List Ptr → Ptr → DHeap × List Ptr := fun hh acc it =>
  match dlist_push_back hh (some 20) it with
  | some r => (r.1, acc ++ [it])
  | none => (hh, acc ++ [it])

/-- A loop body that re-initialises the popped node and counts the runs. -/
def exBodyInit : DHeap → Nat → Ptr → DHeap × Nat := fun hh n it =>
  match dlist_init hh it none with
  | some r => (r.1, n + 1)
  | none => (hh, n + 1)

/-! # Theorems -/

/-! ## Arithmetic and memory -/

theorem sz_add_eq {a b : Nat} (h : a + b < SIZE_MOD) : sz_add a b = a + b :=
  Nat.mod_eq_of_lt h

theorem sz_sub_eq {a b : Nat} (hb : b ≤ a) (ha : a < SIZE_MOD) : sz_sub a b = a - b := by
  simp only [sz_sub, SIZE_MOD] at *
  omega

theorem wrap_mod {c a : Nat} (h1 : c ≤ a) (h2 : a < c + c) : a % c = a - c := by
  rw [Nat.mod_eq_sub_mod h1, Nat.mod_eq_of_lt (by omega)]

theorem ring_slice_length (mem : List Nat) (t n : Nat) : (ring_slice mem t n).length = n := by
  simp [ring_slice]

theorem ring_slice_nowrap (mem : List Nat) (t n : Nat) (h : t + n ≤ mem.length) :
    ring_slice mem t n = (mem.drop t).take n := by
  apply List.ext_getElem
  · simp [ring_slice]; omega
  · intro i h1 h2
    simp [ring_slice] at h1 ⊢
    have : (t + i) % mem.length = t + i := Nat.mod_eq_of_lt (by omega)
    simp [this, List.getD_eq_getElem?_getD]
    rw [List.getElem?_eq_getElem (by omega)]; simp

theorem ring_slice_wrap (mem : List Nat) (t n : Nat) (ht : t ≤ mem.length)
    (h : mem.length ≤ t + n) (hn : n ≤ mem.length) :
    ring_slice mem t n = mem.drop t ++ mem.take (n - (mem.length - t)) := by
  apply List.ext_getElem
  · simp [ring_slice]; omega
  · intro i h1 h2
    simp [ring_slice] at h1 ⊢
    by_cases hi : t + i < mem.length
    · have : (t + i) % mem.length = t + i := Nat.mod_eq_of_lt hi
      rw [List.getElem_append_left (by simp; omega)]
      simp [this, List.getD_eq_getElem?_getD]
      rw [List.getElem?_eq_getElem (by omega)]; simp
    · have : (t + i) % mem.length = t + i - mem.length := wrap_mod (by omega) (by omega)
      rw [List.getElem_append_right (by simp; omega)]
      simp [this, List.getD_eq_getElem?_getD]
      rw [List.getElem?_eq_getElem (by omega)]; simp
      congr 1; omega

theorem fifo_size_eq (f : Fifo) (hcap : f.buf.size ≤ PTRDIFF_MAX) (hh : f.head < f.buf.size)
    (ht : f.tail < f.buf.size) :
    fifo_size f = if f.tail ≤ f.head then f.head - f.tail
      else f.head + f.buf.size - f.tail := by
  simp only [fifo_size, sz_sub, sz_add, SIZE_MOD, PTRDIFF_MAX] at *
  split <;> omega

theorem fifo_size_lt (f : Fifo) (hcap : f.buf.size ≤ PTRDIFF_MAX) (hh : f.head < f.buf.size)
    (ht : f.tail < f.buf.size) : fifo_size f < f.buf.size := by
  rw [fifo_size_eq f hcap hh ht]; split <;> omega

theorem memcpy_front (d s : List Nat) (so n : Nat) (hd : n ≤ d.length)
    (hs : so + n ≤ s.length) :
    memcpy d 0 s so n = some ((s.drop so).take n ++ d.drop n) := by
  simp [memcpy, hd, hs]

theorem fifo_peek_ok (f : Fifo) (dst : Buf) (hcap : f.buf.size ≤ PTRDIFF_MAX)
    (ht : f.tail < f.buf.size) (hlt : fifo_size f < f.buf.size)
    (hn : dst.size ≤ fifo_size f) :
    fifo_peek f dst = some ({ mem := ring_slice f.buf.mem f.tail dst.size }, dst.size) := by
  have hn' : ¬ fifo_size f < dst.size := by omega
  simp only [fifo_peek, hn', if_false]
  have hM : PTRDIFF_MAX + PTRDIFF_MAX < SIZE_MOD := by decide
  have e1 : sz_add f.tail dst.size = f.tail + dst.size := sz_add_eq (by omega)
  have e2 : sz_sub f.buf.size f.tail = f.buf.size - f.tail :=
    sz_sub_eq (by omega) (by omega)
  simp only [Buf.size] at *
  rw [e1, e2]
  by_cases hw : f.tail + dst.mem.length ≥ f.buf.mem.length
  · have e3 : sz_sub dst.mem.length (f.buf.mem.length - f.tail)
        = dst.mem.length - (f.buf.mem.length - f.tail) := sz_sub_eq (by omega) (by omega)
    rw [if_pos hw, e3, memcpy_front _ _ _ _ (by omega) (by omega)]
    rw [ring_slice_wrap _ _ _ (by omega) hw (by omega)]
    simp [memcpy]
    refine ⟨by omega, ?_⟩
    have h1 : List.take (f.buf.mem.length - f.tail) (List.drop f.tail f.buf.mem)
        = List.drop f.tail f.buf.mem := List.take_of_length_le (by simp)
    have h2 : List.drop (f.buf.mem.length - f.tail
          + (dst.mem.length - (f.buf.mem.length - f.tail)))
        (List.drop f.tail f.buf.mem ++ List.drop (f.buf.mem.length - f.tail) dst.mem) = [] := by
      apply List.drop_of_length_le
      simp only [List.length_append, List.length_drop]; omega
    rw [h1, h2]; simp
  · rw [if_neg hw, memcpy_front _ _ _ _ (by omega) (by omega)]
    rw [ring_slice_nowrap _ _ _ (by omega)]
    simp

theorem ring_slice_take (mem : List Nat) (t s n : Nat) (h : n ≤ s) :
    (ring_slice mem t s).take n = ring_slice mem t n := by
  simp only [ring_slice, ← List.map_take, List.take_range, Nat.min_eq_left h]

theorem ring_slice_drop (mem : List Nat) (t s n : Nat) :
    (ring_slice mem t s).drop n = ring_slice mem ((t + n) % mem.length) (s - n) := by
  apply List.ext_getElem
  · simp [ring_slice]
  · intro i h1 h2
    simp [ring_slice, Nat.add_assoc]

theorem fifo_size_advance (f : Fifo) (n : Nat) (hcap : f.buf.size ≤ PTRDIFF_MAX)
    (hh : f.head < f.buf.size) (ht : f.tail < f.buf.size) (hn : n ≤ fifo_size f) :
    fifo_size { f with tail := (f.tail + n) % f.buf.size } = fifo_size f - n := by
  have hlt := fifo_size_lt f hcap hh ht
  have ht' : (f.tail + n) % f.buf.size < f.buf.size := Nat.mod_lt _ (by omega)
  rw [fifo_size_eq { f with tail := (f.tail + n) % f.buf.size } hcap hh ht']
  rw [fifo_size_eq f hcap hh ht] at hn hlt ⊢
  simp only
  by_cases hw : f.tail + n < f.buf.size
  · have e : (f.tail + n) % f.buf.size = f.tail + n := Nat.mod_eq_of_lt hw
    simp only [e]
    split at hn <;> split <;> omega
  · have e : (f.tail + n) % f.buf.size = f.tail + n - f.buf.size :=
      wrap_mod (by omega) (by omega)
    simp only [e]
    split at hn <;> split <;> omega

theorem fifo_pop_ok (f : Fifo) (dst : Buf) (hcap : f.buf.size ≤ PTRDIFF_MAX)
    (ht : f.tail < f.buf.size) (hlt : fifo_size f < f.buf.size)
    (hn : dst.size ≤ fifo_size f) :
    fifo_pop f dst = some ({ f with tail := (f.tail + dst.size) % f.buf.size },
      { mem := ring_slice f.buf.mem f.tail dst.size }, dst.size) := by
  simp only [fifo_pop, fifo_peek_ok f dst hcap ht hlt hn, Option.bind_some]
  by_cases h0 : dst.size = 0
  · have e : (f.tail + dst.size) % f.buf.size = f.tail := by
      rw [h0, Nat.add_zero, Nat.mod_eq_of_lt ht]
    rw [e]
    simp [h0]
  · have e : sz_add f.tail dst.size = f.tail + dst.size := sz_add_eq (by
      have hM : PTRDIFF_MAX + PTRDIFF_MAX < SIZE_MOD := by decide
      omega)
    have hc : f.buf.size ≠ 0 := by omega
    simp [h0, e, sz_mod, hc]

/-- C1 (`fifo_peek`, `fifo_pop`): on a ring buffer with `head, tail < capacity` and a
destination of `n ≤ fifo_size` bytes, `fifo_peek` returns `n` and delivers the first
`n` bytes of the contents (the function does not write the ring buffer, and a second
peek into the same destination delivers the same bytes); `fifo_pop` returns `n`,
delivers the same bytes, only moves `tail` to `(tail + n) % capacity`, and afterwards
the contents are the old ones without their first `n` bytes and `fifo_size` is reduced
by `n`. -/
theorem fifo_peek_pop_fifo (f : Fifo) (dst : Buf) (hcap : f.buf.size ≤ PTRDIFF_MAX)
    (hh : f.head < f.buf.size) (ht : f.tail < f.buf.size) (hn : dst.size ≤ fifo_size f) :
    fifo_peek f dst = some ({ mem := (contents f).take dst.size }, dst.size) ∧
    fifo_peek f { mem := (contents f).take dst.size }
      = some ({ mem := (contents f).take dst.size }, dst.size) ∧
    fifo_pop f dst = some ({ f with tail := (f.tail + dst.size) % f.buf.size },
      { mem := (contents f).take dst.size }, dst.size) ∧
    contents { f with tail := (f.tail + dst.size) % f.buf.size }
      = (contents f).drop dst.size ∧
    fifo_size { f with tail := (f.tail + dst.size) % f.buf.size }
      = fifo_size f - dst.size := by
  have hlt := fifo_size_lt f hcap hh ht
  have hp := fifo_peek_ok f dst hcap ht hlt hn
  have hsl : (contents f).take dst.size = ring_slice f.buf.mem f.tail dst.size :=
    ring_slice_take _ _ _ _ hn
  have hadv := fifo_size_advance f dst.size hcap hh ht hn
  refine ⟨by rw [hp, hsl], ?_, ?_, ?_, hadv⟩
  · have hl : Buf.size { mem := (contents f).take dst.size } = dst.size := by
      show ((contents f).take dst.size).length = dst.size
      rw [hsl, ring_slice_length]
    have := fifo_peek_ok f { mem := (contents f).take dst.size } hcap ht hlt (by omega)
    rw [this, hl, hsl]
  · rw [fifo_pop_ok f dst hcap ht hlt hn, hsl]
  · simp only [contents, hadv]
    rw [ring_slice_drop]
    rfl

theorem fifo_peek_pop_fifo_witness :
    (exFifo.buf.size ≤ PTRDIFF_MAX ∧ exFifo.head < exFifo.buf.size ∧
      exFifo.tail < exFifo.buf.size ∧ Buf.size { mem := [0, 0, 0, 0] } ≤ fifo_size exFifo) ∧
    fifo_pop exFifo { mem := [0, 0, 0, 0] }
      = some ({ exFifo with tail := 7 }, { mem := [4, 5, 6, 7] }, 4) ∧
    fifo_pop exFifo { mem := [0, 0, 0, 0, 0, 0] }
      = some ({ exFifo with tail := 1 }, { mem := [4, 5, 6, 7, 8, 9] }, 6) := by
  refine ⟨by decide, ?_, ?_⟩
  · exact (fifo_peek_pop_fifo exFifo { mem := [0, 0, 0, 0] } (by decide) (by decide)
      (by decide) (by decide)).2.2.1
  · exact (fifo_peek_pop_fifo exFifo { mem := [0, 0, 0, 0, 0, 0] } (by decide) (by decide)
      (by decide) (by decide)).2.2.1

theorem memcpy_nowrap_eq (mem data : List Nat) (h : Nat) (hd : h + data.length ≤ mem.length) :
    memcpy mem h data 0 data.length = some (ring_write mem h data) := by
  simp only [memcpy, hd, Nat.zero_add, le_refl, and_self, if_true, Option.some.injEq]
  apply List.ext_getElem
  · simp [ring_write]; omega
  · intro i h1 h2
    simp only [ring_write, List.getElem_map, List.getElem_range, List.drop_zero,
      List.take_length]
    simp only [List.getElem_append, List.length_take, List.getElem_take, List.getElem_drop]
    simp only [ring_write, List.length_map, List.length_range] at h2
    have hm : min h mem.length = h := min_eq_left (by omega)
    simp only [hm]
    split_ifs <;> first | omega | skip
    all_goals (rw [List.getD_eq_getElem _ _ (by omega)]; try (congr 1; omega))

theorem memcpy_wrap_eq (mem data : List Nat) (h : Nat) (hh : h ≤ mem.length)
    (hd : mem.length ≤ h + data.length) (hl : data.length ≤ mem.length) :
    (memcpy mem h data 0 (mem.length - h)).bind (fun m1 =>
      memcpy m1 0 data (mem.length - h) (data.length - (mem.length - h)))
      = some (ring_write mem h data) := by
  have c1 : h + (mem.length - h) ≤ mem.length ∧ 0 + (mem.length - h) ≤ data.length := by
    omega
  simp only [memcpy, c1, and_self, if_true, Option.some_bind]
  rw [if_pos (by simp; omega)]
  simp only [Option.some.injEq]
  apply List.ext_getElem
  · simp [ring_write]; omega
  · intro i h1 h2
    simp only [ring_write, List.getElem_map, List.getElem_range, List.drop_zero,
      List.take_length]
    simp only [List.getElem_append, List.length_take, List.getElem_take, List.getElem_drop,
      List.length_drop, List.length_append]
    simp only [ring_write, List.length_map, List.length_range] at h2
    have hm : min h mem.length = h := min_eq_left (by omega)
    simp only [hm]
    split_ifs <;> first | omega | skip
    all_goals (rw [List.getD_eq_getElem _ _ (by omega)]; try (congr 1; omega))

theorem ring_write_length (mem : List Nat) (h : Nat) (data : List Nat) :
    (ring_write mem h data).length = mem.length := by
  simp [ring_write]

theorem ring_write_getD (mem : List Nat) (h : Nat) (data : List Nat) (i : Nat)
    (hi : i < mem.length) :
    (ring_write mem h data).getD i 0 =
      if h ≤ i ∧ i < h + data.length then data.getD (i - h) 0
      else if i + mem.length < h + data.length then data.getD (i + mem.length - h) 0
      else mem.getD i 0 := by
  rw [List.getD_eq_getElem _ _ (by rw [ring_write_length]; exact hi)]
  simp [ring_write]

theorem mod_cases {a c : Nat} (h : a < c + c) :
    a % c = if a < c then a else a - c := by
  split
  · exact Nat.mod_eq_of_lt (by assumption)
  · exact wrap_mod (by omega) h

theorem ring_slice_append (mem : List Nat) (t a b : Nat) :
    ring_slice mem t (a + b) = ring_slice mem t a ++ ring_slice mem ((t + a) % mem.length) b := by
  simp only [ring_slice, List.range_add, List.map_append, List.map_map]
  congr 1
  apply List.map_congr_left
  intro i _
  simp [Nat.add_assoc]

theorem ring_slice_written (mem : List Nat) (h : Nat) (data : List Nat)
    (hh : h < mem.length) (hl : data.length ≤ mem.length) :
    ring_slice (ring_write mem h data) h data.length = data := by
  apply List.ext_getElem
  · simp [ring_slice]
  · intro j h1 h2
    simp only [ring_slice, List.getElem_map, List.getElem_range, ring_write_length]
    have hp : (h + j) % mem.length < mem.length := Nat.mod_lt _ (by omega)
    rw [ring_write_getD _ _ _ _ hp]
    rw [mod_cases (by omega)] at hp ⊢
    split_ifs <;> first | omega | skip
    all_goals (rw [List.getD_eq_getElem _ _ (by omega)]; try (congr 1; omega))

theorem ring_slice_frame (mem : List Nat) (h : Nat) (data : List Nat) (t s : Nat)
    (ht : t < mem.length) (hs : s + data.length ≤ mem.length)
    (hh : h = (t + s) % mem.length) :
    ring_slice (ring_write mem h data) t s = ring_slice mem t s := by
  apply List.ext_getElem
  · simp [ring_slice]
  · intro j h1 h2
    simp only [ring_slice, List.length_map, List.length_range] at h2
    simp only [ring_slice, List.getElem_map, List.getElem_range, ring_write_length]
    have hp : (t + j) % mem.length < mem.length := Nat.mod_lt _ (by omega)
    rw [ring_write_getD _ _ _ _ hp]
    rw [mod_cases (by omega)] at hh
    rw [mod_cases (by omega)] at hp ⊢
    split_ifs at hh hp ⊢ <;> omega

theorem fifo_head_eq (f : Fifo) (hcap : f.buf.size ≤ PTRDIFF_MAX) (hh : f.head < f.buf.size)
    (ht : f.tail < f.buf.size) : f.head = (f.tail + fifo_size f) % f.buf.size := by
  rw [fifo_size_eq f hcap hh ht]
  rw [mod_cases (by split <;> omega)]
  split_ifs <;> omega

theorem fifo_size_after_push (f : Fifo) (m : List Nat) (n : Nat)
    (hcap : f.buf.size ≤ PTRDIFF_MAX) (hh : f.head < f.buf.size) (ht : f.tail < f.buf.size)
    (hm : m.length = f.buf.size) (hfit : fifo_size f + n < f.buf.size) :
    fifo_size { buf := { mem := m }, tail := f.tail, head := (f.head + n) % f.buf.size }
      = fifo_size f + n := by
  have hh' : (f.head + n) % f.buf.size < f.buf.size := Nat.mod_lt _ (by omega)
  have hsz : Buf.size { mem := m } = f.buf.size := hm
  rw [fifo_size_eq { buf := { mem := m }, tail := f.tail, head := (f.head + n) % f.buf.size }
    (by rw [hsz]; exact hcap) (by rw [hsz]; exact hh') (by rw [hsz]; exact ht)]
  rw [fifo_size_eq f hcap hh ht] at hfit ⊢
  simp only [hsz]
  rw [mod_cases (by omega)]
  split_ifs at hfit ⊢ <;> omega

theorem fifo_push_ok (f : Fifo) (data : Buf) (hcap : f.buf.size ≤ PTRDIFF_MAX)
    (hh : f.head < f.buf.size) (hfit : fifo_size f + data.size < f.buf.size) :
    fifo_push f data = some (fifo_pushed f data, data.size) := by
  have hM : PTRDIFF_MAX + PTRDIFF_MAX < SIZE_MOD := by decide
  have e0 : sz_add (fifo_size f) data.size = fifo_size f + data.size :=
    sz_add_eq (by omega)
  have e1 : sz_add f.head data.size = f.head + data.size := sz_add_eq (by omega)
  have e2 : sz_sub f.buf.size f.head = f.buf.size - f.head :=
    sz_sub_eq (by omega) (by omega)
  have hc : f.buf.size ≠ 0 := by omega
  simp only [fifo_push, e0, e1, e2, ge_iff_le, Nat.not_le.mpr hfit, if_false, sz_mod, hc]
  by_cases hw : f.buf.size ≤ f.head + data.size
  · have e3 : sz_sub data.size (f.buf.size - f.head) = data.size - (f.buf.size - f.head) :=
      sz_sub_eq (by omega) (by omega)
    rw [if_pos hw, e3]
    simp only [Buf.size] at *
    rw [memcpy_wrap_eq _ _ _ (by omega) hw (by omega)]
    rfl
  · rw [if_neg hw]
    simp only [Buf.size] at *
    rw [memcpy_nowrap_eq _ _ _ (by omega)]
    rfl

/-- C2 (`fifo_push`): on a ring buffer with `head, tail < capacity` and data with
`fifo_size + len(data) < capacity`, `fifo_push` returns `len(data)`, leaves `tail`
unchanged, sets `head` to `(head + len(data)) % capacity`, and afterwards the contents
are the old contents followed by `data` and `fifo_size` has grown by `len(data)`; the
case `head + len(data) ≥ capacity`, where the write is split, is included. -/
theorem fifo_push_appends (f : Fifo) (data : Buf) (hcap : f.buf.size ≤ PTRDIFF_MAX)
    (hh : f.head < f.buf.size) (ht : f.tail < f.buf.size)
    (hfit : fifo_size f + data.size < f.buf.size) :
    fifo_push f data = some (fifo_pushed f data, data.size) ∧
    (fifo_pushed f data).tail = f.tail ∧
    (fifo_pushed f data).head = (f.head + data.size) % f.buf.size ∧
    contents (fifo_pushed f data) = contents f ++ data.mem ∧
    fifo_size (fifo_pushed f data) = fifo_size f + data.size := by
  have hsz := fifo_size_after_push f (ring_write f.buf.mem f.head data.mem) data.size hcap hh ht
    (ring_write_length _ _ _) hfit
  refine ⟨fifo_push_ok f data hcap hh hfit, rfl, rfl, ?_, hsz⟩
  have hhd := fifo_head_eq f hcap hh ht
  simp only [fifo_pushed] at hsz
  simp only [contents, hsz, fifo_pushed]
  simp only [Buf.size] at *
  rw [ring_slice_append, ring_write_length]
  rw [ring_slice_frame _ _ _ _ _ ht (by omega) hhd]
  rw [← hhd, ring_slice_written _ _ _ hh (by omega)]

theorem fifo_push_appends_witness :
    (exFifo2.buf.size ≤ PTRDIFF_MAX ∧ exFifo2.head < exFifo2.buf.size ∧
      exFifo2.tail < exFifo2.buf.size ∧
      fifo_size exFifo2 + Buf.size { mem := [6, 7, 8, 9] } < exFifo2.buf.size) ∧
    fifo_push (fifo (buf [0, 0, 0, 0, 0, 0, 0, 0])) (buf [1, 2, 3, 4, 5]) = some (exFifo1, 5) ∧
    fifo_pop exFifo1 (buf [0, 0, 0]) = some (exFifo2, buf [1, 2, 3], 3) ∧
    fifo_size exFifo2 = 2 ∧
    exFifo2.buf.size ≤ exFifo2.head + Buf.size { mem := [6, 7, 8, 9] } ∧
    fifo_push exFifo2 { mem := [6, 7, 8, 9] } = some (exFifo, 4) ∧
    contents exFifo = contents exFifo2 ++ [6, 7, 8, 9] ∧
    fifo_pop exFifo (buf [0, 0, 0, 0, 0, 0])
      = some ({ exFifo with tail := 1 }, buf [4, 5, 6, 7, 8, 9], 6) := by
  have h := fifo_push_appends exFifo2 { mem := [6, 7, 8, 9] } (by decide) (by decide)
    (by decide) (by decide)
  exact ⟨by decide, by decide, by decide, by decide, by decide, h.1, h.2.2.2.1, by decide⟩

/-! ## Stack -/

theorem stack_push_ok (s : Stack) (d : Buf) (hov : s.size + d.size < SIZE_MOD)
    (hfit : s.size + d.size ≤ s.buf.size) :
    stack_push s d = some ({ buf := { mem := s.buf.mem.take s.size ++ (d.mem ++
      s.buf.mem.drop (s.size + d.size)) }, size := s.size + d.size }, d.size) := by
  have e : sz_add s.size d.size = s.size + d.size := sz_add_eq hov
  simp only [stack_push, e, gt_iff_lt, Nat.not_lt.mpr hfit, if_false]
  simp only [Buf.size] at *
  simp [memcpy, hfit]

theorem stack_pop_ok (s : Stack) (dst : Buf) (hc : s.buf.size < SIZE_MOD)
    (hs : s.size ≤ s.buf.size) (hn : dst.size ≤ s.size) :
    stack_pop s dst = some ({ s with size := s.size - dst.size },
      { mem := (s.buf.mem.drop (s.size - dst.size)).take dst.size }, dst.size) := by
  have e : sz_sub s.size dst.size = s.size - dst.size := sz_sub_eq hn (by omega)
  simp only [stack_pop, e, Nat.not_lt.mpr hn, if_false]
  simp only [Buf.size] at *
  have : s.size - dst.mem.length + dst.mem.length ≤ s.buf.mem.length := by omega
  simp [memcpy, this]

theorem stack_pop_all_append (s : Stack) (a b : List Buf) :
    stack_pop_all s (a ++ b) = (stack_pop_all s a).bind fun r =>
      (stack_pop_all r.1 b).map fun q => (q.1, r.2.1 ++ q.2.1, r.2.2 ++ q.2.2) := by
  induction a generalizing s with
  | nil => simp [stack_pop_all]
  | cons d a ih =>
    show stack_pop_all s (d :: (a ++ b)) = _
    simp only [stack_pop_all]
    cases stack_pop s d with
    | none => rfl
    | some r =>
      simp only [Option.some_bind]
      rw [ih r.1]
      cases stack_pop_all r.1 a with
      | none => rfl
      | some q =>
        simp only [Option.map_some', Option.some_bind]
        cases stack_pop_all q.1 b with
        | none => rfl
        | some p => rfl

theorem stack_round_trip_aux (ds : List Buf) : ∀ s : Stack, s.buf.size < SIZE_MOD →
    s.size + (ds.map Buf.size).sum ≤ s.buf.size →
    ∃ s1, stack_push_all s ds = some (s1, ds.map Buf.size) ∧
      s1.buf.size = s.buf.size ∧ s1.size = s.size + (ds.map Buf.size).sum ∧
      s1.buf.mem.take s.size = s.buf.mem.take s.size ∧
      ∀ dsts : List Buf, dsts.map Buf.size = (ds.map Buf.size).reverse →
        stack_pop_all s1 dsts
          = some ({ s1 with size := s.size }, ds.reverse, (ds.map Buf.size).reverse) := by
  induction ds with
  | nil =>
    intro s _ _
    refine ⟨s, rfl, rfl, by simp, rfl, ?_⟩
    intro dsts hd
    simp only [List.map_nil, List.reverse_nil, List.map_eq_nil_iff] at hd
    subst hd
    rfl
  | cons d ds ih =>
    intro s hc hfit
    simp only [List.map_cons, List.sum_cons] at hfit
    have hfit1 : s.size + d.size ≤ s.buf.size := by omega
    have hp := stack_push_ok s d (by omega) hfit1
    generalize hs' : ({ buf := { mem := s.buf.mem.take s.size ++ (d.mem ++
      s.buf.mem.drop (s.size + d.size)) }, size := s.size + d.size } : Stack) = s' at hp
    have hsz' : s'.size = s.size + d.size := by rw [← hs']
    have hmem' : s'.buf.mem = s.buf.mem.take s.size ++ (d.mem ++
      s.buf.mem.drop (s.size + d.size)) := by rw [← hs']
    have hlen' : s'.buf.size = s.buf.size := by
      simp only [Buf.size, hmem'] at hfit1 ⊢
      simp; omega
    obtain ⟨s1, h1, h2, h3, h4, h5⟩ := ih s' (by rw [hlen']; exact hc)
      (by rw [hlen', hsz']; omega)
    have htk : s1.buf.mem.take (s.size + d.size) = s.buf.mem.take s.size ++ d.mem := by
      rw [← hsz', h4, hmem', hsz']
      have hl : (s.buf.mem.take s.size).length = s.size := by
        simp only [Buf.size] at hfit1; simp; omega
      rw [List.take_append_eq_append_take, hl, List.take_of_length_le (by omega)]
      simp [Buf.size]
    refine ⟨s1, ?_, by rw [h2, hlen'], by rw [h3, hsz']; simp; omega, ?_, ?_⟩
    · simp [stack_push_all, hp, h1]
    · have := congrArg (List.take s.size) htk
      rw [List.take_take, min_eq_left (by omega)] at this
      rw [this, List.take_append_of_le_length (by simp only [Buf.size] at hfit1; simp; omega)]
      simp
    · intro dsts hd
      simp only [List.map_cons, List.reverse_cons] at hd ⊢
      obtain ⟨l1, l2, rfl, hl1, hl2⟩ := List.map_eq_append_iff.mp hd
      rw [stack_pop_all_append, h5 l1 hl1]
      simp only [Option.some_bind]
      obtain ⟨dst, rfl⟩ : ∃ dst, l2 = [dst] := by
        cases l2 with
        | nil => simp at hl2
        | cons x t =>
          cases t with
          | nil => exact ⟨x, rfl⟩
          | cons y t => simp at hl2
      simp only [List.map_cons, List.map_nil, List.cons.injEq, and_true] at hl2
      have hpop := stack_pop_ok { s1 with size := s'.size } dst (by show s1.buf.size < _; rw [h2, hlen']; exact hc)
        (by show s'.size ≤ s1.buf.size; rw [h2, hlen', hsz']; exact hfit1)
        (by show dst.size ≤ s'.size; rw [hl2, hsz']; omega)
      simp only [stack_pop_all, hpop, Option.some_bind, Option.map_some']
      simp only [hsz', hl2, Nat.add_sub_cancel]
      have hbytes : (s1.buf.mem.drop s.size).take d.size = d.mem := by
        rw [List.take_drop, htk]
        have hl : (s.buf.mem.take s.size).length = s.size := by
          simp only [Buf.size] at hfit1; simp; omega
        rw [List.drop_append_of_le_length (by omega), List.drop_of_length_le (by omega)]
        simp
      rw [hbytes]

/-- C3 (`stack_push`, `stack_pop`): on a stack with `used = u` and capacity `c`, for
views `d1..dk` with `u + len(d1) + ... + len(dk) ≤ c`, the pushes of `d1, ..., dk`
in order all succeed (each returns `len(di)`), the pops into destinations of lengths
`len(dk), ..., len(d1)` then return exactly `dk, ..., d1`, after which `stack_size`
is `u` again and the bytes in `[0, u)` are unchanged; and `stack_pop` of `n ≤ used`
bytes delivers the bytes at `[used - n, used)`. -/
theorem stack_round_trip (s : Stack) (ds dsts : List Buf) (hc : s.buf.size < SIZE_MOD)
    (hfit : s.size + (ds.map Buf.size).sum ≤ s.buf.size)
    (hd : dsts.map Buf.size = (ds.map Buf.size).reverse) :
    ∃ s1 s2, stack_push_all s ds = some (s1, ds.map Buf.size) ∧
      stack_pop_all s1 dsts = some (s2, ds.reverse, (ds.map Buf.size).reverse) ∧
      stack_size s2 = s.size ∧ s2.buf.mem.take s.size = s.buf.mem.take s.size ∧
      ∀ (t : Stack) (dst : Buf), t.buf.size < SIZE_MOD → t.size ≤ t.buf.size →
        dst.size ≤ t.size →
        stack_pop t dst = some ({ t with size := t.size - dst.size },
          { mem := (t.buf.mem.drop (t.size - dst.size)).take dst.size }, dst.size) := by
  obtain ⟨s1, h1, _, _, h4, h5⟩ := stack_round_trip_aux ds s hc hfit
  exact ⟨s1, { s1 with size := s.size }, h1, h5 dsts hd, rfl, h4,
    fun t dst h1 h2 h3 => stack_pop_ok t dst h1 h2 h3⟩

theorem stack_round_trip_witness :
    (exStack.buf.size < SIZE_MOD ∧
      exStack.size + ([buf [1, 2], buf [3], buf [4, 5, 6]].map Buf.size).sum
        ≤ exStack.buf.size ∧
      [buf [0, 0, 0], buf [0], buf [0, 0]].map Buf.size
        = ([buf [1, 2], buf [3], buf [4, 5, 6]].map Buf.size).reverse) ∧
    stack_push_all exStack [buf [1, 2], buf [3], buf [4, 5, 6]]
      = some ({ buf := { mem := [7, 7, 1, 2, 3, 4, 5, 6] }, size := 8 }, [2, 1, 3]) ∧
    stack_pop_all { buf := { mem := [7, 7, 1, 2, 3, 4, 5, 6] }, size := 8 }
        [buf [0, 0, 0], buf [0], buf [0, 0]]
      = some ({ buf := { mem := [7, 7, 1, 2, 3, 4, 5, 6] }, size := 2 },
          [buf [4, 5, 6], buf [3], buf [1, 2]], [3, 1, 2]) ∧
    ∃ s1 s2, stack_push_all exStack [buf [1, 2], buf [3], buf [4, 5, 6]]
        = some (s1, [2, 1, 3]) ∧
      stack_pop_all s1 [buf [0, 0, 0], buf [0], buf [0, 0]]
        = some (s2, [buf [4, 5, 6], buf [3], buf [1, 2]], [3, 1, 2]) ∧
      stack_size s2 = 2 ∧ s2.buf.mem.take 2 = [7, 7] := by
  refine ⟨by decide, by decide, by decide, ?_⟩
  obtain ⟨s1, s2, h1, h2, h3, h4, _⟩ := stack_round_trip exStack
    [buf [1, 2], buf [3], buf [4, 5, 6]] [buf [0, 0, 0], buf [0], buf [0, 0]]
    (by decide) (by decide) (by decide)
  exact ⟨s1, s2, h1, h2, h3, h4⟩

/-! ## Failure of the byte-container operations -/

theorem stack_push_fail (s : Stack) (d : Buf) (hov : s.size + d.size < SIZE_MOD)
    (h : s.buf.size < s.size + d.size) : stack_push s d = some (s, 0) := by
  simp [stack_push, sz_add_eq hov, h]

theorem stack_pop_fail (s : Stack) (dst : Buf) (h : s.size < dst.size) :
    stack_pop s dst = some (s, dst, 0) := by
  simp [stack_pop, h]

theorem fifo_push_fail (f : Fifo) (d : Buf) (hov : fifo_size f + d.size < SIZE_MOD)
    (h : f.buf.size ≤ fifo_size f + d.size) : fifo_push f d = some (f, 0) := by
  simp [fifo_push, sz_add_eq hov, h]

theorem fifo_peek_fail (f : Fifo) (dst : Buf) (h : fifo_size f < dst.size) :
    fifo_peek f dst = some (dst, 0) := by
  simp [fifo_peek, h]

theorem fifo_pop_fail (f : Fifo) (dst : Buf) (h : fifo_size f < dst.size) :
    fifo_pop f dst = some (f, dst, 0) := by
  simp [fifo_pop, fifo_peek_fail f dst h]

/-- C4 (`stack_push`, `stack_pop`, `fifo_push`, `fifo_peek`, `fifo_pop`): with the sums
`used + len(data)` and `fifo_size + len(data)` not overflowing `size_t`, a call fails
exactly under its stated condition, and a failing call returns 0 and leaves the
container (backing bytes, `used`, `head`, `tail`) and the destination as they were;
on a well-formed container (`used ≤ capacity`; `head, tail < capacity`) a call whose
condition does not hold returns the requested length. -/
theorem byte_ops_fail_atomically (s : Stack) (f : Fifo) (data dst : Buf)
    (hov1 : s.size + data.size < SIZE_MOD) (hov2 : fifo_size f + data.size < SIZE_MOD) :
    (s.size + data.size > s.buf.size → stack_push s data = some (s, 0)) ∧
    (s.size < dst.size → stack_pop s dst = some (s, dst, 0)) ∧
    (fifo_size f + data.size ≥ f.buf.size → fifo_push f data = some (f, 0)) ∧
    (fifo_size f < dst.size →
      fifo_peek f dst = some (dst, 0) ∧ fifo_pop f dst = some (f, dst, 0)) ∧
    (¬ s.size + data.size > s.buf.size →
      ∃ s1, stack_push s data = some (s1, data.size)) ∧
    (¬ s.size < dst.size → s.size ≤ s.buf.size → s.buf.size < SIZE_MOD →
      ∃ s1 d1, stack_pop s dst = some (s1, d1, dst.size)) ∧
    (¬ fifo_size f + data.size ≥ f.buf.size → f.buf.size ≤ PTRDIFF_MAX →
      f.head < f.buf.size → f.tail < f.buf.size →
      ∃ f1, fifo_push f data = some (f1, data.size)) ∧
    (¬ fifo_size f < dst.size → f.buf.size ≤ PTRDIFF_MAX →
      f.head < f.buf.size → f.tail < f.buf.size →
      ∃ f1 d1, fifo_peek f dst = some (d1, dst.size) ∧
        fifo_pop f dst = some (f1, d1, dst.size)) := by
  refine ⟨stack_push_fail s data hov1, stack_pop_fail s dst, fifo_push_fail f data hov2,
    fun h => ⟨fifo_peek_fail f dst h, fifo_pop_fail f dst h⟩, ?_, ?_, ?_, ?_⟩
  · intro h
    exact ⟨_, stack_push_ok s data hov1 (by omega)⟩
  · intro h h1 h2
    exact ⟨_, _, stack_pop_ok s dst h2 h1 (by omega)⟩
  · intro h hcap hh _
    exact ⟨_, fifo_push_ok f data hcap hh (by omega)⟩
  · intro h hcap hh ht
    have hlt := fifo_size_lt f hcap hh ht
    exact ⟨_, _, fifo_peek_ok f dst hcap ht hlt (by omega),
      fifo_pop_ok f dst hcap ht hlt (by omega)⟩

theorem byte_ops_fail_atomically_witness :
    (exStack.size + Buf.size (buf [1, 2, 3, 4, 5, 6, 7]) < SIZE_MOD ∧
      fifo_size exFifo1 + Buf.size (buf [1, 2, 3, 4, 5, 6, 7]) < SIZE_MOD ∧
      exStack.size + Buf.size (buf [1, 2, 3, 4, 5, 6, 7]) > exStack.buf.size ∧
      exStack.size < Buf.size (buf [0, 0, 0, 0, 0, 0]) ∧
      fifo_size exFifo1 + Buf.size (buf [1, 2, 3, 4, 5, 6, 7]) ≥ exFifo1.buf.size ∧
      fifo_size exFifo1 < Buf.size (buf [0, 0, 0, 0, 0, 0])) ∧
    stack_push exStack (buf [1, 2, 3, 4, 5, 6, 7]) = some (exStack, 0) ∧
    stack_pop exStack (buf [0, 0, 0, 0, 0, 0])
      = some (exStack, buf [0, 0, 0, 0, 0, 0], 0) ∧
    fifo_push exFifo1 (buf [1, 2, 3, 4, 5, 6, 7]) = some (exFifo1, 0) ∧
    fifo_peek exFifo1 (buf [0, 0, 0, 0, 0, 0]) = some (buf [0, 0, 0, 0, 0, 0], 0) ∧
    fifo_pop exFifo1 (buf [0, 0, 0, 0, 0, 0])
      = some (exFifo1, buf [0, 0, 0, 0, 0, 0], 0) ∧
    fifo_push exFifo1 (buf [6, 7, 8]) = some (exFifo1, 0) ∧
    (∃ s1, stack_push exStack (buf [1, 2, 3, 4, 5, 6]) = some (s1, 6)) ∧
    (∃ f1, fifo_push exFifo1 (buf [6, 7]) = some (f1, 2)) := by
  have h := byte_ops_fail_atomically exStack exFifo1 (buf [1, 2, 3, 4, 5, 6, 7])
    (buf [0, 0, 0, 0, 0, 0]) (by decide) (by decide)
  have h3 := byte_ops_fail_atomically exStack exFifo1 (buf [6, 7, 8])
    (buf [0, 0, 0, 0, 0, 0]) (by decide) (by decide)
  have h6 := byte_ops_fail_atomically exStack exFifo1 (buf [1, 2, 3, 4, 5, 6])
    (buf [0]) (by decide) (by decide)
  have h7 := byte_ops_fail_atomically exStack exFifo1 (buf [6, 7])
    (buf [0]) (by decide) (by decide)
  exact ⟨by decide, h.1 (by decide), h.2.1 (by decide), h.2.2.1 (by decide),
    (h.2.2.2.1 (by decide)).1, (h.2.2.2.1 (by decide)).2, h3.2.2.1 (by decide),
    h6.2.2.2.2.1 (by decide),
    h7.2.2.2.2.2.2.1 (by decide) (by decide) (by decide) (by decide)⟩

/-! ## Ring buffer invariant -/

theorem fifo_step_inv (f : Fifo) (op : FifoOp) (hv : op.valid)
    (hcap : f.buf.size ≤ PTRDIFF_MAX) (hh : f.head < f.buf.size) (ht : f.tail < f.buf.size) :
    ∃ f1, fifo_step f op = some f1 ∧ f1.buf.size = f.buf.size ∧
      f1.head < f1.buf.size ∧ f1.tail < f1.buf.size := by
  have hM : PTRDIFF_MAX + PTRDIFF_MAX < SIZE_MOD := by decide
  have hlt := fifo_size_lt f hcap hh ht
  cases op with
  | push d =>
    simp only [FifoOp.valid] at hv
    by_cases hfit : fifo_size f + d.size < f.buf.size
    · have hsz : (fifo_pushed f d).buf.size = f.buf.size := ring_write_length _ _ _
      refine ⟨fifo_pushed f d, by simp [fifo_step, fifo_push_ok f d hcap hh hfit], hsz, ?_, ?_⟩
      · rw [hsz]; exact Nat.mod_lt _ (by omega)
      · rw [hsz]; exact ht
    · exact ⟨f, by simp [fifo_step, fifo_push_fail f d (by omega) (by omega)], rfl, hh, ht⟩
  | peek d =>
    refine ⟨f, ?_, rfl, hh, ht⟩
    by_cases hn : d.size ≤ fifo_size f
    · simp [fifo_step, fifo_peek_ok f d hcap ht hlt hn]
    · simp [fifo_step, fifo_peek_fail f d (by omega)]
  | pop d =>
    by_cases hn : d.size ≤ fifo_size f
    · exact ⟨{ f with tail := (f.tail + d.size) % f.buf.size },
        by simp only [fifo_step, fifo_pop_ok f d hcap ht hlt hn, Option.map_some'],
        rfl, hh, Nat.mod_lt _ (by omega)⟩
    · exact ⟨f, by simp [fifo_step, fifo_pop_fail f d (by omega)], rfl, hh, ht⟩

theorem fifo_run_inv (ops : List FifoOp) : ∀ f : Fifo, (∀ op ∈ ops, op.valid) →
    f.buf.size ≤ PTRDIFF_MAX → f.head < f.buf.size → f.tail < f.buf.size →
    ∃ f1, fifo_run f ops = some f1 ∧ f1.buf.size = f.buf.size ∧
      f1.head < f1.buf.size ∧ f1.tail < f1.buf.size := by
  induction ops with
  | nil => intro f _ _ hh ht; exact ⟨f, rfl, rfl, hh, ht⟩
  | cons op ops ih =>
    intro f hv hcap hh ht
    obtain ⟨f1, h1, h2, h3, h4⟩ := fifo_step_inv f op (hv op (by simp)) hcap hh ht
    obtain ⟨f2, g1, g2, g3, g4⟩ := ih f1 (fun o ho => hv o (by simp [ho])) (by omega) h3 h4
    exact ⟨f2, by simp [fifo_run, h1, g1], by omega, g3, g4⟩

/-- C5 (`fifo`, `fifo_push`, `fifo_peek`, `fifo_pop`, `fifo_size`): a ring buffer created
by `fifo` over a view of capacity at least 1 satisfies, after every finite sequence of
calls of `fifo_push`, `fifo_peek` and `fifo_pop` (successful or failing), `head <
capacity`, `tail < capacity` and `fifo_size < capacity`, and `head = tail` exactly when
`fifo_size` is 0. -/
theorem fifo_invariant (mem : List Nat) (ops : List FifoOp) (h1 : 1 ≤ mem.length)
    (hcap : mem.length ≤ PTRDIFF_MAX) (hv : ∀ op ∈ ops, op.valid) :
    ∃ f1, fifo_run (fifo (buf mem)) ops = some f1 ∧ f1.buf.size = mem.length ∧
      f1.head < f1.buf.size ∧ f1.tail < f1.buf.size ∧ fifo_size f1 < f1.buf.size ∧
      (f1.head = f1.tail ↔ fifo_size f1 = 0) := by
  obtain ⟨f1, g1, g2, g3, g4⟩ := fifo_run_inv ops (fifo (buf mem)) hv hcap h1 h1
  have g2' : f1.buf.size = mem.length := g2
  have hc : f1.buf.size ≤ PTRDIFF_MAX := by omega
  refine ⟨f1, g1, g2', g3, g4, fifo_size_lt f1 hc g3 g4, ?_⟩
  rw [fifo_size_eq f1 hc g3 g4]
  split <;> omega

theorem fifo_invariant_witness :
    (1 ≤ [0, 0, 0, 0, 0, 0, 0, 0].length ∧ [0, 0, 0, 0, 0, 0, 0, 0].length ≤ PTRDIFF_MAX ∧
      ∀ op ∈ exOps, op.valid) ∧
    fifo_run (fifo (buf [0, 0, 0, 0, 0, 0, 0, 0])) exOps
      = some { buf := buf [9, 1, 2, 3, 4, 5, 6, 7], tail := 1, head := 0 } ∧
    ∃ f1, fifo_run (fifo (buf [0, 0, 0, 0, 0, 0, 0, 0])) exOps = some f1 ∧
      f1.buf.size = 8 ∧ f1.head < f1.buf.size ∧ f1.tail < f1.buf.size ∧
      fifo_size f1 < f1.buf.size ∧ (f1.head = f1.tail ↔ fifo_size f1 = 0) :=
  ⟨by decide, by decide,
    fifo_invariant [0, 0, 0, 0, 0, 0, 0, 0] exOps (by decide) (by decide) (by decide)⟩

/-! ## Memory of list nodes -/

@[simp] theorem set_next_next (h : DHeap) (a : Nat) (v : Ptr) (b : Nat) :
    (set_next h a v b).next = if b = a then v else (h b).next := by
  unfold set_next; by_cases e : b = a <;> simp [Function.update_apply, e]

@[simp] theorem set_next_prev (h : DHeap) (a : Nat) (v : Ptr) (b : Nat) :
    (set_next h a v b).prev = (h b).prev := by
  unfold set_next; by_cases e : b = a <;> simp [Function.update_apply, e]

@[simp] theorem set_next_cont (h : DHeap) (a : Nat) (v : Ptr) (b : Nat) :
    (set_next h a v b).cont = (h b).cont := by
  unfold set_next; by_cases e : b = a <;> simp [Function.update_apply, e]

@[simp] theorem set_prev_prev (h : DHeap) (a : Nat) (v : Ptr) (b : Nat) :
    (set_prev h a v b).prev = if b = a then v else (h b).prev := by
  unfold set_prev; by_cases e : b = a <;> simp [Function.update_apply, e]

@[simp] theorem set_prev_next (h : DHeap) (a : Nat) (v : Ptr) (b : Nat) :
    (set_prev h a v b).next = (h b).next := by
  unfold set_prev; by_cases e : b = a <;> simp [Function.update_apply, e]

@[simp] theorem set_prev_cont (h : DHeap) (a : Nat) (v : Ptr) (b : Nat) :
    (set_prev h a v b).cont = (h b).cont := by
  unfold set_prev; by_cases e : b = a <;> simp [Function.update_apply, e]

@[simp] theorem set_cont_next (h : DHeap) (a : Nat) (v : Option Nat) (b : Nat) :
    (set_cont h a v b).next = (h b).next := by
  unfold set_cont; by_cases e : b = a <;> simp [Function.update_apply, e]

@[simp] theorem set_cont_prev (h : DHeap) (a : Nat) (v : Option Nat) (b : Nat) :
    (set_cont h a v b).prev = (h b).prev := by
  unfold set_cont; by_cases e : b = a <;> simp [Function.update_apply, e]

@[simp] theorem rd_next_some (h : DHeap) (a : Nat) : rd_next h (some a) = some (h a).next := rfl

@[simp] theorem rd_prev_some (h : DHeap) (a : Nat) : rd_prev h (some a) = some (h a).prev := rfl

@[simp] theorem wr_next_some (h : DHeap) (a : Nat) (v : Ptr) :
    wr_next h (some a) v = some (set_next h a v) := rfl

@[simp] theorem wr_prev_some (h : DHeap) (a : Nat) (v : Ptr) :
    wr_prev h (some a) v = some (set_prev h a v) := rfl

@[simp] theorem wr_cont_some (h : DHeap) (a : Nat) (v : Option Nat) :
    wr_cont h (some a) v = some (set_cont h a v) := rfl

/-! ## Chains of links -/

theorem path_frame (h h1 : DHeap) : ∀ l : List Nat, List.Chain' (link h) l →
    (∀ u ∈ l.dropLast, (h1 u).next = (h u).next) →
    (∀ v ∈ l.tail, (h1 v).prev = (h v).prev) → List.Chain' (link h1) l
  | [], _, _, _ => List.chain'_nil
  | [_], _, _, _ => List.chain'_singleton _
  | a :: b :: t, hp, hn, hv => by
    rw [List.chain'_cons] at hp ⊢
    refine ⟨⟨?_, ?_⟩, path_frame h h1 (b :: t) hp.2 ?_ ?_⟩
    · rw [hn a (by simp)]; exact hp.1.1
    · rw [hv b (by simp)]; exact hp.1.2
    · intro u hu; exact hn u (by simp [List.dropLast, hu])
    · intro v hv1; exact hv v (by simp only [List.tail_cons] at hv1 ⊢; exact List.mem_cons_of_mem _ hv1)

theorem path_snoc (h : DHeap) (l : List Nat) (a b : Nat) :
    List.Chain' (link h) (l ++ [a, b]) ↔ List.Chain' (link h) (l ++ [a]) ∧ link h a b := by
  rw [show l ++ [a, b] = l ++ a :: b :: [] from rfl, List.chain'_append_cons_cons]
  simp

theorem path_nodup (h : DHeap) : ∀ (L : List Nat) (a b : Nat),
    List.Chain' (link h) (a :: L ++ [b]) → a ∉ L → L.Nodup
  | [], _, _, _, _ => List.nodup_nil
  | x :: L1, a, b, hp, ha => by
    have hp1 : List.Chain' (link h) (x :: L1 ++ [b]) := by
      rw [List.cons_append, List.cons_append, List.chain'_cons] at hp; exact hp.2
    have hax : link h a x := by
      rw [List.cons_append, List.cons_append, List.chain'_cons] at hp; exact hp.1
    have hx : x ∉ L1 := by
      intro hmem
      obtain ⟨l1, l2, rfl⟩ := List.append_of_mem hmem
      rcases List.eq_nil_or_concat l1 with rfl | ⟨l0, u, rfl⟩
      · have hxx : link h x x := by
          simp only [List.nil_append, List.cons_append, List.chain'_cons] at hp1
          exact hp1.1
        have := hax.2.symm.trans hxx.2
        simp only [Option.some.injEq] at this
        exact ha (by simp [this])
      · simp only [List.concat_eq_append] at hp1 ha
        have hux : link h u x := by
          have : x :: (l0 ++ [u] ++ x :: l2) ++ [b] = (x :: l0) ++ u :: x :: (l2 ++ [b]) := by simp
          rw [this, List.chain'_append_cons_cons] at hp1
          exact hp1.2.1
        have := hax.2.symm.trans hux.2
        simp only [Option.some.injEq] at this
        exact ha (by simp [this])
    exact List.nodup_cons.2 ⟨hx, path_nodup h L1 x b hp1 hx⟩

theorem linked_iff_chain (h : DHeap) : ∀ l : List Nat,
    linked h l ↔ List.Chain' (link h) l
  | [] => by simp [linked]
  | [_] => by simp [linked]
  | a :: b :: t => by
    rw [List.chain'_cons, ← linked_iff_chain h (b :: t)]
    simp [linked]

theorem ring_path {h : DHeap} {H : Nat} {L : List Nat} (hr : Ring h H L) :
    List.Chain' (link h) (H :: L ++ [H]) :=
  (linked_iff_chain h _).1 hr.2

theorem ring_nodup {h : DHeap} {H : Nat} {L : List Nat} (hr : Ring h H L) : (H :: L).Nodup :=
  List.nodup_cons.2 ⟨hr.1, path_nodup h L H H (ring_path hr) hr.1⟩

theorem ring_cyc {h : DHeap} {H : Nat} {L : List Nat} (hr : Ring h H L) : Cyc h (H :: L) :=
  ⟨ring_nodup hr, ring_path hr⟩

theorem cyc_ring {h : DHeap} {H : Nat} {L : List Nat} (hc : Cyc h (H :: L)) : Ring h H L :=
  ⟨(List.nodup_cons.1 hc.1).1, (linked_iff_chain h _).2 hc.2⟩

theorem cyc_rotate1 {h : DHeap} {a : Nat} {l : List Nat} (hc : Cyc h (a :: l)) :
    Cyc h (l ++ [a]) := by
  cases l with
  | nil => exact hc
  | cons b m =>
    obtain ⟨hn, hp⟩ := hc
    refine ⟨?_, ?_⟩
    · have : (b :: m ++ [a]).Perm (a :: b :: m) := by
        simpa using (List.perm_append_comm : (b :: m ++ [a]).Perm ([a] ++ (b :: m)))
      exact this.nodup_iff.2 hn
    · rw [List.cons_append, List.cons_append, List.chain'_cons] at hp
      have : b :: (m ++ [a]) ++ [b] = (b :: m) ++ [a, b] := by simp
      show List.Chain' (link h) (b :: (m ++ [a]) ++ [b])
      rw [this, path_snoc]
      exact ⟨hp.2, hp.1⟩

theorem cyc_rotate {h : DHeap} : ∀ (A B : List Nat), Cyc h (A ++ B) → Cyc h (B ++ A)
  | [], B, hc => by simpa using hc
  | a :: A1, B, hc => by
    have h1 : Cyc h (A1 ++ (B ++ [a])) := by
      have := cyc_rotate1 (l := A1 ++ B) hc
      simpa using this
    have h2 := cyc_rotate A1 (B ++ [a]) h1
    simpa using h2

theorem push_after_fields (h : DHeap) (d x n : Nat) (hdn : (h d).next = some n) :
    ∃ h1, dlist_push_after h (some d) (some x) = some (h1, some x) ∧
      ∀ a, (h1 a).next = (if a = d then some x else if a = x then some n else (h a).next) ∧
        (h1 a).prev = (if a = x then some d else if a = n then some x else (h a).prev) ∧
        (h1 a).cont = (h a).cont := by
  have he : dlist_push_after h (some d) (some x)
      = some (set_prev (set_next (set_next (set_prev h n (some x)) x (some n)) d (some x))
          x (some d), some x) := by
    simp [dlist_push_after, hdn]
  refine ⟨_, he, fun a => ?_⟩
  simp only [set_next_next, set_prev_next, set_next_prev, set_prev_prev, set_next_cont,
    set_prev_cont, and_self, and_true]

theorem push_before_fields (h : DHeap) (d x p : Nat) (hdp : (h d).prev = some p) :
    ∃ h1, dlist_push_before h (some d) (some x) = some (h1, some x) ∧
      ∀ a, (h1 a).next = (if a = x then some d else if a = p then some x else (h a).next) ∧
        (h1 a).prev = (if a = d then some x else if a = x then some p else (h a).prev) ∧
        (h1 a).cont = (h a).cont := by
  have he : dlist_push_before h (some d) (some x)
      = some (set_next (set_prev (set_prev (set_next h p (some x)) x (some p)) d (some x))
          x (some d), some x) := by
    simp [dlist_push_before, hdp]
  refine ⟨_, he, fun a => ?_⟩
  simp only [set_next_next, set_prev_next, set_next_prev, set_prev_prev, set_next_cont,
    set_prev_cont, and_self, and_true]

theorem pop_fields (h : DHeap) (x p n : Nat) (hp : (h x).prev = some p)
    (hn : (h x).next = some n) (hxp : x ≠ p) :
    ∃ h1, dlist_pop h (some x) = some (h1, some x) ∧
      ∀ a, (h1 a).next = (if a = p then some n else (h a).next) ∧
        (h1 a).prev = (if a = n then some p else (h a).prev) ∧
        (h1 a).cont = (h a).cont := by
  have he : dlist_pop h (some x)
      = some (set_prev (set_next h p (some n)) n (some p), some x) := by
    simp [dlist_pop, hp, hn, hxp]
  refine ⟨_, he, fun a => ?_⟩
  simp only [set_next_next, set_prev_next, set_next_prev, set_prev_prev, set_next_cont,
    set_prev_cont, and_self, and_true]

theorem dlist_eq {u v : Dlist} (h1 : u.next = v.next) (h2 : u.prev = v.prev)
    (h3 : u.cont = v.cont) : u = v := by
  cases u; cases v; simp_all

theorem push_after_cyc (h : DHeap) (d x : Nat) (B : List Nat) (hc : Cyc h (d :: B))
    (hx : x ∉ d :: B) :
    ∃ h1, dlist_push_after h (some d) (some x) = some (h1, some x) ∧
      Cyc h1 (d :: x :: B) ∧ ∀ a, a ∉ d :: x :: B → h1 a = h a := by
  obtain ⟨hnd, hp⟩ := hc
  have hxd : x ≠ d := fun e => hx (by simp [e])
  cases B with
  | nil =>
    have hdd : link h d d := by simpa using hp
    obtain ⟨h1, he, hf⟩ := push_after_fields h d x d hdd.1
    refine ⟨h1, he, ⟨by simp [Ne.symm hxd], ?_⟩, ?_⟩
    · simp [link, hf, hxd, Ne.symm hxd]
    · intro a ha
      simp only [List.mem_cons, List.mem_singleton, not_or, List.not_mem_nil, or_false] at ha
      exact dlist_eq (by simp [hf, ha]) (by simp [hf, ha]) (hf a).2.2
  | cons n B1 =>
    rw [List.cons_append, List.cons_append, List.chain'_cons] at hp
    obtain ⟨hdn, hp1⟩ := hp
    obtain ⟨h1, he, hf⟩ := push_after_fields h d x n hdn.1
    have hnd1 : d ≠ n ∧ d ∉ B1 ∧ n ∉ B1 := by
      simp only [List.nodup_cons, List.mem_cons, not_or] at hnd
      exact ⟨hnd.1.1, hnd.1.2, hnd.2.1⟩
    have hx1 : x ≠ n ∧ x ∉ B1 := by
      simp only [List.mem_cons, not_or] at hx
      exact ⟨hx.2.1, hx.2.2⟩
    refine ⟨h1, he, ⟨?_, ?_⟩, ?_⟩
    · simp only [List.nodup_cons, List.mem_cons, not_or] at hnd ⊢
      exact ⟨⟨Ne.symm hxd, hnd.1⟩, ⟨hx1.1, hx1.2⟩, hnd.2⟩
    · rw [List.cons_append, List.cons_append, List.cons_append, List.chain'_cons,
        List.chain'_cons]
      refine ⟨?_, ?_, path_frame h h1 _ hp1 ?_ ?_⟩
      · simp [link, hf, hxd, Ne.symm hxd]
      · simp [link, hf, hxd, hx1.1, Ne.symm hx1.1]
      · intro u hu
        rw [← List.cons_append, List.dropLast_concat] at hu
        have h1u : u ≠ d := by rintro rfl; simp at hu; tauto
        have h2u : u ≠ x := by rintro rfl; simp at hu; tauto
        simp [hf, h1u, h2u]
      · intro v hv
        simp only [List.tail_cons, List.mem_append, List.mem_singleton] at hv
        have h1v : v ≠ n := by rintro rfl; tauto
        have h2v : v ≠ x := by rintro rfl; tauto
        simp [hf, h1v, h2v]
    · intro a ha
      simp only [List.mem_cons, not_or] at ha
      exact dlist_eq (by simp [hf, ha]) (by simp [hf, ha]) (hf a).2.2

theorem list_nil_or_snoc (l : List Nat) : l = [] ∨ ∃ l0 a, l = l0 ++ [a] := by
  rcases List.eq_nil_or_concat l with e | ⟨l0, a, e⟩
  · exact Or.inl e
  · exact Or.inr ⟨l0, a, by rw [e, List.concat_eq_append]⟩

theorem push_before_cyc (h : DHeap) (d x : Nat) (B : List Nat) (hc : Cyc h (d :: B))
    (hx : x ∉ d :: B) :
    ∃ h1, dlist_push_before h (some d) (some x) = some (h1, some x) ∧
      Cyc h1 (x :: d :: B) ∧ ∀ a, a ∉ d :: x :: B → h1 a = h a := by
  obtain ⟨hnd, hp⟩ := hc
  have hxd : x ≠ d := fun e => hx (by simp [e])
  rcases list_nil_or_snoc B with rfl | ⟨B0, p, rfl⟩
  · have hdd : link h d d := by simpa using hp
    obtain ⟨h1, he, hf⟩ := push_before_fields h d x d hdd.2
    refine ⟨h1, he, ⟨by simp [hxd], ?_⟩, ?_⟩
    · simp [link, hf, hxd, Ne.symm hxd]
    · intro a ha
      simp only [List.mem_cons, List.mem_singleton, not_or, List.not_mem_nil, or_false] at ha
      exact dlist_eq (by simp [hf, ha]) (by simp [hf, ha]) (hf a).2.2
  · have e1 : d :: (B0 ++ [p]) ++ [d] = (d :: B0) ++ [p, d] := by simp
    rw [e1, path_snoc] at hp
    obtain ⟨hp1, hpd⟩ := hp
    obtain ⟨h1, he, hf⟩ := push_before_fields h d x p hpd.2
    have hnd1 : d ≠ p ∧ d ∉ B0 ∧ p ∉ B0 ∧ B0.Nodup := by
      simp [List.nodup_append] at hnd
      tauto
    have hx1 : x ≠ p ∧ x ∉ B0 := by
      simp at hx
      tauto
    refine ⟨h1, he, ⟨?_, ?_⟩, ?_⟩
    · exact List.nodup_cons.2 ⟨hx, hnd⟩
    · have e2 : x :: d :: (B0 ++ [p]) ++ [x] = x :: ((d :: B0) ++ [p, x]) := by simp
      rw [e2, List.chain'_cons', path_snoc]
      refine ⟨?_, path_frame h h1 _ hp1 ?_ ?_, ?_⟩
      · simp [link, hf, hxd, Ne.symm hxd]
      · intro u hu
        rw [List.dropLast_concat] at hu
        have h1u : u ≠ p := by rintro rfl; simp at hu; tauto
        have h2u : u ≠ x := by rintro rfl; simp at hu; tauto
        simp [hf, h1u, h2u]
      · intro v hv
        simp only [List.cons_append, List.tail_cons, List.mem_append, List.mem_singleton] at hv
        have h1v : v ≠ d := by rintro rfl; tauto
        have h2v : v ≠ x := by rintro rfl; tauto
        simp [hf, h1v, h2v]
      · simp [link, hf, hx1.1, Ne.symm hx1.1, Ne.symm hxd, hxd]
    · intro a ha
      simp only [List.mem_cons, List.mem_append, List.mem_singleton, not_or] at ha
      exact dlist_eq (by simp [hf, ha]) (by simp [hf, ha]) (hf a).2.2

theorem pop_cyc (h : DHeap) (x : Nat) (C : List Nat) (hc : Cyc h (x :: C)) (hC : C ≠ []) :
    ∃ h1, dlist_pop h (some x) = some (h1, some x) ∧ Cyc h1 C ∧ ∀ a, a ∉ C → h1 a = h a := by
  obtain ⟨hnd, hp⟩ := hc
  cases C with
  | nil => exact absurd rfl hC
  | cons n C1 =>
    rw [List.cons_append, List.cons_append, List.chain'_cons] at hp
    obtain ⟨hxn, hp1⟩ := hp
    rcases list_nil_or_snoc C1 with rfl | ⟨C2, p, rfl⟩
    · have hnx : link h n x := by simpa using hp1
      have hxn1 : x ≠ n := by simp at hnd; exact hnd
      obtain ⟨h1, he, hf⟩ := pop_fields h x n n hnx.2 hxn.1 hxn1
      refine ⟨h1, he, ⟨by simp, ?_⟩, ?_⟩
      · simp [link, hf]
      · intro a ha
        simp only [List.mem_singleton] at ha
        exact dlist_eq (by simp [hf, ha]) (by simp [hf, ha]) (hf a).2.2
    · have e1 : n :: (C2 ++ [p] ++ [x]) = (n :: C2) ++ [p, x] := by simp
      rw [e1, path_snoc] at hp1
      obtain ⟨hp2, hpx⟩ := hp1
      have hnd1 : x ≠ p ∧ n ≠ p ∧ n ∉ C2 ∧ p ∉ C2 := by
        simp [List.nodup_append] at hnd
        tauto
      obtain ⟨h1, he, hf⟩ := pop_fields h x p n hpx.2 hxn.1 hnd1.1
      refine ⟨h1, he, ⟨(List.nodup_cons.1 hnd).2, ?_⟩, ?_⟩
      · have e2 : n :: (C2 ++ [p]) ++ [n] = (n :: C2) ++ [p, n] := by simp
        rw [e2, path_snoc]
        refine ⟨path_frame h h1 _ hp2 ?_ ?_, ?_⟩
        · intro u hu
          rw [List.dropLast_concat] at hu
          have h1u : u ≠ p := by rintro rfl; simp at hu; tauto
          simp [hf, h1u]
        · intro v hv
          simp only [List.cons_append, List.tail_cons, List.mem_append,
            List.mem_singleton] at hv
          have h1v : v ≠ n := by rintro rfl; tauto
          simp [hf, h1v]
        · simp [link, hf]
      · intro a ha
        simp only [List.mem_cons, List.mem_append, List.mem_singleton, not_or] at ha
        exact dlist_eq (by simp [hf, ha]) (by simp [hf, ha]) (hf a).2.2

/-! ## Traversal of a well-formed list -/

theorem foreach_loop_path {σ : Type} (body : σ → Ptr → σ) (h : DHeap) (H : Nat) :
    ∀ (R : List Nat) (a : Nat) (st : σ) (fuel : Nat),
      List.Chain' (link h) (a :: R ++ [H]) → H ∉ R → R.length < fuel →
      dlist_foreach_loop body fuel h (some H) (h a).next st
        = some (R.foldl (fun s r => body s (some r)) st)
  | [], a, st, fuel, hp, _, hf => by
    have hl : link h a H := by simpa using hp
    obtain ⟨k, rfl⟩ : ∃ k, fuel = k + 1 := ⟨fuel - 1, by simp at hf; omega⟩
    simp [dlist_foreach_loop, hl.1]
  | r :: R1, a, st, fuel, hp, hH, hf => by
    rw [List.cons_append, List.cons_append, List.chain'_cons] at hp
    obtain ⟨k, rfl⟩ : ∃ k, fuel = k + 1 := ⟨fuel - 1, by simp at hf; omega⟩
    have hrH : r ≠ H := fun e => hH (by simp [e])
    have ih := foreach_loop_path body h H R1 r (body st (some r)) k hp.2
      (fun hm => hH (List.mem_cons_of_mem _ hm)) (by simp at hf; omega)
    simp [dlist_foreach_loop, hp.1.1, hrH, ih]

theorem foreach_ring {σ : Type} (body : σ → Ptr → σ) {h : DHeap} {H : Nat} {L : List Nat}
    (hr : Ring h H L) (st : σ) (fuel : Nat) (hf : L.length < fuel) :
    dlist_foreach body fuel h (some H) st = some (L.foldl (fun s r => body s (some r)) st) := by
  simp only [dlist_foreach, rd_next_some, Option.some_bind]
  exact foreach_loop_path body h H L H st fuel (ring_path hr) hr.1 hf

theorem foldl_snoc_map (L : List Nat) : ∀ init : List Ptr,
    L.foldl (fun acc r => acc ++ [some r]) init = init ++ L.map some := by
  induction L with
  | nil => intro init; simp
  | cons x L ih => intro init; simp [ih]

theorem foldl_count (L : List Nat) : ∀ n : Nat, n + L.length < SIZE_MOD →
    L.foldl (fun i _ => sz_add i 1) n = n + L.length := by
  induction L with
  | nil => intro n _; simp
  | cons x L ih =>
    intro n hn
    simp only [List.length_cons] at hn
    simp only [List.foldl_cons, List.length_cons]
    rw [sz_add_eq (by omega), ih (n + 1) (by omega)]
    omega

theorem traversal_ring {h : DHeap} {H : Nat} {L : List Nat} (hr : Ring h H L) (fuel : Nat)
    (hf : L.length < fuel) : dlist_traversal fuel h (some H) = some (L.map some) := by
  rw [dlist_traversal, foreach_ring _ hr _ _ hf, foldl_snoc_map]
  simp

theorem length_ring {h : DHeap} {H : Nat} {L : List Nat} (hr : Ring h H L) (fuel : Nat)
    (hf : L.length < fuel) (hl : L.length < SIZE_MOD) :
    dlist_length fuel h (some H) = some L.length := by
  rw [dlist_length, foreach_ring _ hr _ _ hf, foldl_count L 0 (by omega)]
  simp

/-! ## Insertion at the ends -/

theorem ring_push_back {h : DHeap} {H x : Nat} {L : List Nat} (hr : Ring h H L)
    (hx : x ∉ H :: L) :
    ∃ h1, dlist_push_back h (some H) (some x) = some (h1, some x) ∧ Ring h1 H (L ++ [x]) ∧
      ∀ a, a ∉ x :: H :: L → h1 a = h a := by
  have hc := ring_cyc hr
  rcases list_nil_or_snoc L with rfl | ⟨L0, p, rfl⟩
  · have hHH : link h H H := by simpa using ring_path hr
    obtain ⟨h1, he, hc1, hfr⟩ := push_after_cyc h H x [] hc hx
    refine ⟨h1, ?_, cyc_ring hc1, ?_⟩
    · simp [dlist_push_back, hHH.2, he]
    · intro a ha; exact hfr a (by simp at ha ⊢; tauto)
  · have hpH : link h p H := by
      have e : H :: (L0 ++ [p]) ++ [H] = (H :: L0) ++ [p, H] := by simp
      have := ring_path hr
      rw [e, path_snoc] at this
      exact this.2
    have hc0 : Cyc h (p :: H :: L0) := by
      have := cyc_rotate (H :: L0) [p] (by simpa using hc)
      simpa using this
    obtain ⟨h1, he, hc1, hfr⟩ := push_after_cyc h p x (H :: L0) hc0 (by simp at hx ⊢; tauto)
    refine ⟨h1, ?_, ?_, ?_⟩
    · simp [dlist_push_back, hpH.2, he]
    · have := cyc_rotate [p, x] (H :: L0) (by simpa using hc1)
      exact cyc_ring (by simpa using this)
    · intro a ha; exact hfr a (by simp at ha ⊢; tauto)

theorem ring_push_front {h : DHeap} {H x : Nat} {L : List Nat} (hr : Ring h H L)
    (hx : x ∉ H :: L) :
    ∃ h1, dlist_push_front h (some H) (some x) = some (h1, some x) ∧ Ring h1 H (x :: L) ∧
      ∀ a, a ∉ x :: H :: L → h1 a = h a := by
  have hc := ring_cyc hr
  cases L with
  | nil =>
    have hHH : link h H H := by simpa using ring_path hr
    obtain ⟨h1, he, hc1, hfr⟩ := push_before_cyc h H x [] hc hx
    refine ⟨h1, ?_, ?_, ?_⟩
    · simp [dlist_push_front, hHH.1, he]
    · have := cyc_rotate [x] [H] (by simpa using hc1)
      exact cyc_ring (by simpa using this)
    · intro a ha; exact hfr a (by simp at ha ⊢; tauto)
  | cons f L1 =>
    have hHf : link h H f := by
      have := ring_path hr
      rw [List.cons_append, List.cons_append, List.chain'_cons] at this
      exact this.1
    have hc0 : Cyc h (f :: (L1 ++ [H])) := by
      have := cyc_rotate [H] (f :: L1) (by simpa using hc)
      simpa using this
    obtain ⟨h1, he, hc1, hfr⟩ := push_before_cyc h f x (L1 ++ [H]) hc0
      (by simp at hx ⊢; tauto)
    refine ⟨h1, ?_, ?_, ?_⟩
    · simp [dlist_push_front, hHf.1, he]
    · have := cyc_rotate (x :: f :: L1) [H] (by simpa using hc1)
      exact cyc_ring (by simpa using this)
    · intro a ha; exact hfr a (by simp at ha ⊢; tauto)

theorem ring_head_init (h0 : DHeap) (H : Nat) :
    ∃ h1, dlist_head_init h0 (some H) = some (h1, some H) ∧ Ring h1 H [] ∧
      (h1 H).cont = none ∧ ∀ a, a ≠ H → h1 a = h0 a := by
  have he : dlist_head_init h0 (some H)
      = some (set_prev (set_next (set_cont h0 H none) H (some H)) H (some H), some H) := by
    simp [dlist_head_init, dlist_init]
  refine ⟨_, he, ⟨by simp, ?_⟩, ?_, ?_⟩
  · simp [linked, link]
  · simp [set_cont]
  · intro a ha
    simp [set_prev, set_next, set_cont, Function.update_apply, ha]

/-- C6 (`dlist_push_back`, `dlist_push_front`, `dlist_length`): on a well-formed circular
list with sentinel `H` and forward traversal `L`, for a node `x` that is neither `H`
nor in `L`, `dlist_push_back` returns `x` and the traversal becomes `L` followed by
`x`; `dlist_push_front` returns `x` and the traversal becomes `x` followed by `L`; in
both cases the list stays well-formed and `dlist_length` is `len(L) + 1`; and
`dlist_head_init` produces the empty list, of length 0. -/
theorem dlist_push_back_front (h : DHeap) (H x : Nat) (L : List Nat) (fuel : Nat)
    (hr : Ring h H L) (hx : x ∉ H :: L) (hl : L.length + 1 < SIZE_MOD)
    (hf : L.length + 1 < fuel) :
    (∃ h1, dlist_push_back h (some H) (some x) = some (h1, some x) ∧
      Ring h1 H (L ++ [x]) ∧
      dlist_traversal fuel h1 (some H) = some ((L ++ [x]).map some) ∧
      dlist_length fuel h1 (some H) = some (L.length + 1)) ∧
    (∃ h2, dlist_push_front h (some H) (some x) = some (h2, some x) ∧
      Ring h2 H (x :: L) ∧
      dlist_traversal fuel h2 (some H) = some ((x :: L).map some) ∧
      dlist_length fuel h2 (some H) = some (L.length + 1)) ∧
    (∀ h0 : DHeap, ∃ h3, dlist_head_init h0 (some H) = some (h3, some H) ∧
      Ring h3 H [] ∧ dlist_traversal fuel h3 (some H) = some [] ∧
      dlist_length fuel h3 (some H) = some 0) := by
  refine ⟨?_, ?_, ?_⟩
  · obtain ⟨h1, he, hr1, _⟩ := ring_push_back hr hx
    refine ⟨h1, he, hr1, traversal_ring hr1 fuel (by simp; omega), ?_⟩
    have := length_ring hr1 fuel (by simp; omega) (by simp; omega)
    simpa using this
  · obtain ⟨h2, he, hr2, _⟩ := ring_push_front hr hx
    refine ⟨h2, he, hr2, traversal_ring hr2 fuel (by simp; omega), ?_⟩
    have := length_ring hr2 fuel (by simp; omega) (by simp; omega)
    simpa using this
  · intro h0
    obtain ⟨h3, he, hr3, _⟩ := ring_head_init h0 H
    refine ⟨h3, he, hr3, ?_, ?_⟩
    · simpa using traversal_ring hr3 fuel (by simp; omega)
    · simpa using length_ring hr3 fuel (by simp; omega) (by simp; omega)

theorem dlist_push_back_front_witness :
    (Ring exHeapABC 10 [1, 2, 3] ∧ 4 ∉ [10, 1, 2, 3] ∧ [1, 2, 3].length + 1 < SIZE_MOD ∧
      [1, 2, 3].length + 1 < 8) ∧
    (∃ h1, dlist_push_back exHeapABC (some 10) (some 4) = some (h1, some 4) ∧
      Ring h1 10 [1, 2, 3, 4] ∧
      dlist_traversal 8 h1 (some 10) = some [some 1, some 2, some 3, some 4] ∧
      dlist_length 8 h1 (some 10) = some 4) ∧
    (∃ h2, dlist_push_front exHeapABC (some 10) (some 4) = some (h2, some 4) ∧
      Ring h2 10 [4, 1, 2, 3] ∧
      dlist_traversal 8 h2 (some 10) = some [some 4, some 1, some 2, some 3] ∧
      dlist_length 8 h2 (some 10) = some 4) :=
  have h := dlist_push_back_front exHeapABC 10 4 [1, 2, 3] 8 (by decide) (by decide)
    (by decide) (by decide)
  ⟨by decide, h.1, h.2.1⟩

/-! ## Removal -/

theorem ring_pop {h : DHeap} {H x : Nat} {L : List Nat} (hr : Ring h H L) (hx : x ∈ L) :
    ∃ h1, dlist_pop h (some x) = some (h1, some x) ∧ Ring h1 H (L.erase x) ∧
      h1 x = h x := by
  have hc := ring_cyc hr
  have hnd := ring_nodup hr
  obtain ⟨A, B, rfl⟩ := List.append_of_mem hx
  have hxA : x ∉ A := by
    simp [List.nodup_append] at hnd
    tauto
  have hxB : x ∉ B := by
    simp [List.nodup_append] at hnd
    tauto
  have hxH : x ≠ H := by
    rintro rfl
    simp at hnd
  have he : (A ++ x :: B).erase x = A ++ B := by
    rw [List.erase_append_right _ hxA, List.erase_cons_head]
  have hc0 : Cyc h (x :: (B ++ H :: A)) := by
    have := cyc_rotate (H :: A) (x :: B) (by simpa using hc)
    simpa using this
  obtain ⟨h1, hpop, hc1, hfr⟩ := pop_cyc h x (B ++ H :: A) hc0 (by simp)
  refine ⟨h1, hpop, ?_, hfr x (by simp [hxA, hxB, hxH])⟩
  rw [he]
  have := cyc_rotate B (H :: A) hc1
  exact cyc_ring (by simpa using this)

/-- C7 (`dlist_pop`, `dlist_length`): on a well-formed circular list with sentinel `H` and
forward traversal `L`, for an element `x` of `L`, `dlist_pop` returns `x`, afterwards
the list is well-formed with forward traversal `L` without `x` (the other elements in
their order), `dlist_length` is `len(L) - 1`, and the `next` and `prev` fields of `x`
itself are unchanged. -/
theorem dlist_pop_removes (h : DHeap) (H x : Nat) (L : List Nat) (fuel : Nat)
    (hr : Ring h H L) (hx : x ∈ L) (hl : L.length < SIZE_MOD) (hf : L.length < fuel) :
    ∃ h1, dlist_pop h (some x) = some (h1, some x) ∧
      Ring h1 H (L.erase x) ∧
      dlist_traversal fuel h1 (some H) = some ((L.erase x).map some) ∧
      dlist_length fuel h1 (some H) = some (L.length - 1) ∧
      (h1 x).next = (h x).next ∧ (h1 x).prev = (h x).prev := by
  obtain ⟨h1, he, hr1, hxx⟩ := ring_pop hr hx
  have hlen : (L.erase x).length = L.length - 1 := List.length_erase_of_mem hx
  refine ⟨h1, he, hr1, traversal_ring hr1 fuel (by omega), ?_, by rw [hxx], by rw [hxx]⟩
  rw [← hlen]
  exact length_ring hr1 fuel (by omega) (by omega)

theorem dlist_pop_removes_witness :
    (Ring exHeapABC 10 [1, 2, 3] ∧ 2 ∈ [1, 2, 3] ∧ [1, 2, 3].length < SIZE_MOD ∧
      [1, 2, 3].length < 8) ∧
    ∃ h1, dlist_pop exHeapABC (some 2) = some (h1, some 2) ∧
      Ring h1 10 [1, 3] ∧
      dlist_traversal 8 h1 (some 10) = some [some 1, some 3] ∧
      dlist_length 8 h1 (some 10) = some 2 ∧
      (h1 2).next = some 3 ∧ (h1 2).prev = some 1 :=
  ⟨by decide, dlist_pop_removes exHeapABC 10 2 [1, 2, 3] 8 (by decide) (by decide)
    (by decide) (by decide)⟩

/-! ## Splice -/

theorem chain_join (R : Nat → Nat → Prop) (X Y : List Nat) (hX : X ≠ []) (hY : Y ≠ []) :
    List.Chain' R (X ++ Y) ↔
      List.Chain' R X ∧ List.Chain' R Y ∧ R (X.getLast hX) (Y.head hY) := by
  rw [List.chain'_append, List.getLast?_eq_getLast _ hX, List.head?_eq_head hY]
  simp

theorem ne_getLast_of_mem_dropLast {l : List Nat} (hl : l ≠ []) (hnd : l.Nodup) {u : Nat}
    (hu : u ∈ l.dropLast) : u ≠ l.getLast hl := by
  rw [← List.dropLast_append_getLast hl, List.nodup_append] at hnd
  rintro rfl
  exact hnd.2.2 hu (by simp)

theorem ne_head_of_mem_tail {l : List Nat} (hl : l ≠ []) (hnd : l.Nodup) {v : Nat}
    (hv : v ∈ l.tail) : v ≠ l.head hl := by
  rw [← List.head_cons_tail l hl, List.nodup_cons] at hnd
  rintro rfl
  exact hnd.1 hv

theorem splice_after_fields (h : DHeap) (d s dn l f : Nat) (hdn : (h d).next = some dn)
    (hsl : (h s).prev = some l) (hsf : (h s).next = some f) (hfs : f ≠ s) (hls : s ≠ l)
    (hds : d ≠ s) :
    ∃ h1, dlist_splice_after h (some d) (some s) = some (h1, some f) ∧
      ∀ a, (h1 a).next = (if a = s then some s else if a = d then some f
          else if a = l then some dn else (h a).next) ∧
        (h1 a).prev = (if a = s then some s else if a = f then some d
          else if a = dn then some l else (h a).prev) ∧
        (h1 a).cont = (h a).cont := by
  have he : dlist_splice_after h (some d) (some s)
      = some (set_next (set_prev (set_next (set_prev (set_next (set_prev h dn (some l))
          l (some dn)) f (some d)) d (some f)) s (some s)) s (some s), some f) := by
    simp [dlist_splice_after, hdn, hsl, hsf, hfs, hls, hds]
  refine ⟨_, he, fun a => ?_⟩
  simp only [set_next_next, set_prev_next, set_next_prev, set_prev_prev, set_next_cont,
    set_prev_cont, and_self, and_true]

theorem splice_before_fields (h : DHeap) (d s dp l f : Nat) (hdp : (h d).prev = some dp)
    (hsl : (h s).prev = some l) (hsf : (h s).next = some f) (hfs : f ≠ s)
    (hds : d ≠ s) (hsdp : s ≠ dp) (hdl : d ≠ l) :
    ∃ h1, dlist_splice_before h (some d) (some s)
        = some (h1, if d = dp then some f else (h d).next) ∧
      ∀ a, (h1 a).next = (if a = s then some s else if a = l then some d
          else if a = dp then some f else (h a).next) ∧
        (h1 a).prev = (if a = s then some s else if a = d then some l
          else if a = f then some dp else (h a).prev) ∧
        (h1 a).cont = (h a).cont := by
  have he : dlist_splice_before h (some d) (some s)
      = some (set_next (set_prev (set_prev (set_next (set_prev (set_next h dp (some f))
          f (some dp)) l (some d)) d (some l)) s (some s)) s (some s),
          if d = dp then some f else (h d).next) := by
    simp [dlist_splice_before, hdp, hsl, hsf, hfs, Ne.symm hfs, hds, hsdp, hdl]
  refine ⟨_, he, fun a => ?_⟩
  simp only [set_next_next, set_prev_next, set_next_prev, set_prev_prev, set_next_cont,
    set_prev_cont, and_self, and_true]

theorem splice_after_cyc (h : DHeap) (d s : Nat) (B LS : List Nat) (hD : Cyc h (d :: B))
    (hS : Cyc h (s :: LS)) (hLS : LS ≠ []) (hdis : ∀ a, a ∈ d :: B → a ∉ s :: LS) :
    ∃ h1, dlist_splice_after h (some d) (some s) = some (h1, some (LS.head hLS)) ∧
      Cyc h1 (d :: (LS ++ B)) ∧ Cyc h1 [s] ∧
      ∀ a, a ∉ (d :: B) ++ (s :: LS) → h1 a = h a := by
  obtain ⟨hndD, hpD⟩ := hD
  obtain ⟨hndS, hpS⟩ := hS
  have hK : B ++ [d] ≠ [] := by simp
  have e1 : d :: B ++ [d] = [d] ++ (B ++ [d]) := by simp
  rw [e1, chain_join _ _ _ (by simp) hK] at hpD
  obtain ⟨-, hpK, hddn⟩ := hpD
  have e2 : s :: LS ++ [s] = [s] ++ (LS ++ [s]) := by simp
  rw [e2, chain_join _ _ _ (by simp) (by simp), chain_join _ _ _ hLS (by simp)] at hpS
  obtain ⟨-, ⟨hpLS, -, hls⟩, hsf⟩ := hpS
  simp only [List.getLast_singleton, List.head_cons, List.head_append_of_ne_nil hLS] at hddn hls hsf
  have hfm : LS.head hLS ∈ LS := List.head_mem hLS
  have hlm : LS.getLast hLS ∈ LS := List.getLast_mem hLS
  have hdnm : (B ++ [d]).head hK ∈ d :: B := by
    have := List.head_mem hK
    rw [List.mem_append, List.mem_singleton] at this
    rw [List.mem_cons]; tauto
  generalize hfe : LS.head hLS = f at *
  generalize hle : LS.getLast hLS = l at *
  generalize hdne : (B ++ [d]).head hK = dn at *
  have hndLS : LS.Nodup := (List.nodup_cons.1 hndS).2
  have hndB : B.Nodup := (List.nodup_cons.1 hndD).2
  have hndK : (B ++ [d]).Nodup := by
    have : (B ++ [d]).Perm ([d] ++ B) := List.perm_append_comm
    exact this.nodup_iff.2 hndD
  have hsLS : ∀ u ∈ LS, u ≠ s := by
    rintro u hu rfl; exact (List.nodup_cons.1 hndS).1 hu
  have hdisLS : ∀ u ∈ LS, u ∉ d :: B := fun u hu hm => hdis u hm (by simp [hu])
  have hdisD : ∀ u ∈ d :: B, u ≠ s ∧ u ∉ LS := fun u hu =>
    ⟨fun e => hdis u hu (by simp [e]), fun hm => hdis u hu (by simp [hm])⟩
  have hfs : f ≠ s := hsLS f hfm
  have hsl : s ≠ l := Ne.symm (hsLS l hlm)
  have hds : d ≠ s := (hdisD d (by simp)).1
  obtain ⟨h1, he, hf⟩ := splice_after_fields h d s dn l f hddn.1 hls.2 hsf.1 hfs hsl hds
  have hdf : d ≠ f := by rintro rfl; exact (hdisD d (by simp)).2 hfm
  have hdl : d ≠ l := by rintro rfl; exact (hdisD d (by simp)).2 hlm
  have hdns : dn ≠ s := (hdisD dn hdnm).1
  have hdnf : dn ≠ f := by rintro rfl; exact (hdisD dn hdnm).2 hfm
  have hld : l ≠ d := Ne.symm hdl
  refine ⟨h1, he, ⟨?_, ?_⟩, ⟨by simp, ?_⟩, ?_⟩
  · rw [List.nodup_cons, List.nodup_append]
    refine ⟨?_, hndLS, hndB, ?_⟩
    · rw [List.mem_append, not_or]
      exact ⟨(hdisD d (by simp)).2, (List.nodup_cons.1 hndD).1⟩
    · intro u hu hub
      exact hdisLS u hu (List.mem_cons_of_mem _ hub)
  · have e3 : d :: (LS ++ B) ++ [d] = [d] ++ (LS ++ (B ++ [d])) := by simp
    rw [e3, chain_join _ _ _ (by simp) (by simp), chain_join _ _ _ hLS hK]
    refine ⟨List.chain'_singleton _, ⟨?_, ?_, ?_⟩, ?_⟩
    · refine path_frame h h1 LS hpLS (fun u hu => ?_) (fun v hv => ?_)
      · have h1u : u ≠ l := hle ▸ ne_getLast_of_mem_dropLast hLS hndLS hu
        have hum : u ∈ LS := List.dropLast_subset _ hu
        have h2u : u ≠ s := hsLS u hum
        have h3u : u ≠ d := by rintro rfl; exact hdisLS _ hum (by simp)
        simp [hf, h1u, h2u, h3u]
      · have h1v : v ≠ f := hfe ▸ ne_head_of_mem_tail hLS hndLS hv
        have hvm : v ∈ LS := List.mem_of_mem_tail hv
        have h2v : v ≠ s := hsLS v hvm
        have h3v : v ≠ dn := by rintro rfl; exact hdisLS _ hvm hdnm
        simp [hf, h1v, h2v, h3v]
    · refine path_frame h h1 _ hpK (fun u hu => ?_) (fun v hv => ?_)
      · rw [List.dropLast_concat] at hu
        have hum : u ∈ d :: B := List.mem_cons_of_mem _ hu
        have h1u : u ≠ d := by rintro rfl; exact (List.nodup_cons.1 hndD).1 hu
        have h2u : u ≠ s := (hdisD u hum).1
        have h3u : u ≠ l := by rintro rfl; exact (hdisD _ hum).2 hlm
        simp [hf, h1u, h2u, h3u]
      · have h1v : v ≠ dn := hdne ▸ ne_head_of_mem_tail hK hndK hv
        have hvm : v ∈ d :: B := by
          have := List.mem_of_mem_tail hv
          rw [List.mem_append, List.mem_singleton] at this
          rw [List.mem_cons]; tauto
        have h2v : v ≠ s := (hdisD v hvm).1
        have h3v : v ≠ f := by rintro rfl; exact (hdisD _ hvm).2 hfm
        simp [hf, h1v, h2v, h3v]
    · rw [hle, hdne]
      simp [link, hf, Ne.symm hsl, hld, hdns, hdnf]
    · simp only [List.getLast_singleton, List.head_append_of_ne_nil hLS, hfe]
      simp [link, hf, hds, hfs]
  · simp [link, hf]
  · intro a ha
    rw [List.mem_append, not_or] at ha
    have h1a : a ≠ s := by rintro rfl; exact ha.2 (by simp)
    have h2a : a ≠ d := by rintro rfl; exact ha.1 (by simp)
    have h3a : a ≠ l := by rintro rfl; exact ha.2 (by simp [hlm])
    have h4a : a ≠ f := by rintro rfl; exact ha.2 (by simp [hfm])
    have h5a : a ≠ dn := by rintro rfl; exact ha.1 hdnm
    exact dlist_eq (by simp [hf, h1a, h2a, h3a]) (by simp [hf, h1a, h4a, h5a]) (hf a).2.2

theorem splice_before_cyc (h : DHeap) (d s : Nat) (B LS : List Nat) (hD : Cyc h (d :: B))
    (hS : Cyc h (s :: LS)) (hLS : LS ≠ []) (hdis : ∀ a, a ∈ d :: B → a ∉ s :: LS) :
    ∃ h1, dlist_splice_before h (some d) (some s)
        = some (h1, some ((B ++ LS).head (by simp [hLS]))) ∧
      Cyc h1 (d :: (B ++ LS)) ∧ Cyc h1 [s] ∧
      ∀ a, a ∉ (d :: B) ++ (s :: LS) → h1 a = h a := by
  obtain ⟨hndD, hpD⟩ := hD
  obtain ⟨hndS, hpS⟩ := hS
  have hK : d :: B ≠ [] := by simp
  have hpD0 := hpD
  rw [chain_join _ _ _ hK (by simp)] at hpD
  obtain ⟨hpK, -, hdpd⟩ := hpD
  have e2 : s :: LS ++ [s] = [s] ++ (LS ++ [s]) := by simp
  rw [e2, chain_join _ _ _ (by simp) (by simp), chain_join _ _ _ hLS (by simp)] at hpS
  obtain ⟨-, ⟨hpLS, -, hls⟩, hsf⟩ := hpS
  simp only [List.getLast_singleton, List.head_cons, List.head_append_of_ne_nil hLS] at hdpd hls hsf
  have hfm : LS.head hLS ∈ LS := List.head_mem hLS
  have hlm : LS.getLast hLS ∈ LS := List.getLast_mem hLS
  have hdpm : (d :: B).getLast hK ∈ d :: B := List.getLast_mem hK
  have hret : (if d = (d :: B).getLast hK then some (LS.head hLS) else (h d).next)
      = some ((B ++ LS).head (by simp [hLS])) := by
    cases B with
    | nil => simp
    | cons b B1 =>
      have hdb : link h d b := by
        rw [List.cons_append, List.cons_append, List.chain'_cons] at hpD0
        exact hpD0.1
      have hne : d ≠ (d :: b :: B1).getLast hK := by
        intro e
        have hm : (d :: b :: B1).getLast hK ∈ b :: B1 := by
          rw [List.getLast_cons (by simp)]
          exact List.getLast_mem _
        rw [← e] at hm
        exact (List.nodup_cons.1 hndD).1 hm
      rw [if_neg hne, hdb.1]
      rfl
  generalize hfe : LS.head hLS = f at *
  generalize hle : LS.getLast hLS = l at *
  generalize hdpe : (d :: B).getLast hK = dp at *
  have hndLS : LS.Nodup := (List.nodup_cons.1 hndS).2
  have hndB : B.Nodup := (List.nodup_cons.1 hndD).2
  have hsLS : ∀ u ∈ LS, u ≠ s := by
    rintro u hu rfl; exact (List.nodup_cons.1 hndS).1 hu
  have hdisLS : ∀ u ∈ LS, u ∉ d :: B := fun u hu hm => hdis u hm (by simp [hu])
  have hdisD : ∀ u ∈ d :: B, u ≠ s ∧ u ∉ LS := fun u hu =>
    ⟨fun e => hdis u hu (by simp [e]), fun hm => hdis u hu (by simp [hm])⟩
  have hfs : f ≠ s := hsLS f hfm
  have hls1 : l ≠ s := hsLS l hlm
  have hds : d ≠ s := (hdisD d (by simp)).1
  have hsdp : s ≠ dp := Ne.symm (hdisD dp hdpm).1
  have hdl : d ≠ l := by rintro rfl; exact (hdisD d (by simp)).2 hlm
  have hdf : d ≠ f := by rintro rfl; exact (hdisD d (by simp)).2 hfm
  have hdpl : dp ≠ l := by rintro rfl; exact (hdisD _ hdpm).2 hlm
  have hdpf : dp ≠ f := by rintro rfl; exact (hdisD _ hdpm).2 hfm
  obtain ⟨h1, he, hf⟩ := splice_before_fields h d s dp l f hdpd.2 hls.2 hsf.1 hfs hds hsdp hdl
  rw [hret] at he
  refine ⟨h1, he, ⟨?_, ?_⟩, ⟨by simp, ?_⟩, ?_⟩
  · rw [List.nodup_cons, List.nodup_append]
    refine ⟨?_, hndB, hndLS, ?_⟩
    · rw [List.mem_append, not_or]
      exact ⟨(List.nodup_cons.1 hndD).1, (hdisD d (by simp)).2⟩
    · intro u hub hu
      exact hdisLS u hu (List.mem_cons_of_mem _ hub)
  · have e3 : d :: (B ++ LS) ++ [d] = (d :: B) ++ (LS ++ [d]) := by simp
    rw [e3, chain_join _ _ _ hK (by simp), chain_join _ _ _ hLS (by simp)]
    refine ⟨?_, ⟨?_, List.chain'_singleton _, ?_⟩, ?_⟩
    · refine path_frame h h1 _ hpK (fun u hu => ?_) (fun v hv => ?_)
      · have h1u : u ≠ dp := hdpe ▸ ne_getLast_of_mem_dropLast hK hndD hu
        have hum : u ∈ d :: B := List.dropLast_subset _ hu
        have h2u : u ≠ s := (hdisD u hum).1
        have h3u : u ≠ l := by rintro rfl; exact (hdisD _ hum).2 hlm
        simp [hf, h1u, h2u, h3u]
      · rw [List.tail_cons] at hv
        have hvm : v ∈ d :: B := List.mem_cons_of_mem _ hv
        have h1v : v ≠ d := by rintro rfl; exact (List.nodup_cons.1 hndD).1 hv
        have h2v : v ≠ s := (hdisD v hvm).1
        have h3v : v ≠ f := by rintro rfl; exact (hdisD _ hvm).2 hfm
        simp [hf, h1v, h2v, h3v]
    · refine path_frame h h1 LS hpLS (fun u hu => ?_) (fun v hv => ?_)
      · have h1u : u ≠ l := hle ▸ ne_getLast_of_mem_dropLast hLS hndLS hu
        have hum : u ∈ LS := List.dropLast_subset _ hu
        have h2u : u ≠ s := hsLS u hum
        have h3u : u ≠ dp := by rintro rfl; exact hdisLS _ hum hdpm
        simp [hf, h1u, h2u, h3u]
      · have h1v : v ≠ f := hfe ▸ ne_head_of_mem_tail hLS hndLS hv
        have hvm : v ∈ LS := List.mem_of_mem_tail hv
        have h2v : v ≠ s := hsLS v hvm
        have h3v : v ≠ d := by rintro rfl; exact hdisLS _ hvm (by simp)
        simp [hf, h1v, h2v, h3v]
    · simp only [hle, List.head_cons]
      simp [link, hf, hls1, hds]
    · simp only [hdpe, List.head_append_of_ne_nil hLS, hfe]
      simp [link, hf, Ne.symm hsdp, hdpl, hfs, Ne.symm hdf]
  · simp [link, hf]
  · intro a ha
    rw [List.mem_append, not_or] at ha
    have h1a : a ≠ s := by rintro rfl; exact ha.2 (by simp)
    have h2a : a ≠ d := by rintro rfl; exact ha.1 (by simp)
    have h3a : a ≠ l := by rintro rfl; exact ha.2 (by simp [hlm])
    have h4a : a ≠ f := by rintro rfl; exact ha.2 (by simp [hfm])
    have h5a : a ≠ dp := by rintro rfl; exact ha.1 hdpm
    exact dlist_eq (by simp [hf, h1a, h3a, h5a]) (by simp [hf, h1a, h2a, h4a]) (hf a).2.2

theorem insert_after_split (dst : Nat) (LS B : List Nat) : ∀ A : List Nat, dst ∉ A →
    insert_after dst LS (A ++ dst :: B) = A ++ dst :: (LS ++ B)
  | [], _ => by simp [insert_after]
  | a :: A1, hA => by
    have h1 : a ≠ dst := fun e => hA (by simp [e])
    have h2 : dst ∉ A1 := fun hm => hA (List.mem_cons_of_mem _ hm)
    simp [insert_after, h1, insert_after_split dst LS B A1 h2]

theorem insert_before_split (dst : Nat) (LS B : List Nat) : ∀ A : List Nat, dst ∉ A →
    insert_before dst LS (A ++ dst :: B) = A ++ (LS ++ dst :: B)
  | [], _ => by simp [insert_before]
  | a :: A1, hA => by
    have h1 : a ≠ dst := fun e => hA (by simp [e])
    have h2 : dst ∉ A1 := fun hm => hA (List.mem_cons_of_mem _ hm)
    simp [insert_before, h1, insert_before_split dst LS B A1 h2]

theorem splice_after_empty (h : DHeap) (dst S : Nat) (hS : (h S).next = some S) :
    dlist_splice_after h (some dst) (some S) = some (h, (h dst).next) := by
  simp [dlist_splice_after, hS]

theorem splice_before_empty (h : DHeap) (dst S : Nat) (hS : (h S).next = some S) :
    dlist_splice_before h (some dst) (some S) = some (h, (h dst).next) := by
  simp [dlist_splice_before, hS]

theorem ring_splice_after {h : DHeap} {D S dst : Nat} {LD LS A B : List Nat}
    (hD : Ring h D LD) (hS : Ring h S LS) (hLS : LS ≠ [])
    (hdis : ∀ a, a ∈ D :: LD → a ∉ S :: LS) (hsplit : D :: LD = A ++ dst :: B) :
    ∃ h1, dlist_splice_after h (some dst) (some S) = some (h1, some (LS.head hLS)) ∧
      Ring h1 D (if dst = D then LS ++ LD else insert_after dst LS LD) ∧ Ring h1 S [] ∧
      ∀ a, a ∉ (D :: LD) ++ (S :: LS) → h1 a = h a := by
  have hcD := ring_cyc hD
  have hnd := ring_nodup hD
  rw [hsplit] at hcD hnd
  have hc0 : Cyc h (dst :: (B ++ A)) := by
    have := cyc_rotate A (dst :: B) hcD
    simpa using this
  have hdis0 : ∀ a, a ∈ dst :: (B ++ A) → a ∉ S :: LS := by
    intro a ha
    refine hdis a ?_
    rw [hsplit]
    simp at ha ⊢; tauto
  obtain ⟨h1, he, hc1, hcS, hfr⟩ := splice_after_cyc h dst S (B ++ A) LS hc0 (ring_cyc hS) hLS hdis0
  have hc2 : Cyc h1 (A ++ dst :: (LS ++ B)) := by
    have := cyc_rotate (dst :: (LS ++ B)) A (by simpa using hc1)
    simpa using this
  refine ⟨h1, he, ?_, cyc_ring hcS, ?_⟩
  · cases A with
    | nil =>
      simp only [List.nil_append, List.cons.injEq] at hsplit
      obtain ⟨rfl, rfl⟩ := hsplit
      simp only [if_true]
      exact cyc_ring (by simpa using hc2)
    | cons a A1 =>
      simp only [List.cons_append, List.cons.injEq] at hsplit
      obtain ⟨rfl, rfl⟩ := hsplit
      have hdD : dst ≠ D := by
        rintro rfl
        simp at hnd
      have hdA : dst ∉ A1 := by
        intro hm
        simp [List.nodup_append] at hnd
        tauto
      rw [if_neg hdD, insert_after_split dst LS B A1 hdA]
      exact cyc_ring (by simpa using hc2)
  · intro a ha
    refine hfr a ?_
    rw [hsplit] at ha
    simp at ha ⊢; tauto

theorem ring_splice_before {h : DHeap} {D S dst : Nat} {LD LS A B : List Nat}
    (hD : Ring h D LD) (hS : Ring h S LS) (hLS : LS ≠ [])
    (hdis : ∀ a, a ∈ D :: LD → a ∉ S :: LS) (hsplit : D :: LD = A ++ dst :: B) :
    ∃ h1 r, dlist_splice_before h (some dst) (some S) = some (h1, r) ∧
      Ring h1 D (if dst = D then LD ++ LS else insert_before dst LS LD) ∧ Ring h1 S [] ∧
      ∀ a, a ∉ (D :: LD) ++ (S :: LS) → h1 a = h a := by
  have hcD := ring_cyc hD
  have hnd := ring_nodup hD
  rw [hsplit] at hcD hnd
  have hc0 : Cyc h (dst :: (B ++ A)) := by
    have := cyc_rotate A (dst :: B) hcD
    simpa using this
  have hdis0 : ∀ a, a ∈ dst :: (B ++ A) → a ∉ S :: LS := by
    intro a ha
    refine hdis a ?_
    rw [hsplit]
    simp at ha ⊢; tauto
  obtain ⟨h1, he, hc1, hcS, hfr⟩ := splice_before_cyc h dst S (B ++ A) LS hc0 (ring_cyc hS) hLS hdis0
  refine ⟨h1, _, he, ?_, cyc_ring hcS, ?_⟩
  · cases A with
    | nil =>
      simp only [List.nil_append, List.cons.injEq] at hsplit
      obtain ⟨rfl, rfl⟩ := hsplit
      simp only [if_true]
      exact cyc_ring (by simpa using hc1)
    | cons a A1 =>
      simp only [List.cons_append, List.cons.injEq] at hsplit
      obtain ⟨rfl, rfl⟩ := hsplit
      have hdD : dst ≠ D := by
        rintro rfl
        simp at hnd
      have hdA : dst ∉ A1 := by
        intro hm
        simp [List.nodup_append] at hnd
        tauto
      rw [if_neg hdD, insert_before_split dst LS B A1 hdA]
      have := cyc_rotate (dst :: B) (D :: A1 ++ LS) (by simpa using hc1)
      exact cyc_ring (by simpa using this)
  · intro a ha
    refine hfr a ?_
    rw [hsplit] at ha
    simp at ha ⊢; tauto

theorem insert_after_nil (dst : Nat) : ∀ l : List Nat, insert_after dst [] l = l
  | [] => rfl
  | a :: l => by
    by_cases e : a = dst <;> simp [insert_after, e, insert_after_nil dst l]

theorem insert_before_nil (dst : Nat) : ∀ l : List Nat, insert_before dst [] l = l
  | [] => rfl
  | a :: l => by
    by_cases e : a = dst <;> simp [insert_before, e, insert_before_nil dst l]

theorem insert_after_length_le (dst : Nat) (LS : List Nat) : ∀ l : List Nat,
    (insert_after dst LS l).length ≤ l.length + LS.length
  | [] => by simp [insert_after]
  | a :: l => by
    have := insert_after_length_le dst LS l
    by_cases e : a = dst <;> simp [insert_after, e] <;> omega

theorem insert_before_length_le (dst : Nat) (LS : List Nat) : ∀ l : List Nat,
    (insert_before dst LS l).length ≤ l.length + LS.length
  | [] => by simp [insert_before]
  | a :: l => by
    have := insert_before_length_le dst LS l
    by_cases e : a = dst <;> simp [insert_before, e] <;> omega

theorem ring_empty_self {h : DHeap} {S : Nat} (hr : Ring h S []) :
    (h S).next = some S ∧ (h S).prev = some S := by
  have := hr.2
  simpa [linked, link] using this

/-- C8 (`dlist_splice_after`, `dlist_splice_before`): for two well-formed circular lists
on disjoint node sets, with sentinels `D` and `S` and forward traversals `LD` and
`LS`, and a node `dst` of the list of `D` (`D` itself or an element of `LD`), after
`dlist_splice_after` the forward traversal of `D` is `LD` with the whole of `LS`, in
its order, immediately after `dst`; after `dlist_splice_before` it is `LD` with `LS`
immediately before `dst`; in both cases `S` is afterwards an empty singleton ring, and
if `LS` is empty no node field is changed. -/
theorem dlist_splice_moves (h : DHeap) (D S dst : Nat) (LD LS : List Nat) (fuel : Nat)
    (hD : Ring h D LD) (hS : Ring h S LS) (hdis : ∀ a, a ∈ D :: LD → a ∉ S :: LS)
    (hdst : dst ∈ D :: LD) (hf : LD.length + LS.length < fuel) :
    (∃ h1 r, dlist_splice_after h (some dst) (some S) = some (h1, r) ∧
      Ring h1 D (if dst = D then LS ++ LD else insert_after dst LS LD) ∧
      dlist_traversal fuel h1 (some D)
        = some ((if dst = D then LS ++ LD else insert_after dst LS LD).map some) ∧
      (h1 S).next = some S ∧ (h1 S).prev = some S ∧ (LS = [] → h1 = h)) ∧
    (∃ h2 r, dlist_splice_before h (some dst) (some S) = some (h2, r) ∧
      Ring h2 D (if dst = D then LD ++ LS else insert_before dst LS LD) ∧
      dlist_traversal fuel h2 (some D)
        = some ((if dst = D then LD ++ LS else insert_before dst LS LD).map some) ∧
      (h2 S).next = some S ∧ (h2 S).prev = some S ∧ (LS = [] → h2 = h)) := by
  obtain ⟨A, B, hsplit⟩ := List.append_of_mem hdst
  have hlenA : (if dst = D then LS ++ LD else insert_after dst LS LD).length < fuel := by
    have := insert_after_length_le dst LS LD
    split <;> simp <;> omega
  have hlenB : (if dst = D then LD ++ LS else insert_before dst LS LD).length < fuel := by
    have := insert_before_length_le dst LS LD
    split <;> simp <;> omega
  by_cases hLS : LS = []
  · subst hLS
    have hSS := ring_empty_self hS
    have hA : Ring h D (if dst = D then [] ++ LD else insert_after dst [] LD) := by
      rw [insert_after_nil]; simpa using hD
    have hB : Ring h D (if dst = D then LD ++ [] else insert_before dst [] LD) := by
      rw [insert_before_nil]; simpa using hD
    exact ⟨⟨h, _, splice_after_empty h dst S hSS.1, hA, traversal_ring hA fuel hlenA,
        hSS.1, hSS.2, fun _ => rfl⟩,
      ⟨h, _, splice_before_empty h dst S hSS.1, hB, traversal_ring hB fuel hlenB,
        hSS.1, hSS.2, fun _ => rfl⟩⟩
  · obtain ⟨h1, he1, hr1, hs1, _⟩ := ring_splice_after hD hS hLS hdis hsplit
    obtain ⟨h2, r2, he2, hr2, hs2, _⟩ := ring_splice_before hD hS hLS hdis hsplit
    exact ⟨⟨h1, _, he1, hr1, traversal_ring hr1 fuel hlenA, (ring_empty_self hs1).1,
        (ring_empty_self hs1).2, fun e => absurd e hLS⟩,
      ⟨h2, r2, he2, hr2, traversal_ring hr2 fuel hlenB, (ring_empty_self hs2).1,
        (ring_empty_self hs2).2, fun e => absurd e hLS⟩⟩

theorem dlist_splice_moves_witness :
    (Ring exHeapTwo 10 [1, 2, 3] ∧ Ring exHeapTwo 20 [5, 6] ∧
      (∀ a, a ∈ [10, 1, 2, 3] → a ∉ [20, 5, 6]) ∧ 2 ∈ [10, 1, 2, 3] ∧
      [1, 2, 3].length + [5, 6].length < 8) ∧
    (∃ h1 r, dlist_splice_after exHeapTwo (some 2) (some 20) = some (h1, r) ∧
      Ring h1 10 [1, 2, 5, 6, 3] ∧
      dlist_traversal 8 h1 (some 10) = some [some 1, some 2, some 5, some 6, some 3] ∧
      (h1 20).next = some 20 ∧ (h1 20).prev = some 20 ∧ (([5, 6] : List Nat) = [] → h1 = exHeapTwo)) ∧
    (∃ h2 r, dlist_splice_before exHeapTwo (some 2) (some 20) = some (h2, r) ∧
      Ring h2 10 [1, 5, 6, 2, 3] ∧
      dlist_traversal 8 h2 (some 10) = some [some 1, some 5, some 6, some 2, some 3] ∧
      (h2 20).next = some 20 ∧ (h2 20).prev = some 20 ∧ (([5, 6] : List Nat) = [] → h2 = exHeapTwo)) :=
  ⟨by decide, dlist_splice_moves exHeapTwo 10 20 2 [1, 2, 3] [5, 6] 8 (by decide) (by decide)
    (by decide) (by decide) (by decide)⟩

/-! ## Reversal -/

theorem swap_fields_step (h : DHeap) (Dn : List Nat) (r : Nat) (hr : r ∉ Dn) :
    set_prev (set_next (swap_fields h Dn) r (h r).prev) r (h r).next
      = swap_fields h (Dn ++ [r]) := by
  funext a
  by_cases e : a = r
  · subst e
    apply dlist_eq <;> simp [swap_fields, set_prev, set_next, hr]
  · by_cases hm : a ∈ Dn
    · apply dlist_eq <;> simp [swap_fields, e, hm]
    · apply dlist_eq <;> simp [swap_fields, e, hm]

theorem reverse_loop_path (h : DHeap) (H : Nat) : ∀ (R Dn : List Nat) (a fuel : Nat),
    List.Chain' (link h) (a :: R ++ [H]) → H ∉ R → R.Nodup → (∀ r ∈ R, r ∉ Dn) →
    R.length < fuel →
    dlist_reverse_loop fuel (swap_fields h Dn) (some H) (h a).next
      = some (swap_fields h (Dn ++ R))
  | [], Dn, a, fuel, hp, _, _, _, hf => by
    have hl : link h a H := by simpa using hp
    obtain ⟨k, rfl⟩ : ∃ k, fuel = k + 1 := ⟨fuel - 1, by simp at hf; omega⟩
    simp [dlist_reverse_loop, hl.1]
  | r :: R1, Dn, a, fuel, hp, hH, hnd, hD, hf => by
    rw [List.cons_append, List.cons_append, List.chain'_cons] at hp
    obtain ⟨k, rfl⟩ : ∃ k, fuel = k + 1 := ⟨fuel - 1, by simp at hf; omega⟩
    have hrH : r ≠ H := fun e => hH (by simp [e])
    have hrD : r ∉ Dn := hD r (by simp)
    have hcur : swap_fields h Dn r = h r := by simp [swap_fields, hrD]
    have ih := reverse_loop_path h H R1 (Dn ++ [r]) r k hp.2
      (fun hm => hH (List.mem_cons_of_mem _ hm)) (List.nodup_cons.1 hnd).2
      (by
        intro x hx hxd
        rw [List.mem_append, List.mem_singleton] at hxd
        rcases hxd with hxd | rfl
        · exact hD x (List.mem_cons_of_mem _ hx) hxd
        · exact (List.nodup_cons.1 hnd).1 hx)
      (by simp at hf; omega)
    simp only [dlist_reverse_loop, hp.1.1, Option.some.injEq, hrH, if_false, rd_next_some,
      rd_prev_some, wr_next_some, wr_prev_some, Option.some_bind, hcur, set_prev_prev,
      if_true]
    rw [swap_fields_step h Dn r hrD, ih]
    simp

theorem ring_reverse {h : DHeap} {H : Nat} {L : List Nat} (hr : Ring h H L) (fuel : Nat)
    (hf : L.length < fuel) :
    dlist_reverse fuel h (some H) = some (swap_fields h (H :: L)) ∧
      Ring (swap_fields h (H :: L)) H L.reverse := by
  have hnd := ring_nodup hr
  have hp := ring_path hr
  constructor
  · have h0 : set_prev (set_next h H (h H).prev) H (h H).next = swap_fields h [H] := by
      have := swap_fields_step h [] H (by simp)
      have e : swap_fields h [] = h := by funext a; simp [swap_fields]
      rw [e] at this
      simpa using this
    have hl := reverse_loop_path h H L [H] H fuel hp hr.1 (List.nodup_cons.1 hnd).2
      (fun r hr1 hm => by
        rw [List.mem_singleton] at hm
        subst hm
        exact hr.1 hr1) hf
    simp only [dlist_reverse, rd_next_some, rd_prev_some, wr_next_some, wr_prev_some,
      Option.some_bind, h0]
    have e2 : (swap_fields h [H] H).prev = (h H).next := by simp [swap_fields]
    rw [e2, hl]
    rfl
  · refine ⟨by simpa using hr.1, (linked_iff_chain _ _).2 ?_⟩
    have e : H :: L.reverse ++ [H] = (H :: L ++ [H]).reverse := by simp
    rw [e, List.chain'_reverse]
    refine (List.Chain'.iff_mem.1 hp).imp ?_
    rintro x y ⟨hx, hy, hxy⟩
    have hx1 : x ∈ H :: L := by simp at hx ⊢; tauto
    have hy1 : y ∈ H :: L := by simp at hy ⊢; tauto
    simp only [flip, link, swap_fields, hx1, hy1, if_true]
    exact ⟨hxy.2, hxy.1⟩

theorem swap_fields_twice (h : DHeap) (S T : List Nat) (hST : ∀ a, a ∈ T ↔ a ∈ S) :
    swap_fields (swap_fields h S) T = h := by
  funext a
  by_cases hm : a ∈ S
  · have hm1 : a ∈ T := (hST a).2 hm
    apply dlist_eq <;> simp [swap_fields, hm, hm1]
  · have hm1 : a ∉ T := fun e => hm ((hST a).1 e)
    simp [swap_fields, hm, hm1]

/-- C9 (`dlist_reverse`): on a well-formed circular list with sentinel `H` and forward
traversal `L` (empty and single-element `L` included), `dlist_reverse` terminates, and
afterwards the list is well-formed, its forward traversal is the reverse of `L` and
`dlist_length` is unchanged. -/
theorem dlist_reverse_reverses (h : DHeap) (H : Nat) (L : List Nat) (fuel : Nat)
    (hr : Ring h H L) (hf : L.length < fuel) (hl : L.length < SIZE_MOD) :
    ∃ h1, dlist_reverse fuel h (some H) = some h1 ∧ Ring h1 H L.reverse ∧
      dlist_traversal fuel h1 (some H) = some (L.reverse.map some) ∧
      dlist_length fuel h (some H) = some L.length ∧
      dlist_length fuel h1 (some H) = some L.length := by
  obtain ⟨he, hr1⟩ := ring_reverse hr fuel hf
  refine ⟨_, he, hr1, traversal_ring hr1 fuel (by simpa using hf),
    length_ring hr fuel hf hl, ?_⟩
  simpa using length_ring hr1 fuel (by simpa using hf) (by simpa using hl)

theorem dlist_reverse_reverses_witness :
    (Ring exHeapABC 10 [1, 2, 3] ∧ [1, 2, 3].length < 8 ∧ [1, 2, 3].length < SIZE_MOD) ∧
    exPushedABC.bind (fun hh => dlist_length 8 hh (some 10)) = some 3 ∧
    exPushedABC.bind (fun hh => dlist_traversal 8 hh (some 10))
      = some [some 1, some 2, some 3] ∧
    exPushedABC.bind (fun hh => (dlist_reverse 8 hh (some 10)).bind fun h1 =>
      dlist_traversal 8 h1 (some 10)) = some [some 3, some 2, some 1] ∧
    ∃ h1, dlist_reverse 8 exHeapABC (some 10) = some h1 ∧ Ring h1 10 [3, 2, 1] ∧
      dlist_traversal 8 h1 (some 10) = some [some 3, some 2, some 1] ∧
      dlist_length 8 exHeapABC (some 10) = some 3 ∧
      dlist_length 8 h1 (some 10) = some 3 :=
  ⟨by decide, by decide, by decide, by decide,
    dlist_reverse_reverses exHeapABC 10 [1, 2, 3] 8 (by decide) (by decide) (by decide)⟩

/-- C10 (`dlist_reverse`): on a well-formed circular list with sentinel `H`, calling
`dlist_reverse` twice restores the memory exactly: every node (the sentinel included)
has the same `next` and `prev` as before the first call, and the forward traversal is
the original one. -/
theorem dlist_reverse_involution (h : DHeap) (H : Nat) (L : List Nat) (fuel : Nat)
    (hr : Ring h H L) (hf : L.length < fuel) :
    ∃ h1 h2, dlist_reverse fuel h (some H) = some h1 ∧
      dlist_reverse fuel h1 (some H) = some h2 ∧ h2 = h ∧
      (∀ a, (h2 a).next = (h a).next ∧ (h2 a).prev = (h a).prev) ∧
      dlist_traversal fuel h2 (some H) = some (L.map some) := by
  obtain ⟨he, hr1⟩ := ring_reverse hr fuel hf
  obtain ⟨he2, _⟩ := ring_reverse hr1 fuel (by simpa using hf)
  have e : swap_fields (swap_fields h (H :: L)) (H :: L.reverse) = h :=
    swap_fields_twice h _ _ (by intro a; simp)
  rw [e] at he2
  exact ⟨_, h, he, he2, rfl, fun a => ⟨rfl, rfl⟩, traversal_ring hr fuel hf⟩

theorem dlist_reverse_involution_witness :
    (Ring exHeapABC 10 [1, 2, 3] ∧ [1, 2, 3].length < 8) ∧
    ∃ h1 h2, dlist_reverse 8 exHeapABC (some 10) = some h1 ∧
      dlist_reverse 8 h1 (some 10) = some h2 ∧ h2 = exHeapABC ∧
      (∀ a, (h2 a).next = (exHeapABC a).next ∧ (h2 a).prev = (exHeapABC a).prev) ∧
      dlist_traversal 8 h2 (some 10) = some [some 1, some 2, some 3] :=
  ⟨by decide, dlist_reverse_involution exHeapABC 10 [1, 2, 3] 8 (by decide) (by decide)⟩

/-! ## Well-formedness after insertion and splice -/

theorem ring_node_ok {h : DHeap} {H : Nat} {L : List Nat} (hr : Ring h H L) :
    ∀ n ∈ H :: L, node_ok h n := by
  intro n hn
  obtain ⟨A, B, hsplit⟩ := List.append_of_mem hn
  have hc := ring_cyc hr
  rw [hsplit] at hc
  have hc0 : Cyc h (n :: (B ++ A)) := by
    have := cyc_rotate A (n :: B) hc
    simpa using this
  obtain ⟨-, hp⟩ := hc0
  have h1 := hp
  have e1 : n :: (B ++ A) ++ [n] = [n] ++ ((B ++ A) ++ [n]) := by simp
  rw [e1, chain_join _ _ _ (by simp) (by simp)] at h1
  rw [chain_join _ _ _ (by simp) (by simp)] at hp
  have hnx := h1.2.2
  have hpv := hp.2.2
  simp only [List.getLast_singleton, List.head_cons] at hnx hpv
  obtain ⟨c, hnc⟩ : ∃ c, link h n c := ⟨_, hnx⟩
  obtain ⟨p, hpn⟩ : ∃ p, link h p n := ⟨_, hpv⟩
  exact ⟨by simp [hnc.1, hnc.2], by simp [hpn.1, hpn.2]⟩

theorem backward_loop_path {σ : Type} (body : σ → Ptr → σ) (h : DHeap) (H : Nat) :
    ∀ (R : List Nat) (a : Nat) (st : σ) (fuel : Nat),
      List.Chain' (flip (link h)) (a :: R ++ [H]) → H ∉ R → R.length < fuel →
      dlist_backward_loop body fuel h (some H) (h a).prev st
        = some (R.foldl (fun s r => body s (some r)) st)
  | [], a, st, fuel, hp, _, hf => by
    have hl : link h H a := by simpa [flip] using hp
    obtain ⟨k, rfl⟩ : ∃ k, fuel = k + 1 := ⟨fuel - 1, by simp at hf; omega⟩
    simp [dlist_backward_loop, hl.2]
  | r :: R1, a, st, fuel, hp, hH, hf => by
    rw [List.cons_append, List.cons_append, List.chain'_cons] at hp
    obtain ⟨k, rfl⟩ : ∃ k, fuel = k + 1 := ⟨fuel - 1, by simp at hf; omega⟩
    have hrH : r ≠ H := fun e => hH (by simp [e])
    have hra : link h r a := hp.1
    have ih := backward_loop_path body h H R1 r (body st (some r)) k hp.2
      (fun hm => hH (List.mem_cons_of_mem _ hm)) (by simp at hf; omega)
    simp [dlist_backward_loop, hra.2, hrH, ih]

theorem backward_ring {h : DHeap} {H : Nat} {L : List Nat} (hr : Ring h H L) (fuel : Nat)
    (hf : L.length < fuel) :
    backward_traversal fuel h (some H) = some (L.reverse.map some) := by
  have hp := ring_path hr
  have hrev : List.Chain' (flip (link h)) (H :: L.reverse ++ [H]) := by
    have e : H :: L.reverse ++ [H] = (H :: L ++ [H]).reverse := by simp
    rw [e, List.chain'_reverse]
    exact hp
  simp only [backward_traversal, rd_prev_some, Option.some_bind]
  rw [backward_loop_path _ h H L.reverse H [] fuel hrev (by simpa using hr.1)
    (by simpa using hf), foldl_snoc_map]
  simp

theorem ring_push_after {h : DHeap} {H dst x : Nat} {L : List Nat} (hr : Ring h H L)
    (hdst : dst ∈ H :: L) (hx : x ∉ H :: L) :
    ∃ h1, dlist_push_after h (some dst) (some x) = some (h1, some x) ∧
      Ring h1 H (if dst = H then x :: L else insert_after dst [x] L) ∧
      ∀ a, a ∉ x :: H :: L → h1 a = h a := by
  obtain ⟨A, B, hsplit⟩ := List.append_of_mem hdst
  have hc := ring_cyc hr
  have hnd := ring_nodup hr
  rw [hsplit] at hc hnd hx
  have hc0 : Cyc h (dst :: (B ++ A)) := by
    have := cyc_rotate A (dst :: B) hc
    simpa using this
  obtain ⟨h1, he, hc1, hfr⟩ := push_after_cyc h dst x (B ++ A) hc0 (by simp at hx ⊢; tauto)
  have hc2 : Cyc h1 (A ++ dst :: ([x] ++ B)) := by
    have := cyc_rotate (dst :: x :: B) A (by simpa using hc1)
    simpa using this
  refine ⟨h1, he, ?_, ?_⟩
  · cases A with
    | nil =>
      simp only [List.nil_append, List.cons.injEq] at hsplit
      obtain ⟨rfl, rfl⟩ := hsplit
      simp only [if_true]
      exact cyc_ring (by simpa using hc2)
    | cons a A1 =>
      simp only [List.cons_append, List.cons.injEq] at hsplit
      obtain ⟨rfl, rfl⟩ := hsplit
      have hdD : dst ≠ H := by
        rintro rfl
        simp at hnd
      have hdA : dst ∉ A1 := by
        intro hm
        simp [List.nodup_append] at hnd
        tauto
      rw [if_neg hdD, insert_after_split dst [x] B A1 hdA]
      exact cyc_ring (by simpa using hc2)
  · intro a ha
    refine hfr a ?_
    rw [hsplit] at ha
    simp at ha ⊢; tauto

theorem ring_push_before {h : DHeap} {H dst x : Nat} {L : List Nat} (hr : Ring h H L)
    (hdst : dst ∈ H :: L) (hx : x ∉ H :: L) :
    ∃ h1, dlist_push_before h (some dst) (some x) = some (h1, some x) ∧
      Ring h1 H (if dst = H then L ++ [x] else insert_before dst [x] L) ∧
      ∀ a, a ∉ x :: H :: L → h1 a = h a := by
  obtain ⟨A, B, hsplit⟩ := List.append_of_mem hdst
  have hc := ring_cyc hr
  have hnd := ring_nodup hr
  rw [hsplit] at hc hnd hx
  have hc0 : Cyc h (dst :: (B ++ A)) := by
    have := cyc_rotate A (dst :: B) hc
    simpa using this
  obtain ⟨h1, he, hc1, hfr⟩ := push_before_cyc h dst x (B ++ A) hc0 (by simp at hx ⊢; tauto)
  refine ⟨h1, he, ?_, ?_⟩
  · cases A with
    | nil =>
      simp only [List.nil_append, List.cons.injEq] at hsplit
      obtain ⟨rfl, rfl⟩ := hsplit
      simp only [if_true]
      have := cyc_rotate [x] (H :: L) (by simpa using hc1)
      exact cyc_ring (by simpa using this)
    | cons a A1 =>
      simp only [List.cons_append, List.cons.injEq] at hsplit
      obtain ⟨rfl, rfl⟩ := hsplit
      have hdD : dst ≠ H := by
        rintro rfl
        simp at hnd
      have hdA : dst ∉ A1 := by
        intro hm
        simp [List.nodup_append] at hnd
        tauto
      rw [if_neg hdD, insert_before_split dst [x] B A1 hdA]
      have := cyc_rotate (x :: dst :: B) (H :: A1) (by simpa using hc1)
      exact cyc_ring (by simpa using this)
  · intro a ha
    refine hfr a ?_
    rw [hsplit] at ha
    simp at ha ⊢; tauto

theorem ring_splice_after_any {h : DHeap} {D S dst : Nat} {LD LS : List Nat}
    (hD : Ring h D LD) (hS : Ring h S LS) (hdis : ∀ a, a ∈ D :: LD → a ∉ S :: LS)
    (hdst : dst ∈ D :: LD) :
    ∃ h1 r, dlist_splice_after h (some dst) (some S) = some (h1, r) ∧
      Ring h1 D (if dst = D then LS ++ LD else insert_after dst LS LD) ∧ Ring h1 S [] := by
  obtain ⟨A, B, hsplit⟩ := List.append_of_mem hdst
  by_cases hLS : LS = []
  · subst hLS
    have hSS := ring_empty_self hS
    refine ⟨h, _, splice_after_empty h dst S hSS.1, ?_, hS⟩
    rw [insert_after_nil]; simpa using hD
  · obtain ⟨h1, he1, hr1, hs1, _⟩ := ring_splice_after hD hS hLS hdis hsplit
    exact ⟨h1, _, he1, hr1, hs1⟩

theorem ring_splice_before_any {h : DHeap} {D S dst : Nat} {LD LS : List Nat}
    (hD : Ring h D LD) (hS : Ring h S LS) (hdis : ∀ a, a ∈ D :: LD → a ∉ S :: LS)
    (hdst : dst ∈ D :: LD) :
    ∃ h1 r, dlist_splice_before h (some dst) (some S) = some (h1, r) ∧
      Ring h1 D (if dst = D then LD ++ LS else insert_before dst LS LD) ∧ Ring h1 S [] := by
  obtain ⟨A, B, hsplit⟩ := List.append_of_mem hdst
  by_cases hLS : LS = []
  · subst hLS
    have hSS := ring_empty_self hS
    refine ⟨h, _, splice_before_empty h dst S hSS.1, ?_, hS⟩
    rw [insert_before_nil]; simpa using hD
  · obtain ⟨h1, r, he1, hr1, hs1, _⟩ := ring_splice_before hD hS hLS hdis hsplit
    exact ⟨h1, r, he1, hr1, hs1⟩

theorem ring_both_ways {h : DHeap} {H : Nat} {L : List Nat} (hr : Ring h H L) (fuel : Nat)
    (hf : L.length < fuel) : BothWays fuel h H L :=
  ⟨hr, ring_node_ok hr, traversal_ring hr fuel hf, backward_ring hr fuel hf⟩

/-- C11 (`dlist_push_after`, `dlist_push_before`, `dlist_splice_after`,
`dlist_splice_before`): on a well-formed ring with sentinel `H` and a node `dst` of the
ring, after a push of any node `x` outside the ring after or before `dst`, and after a
splice of any disjoint well-formed list of sentinel `S` after or before `dst`, the ring
of `H` is again well-formed (every node satisfies `next->prev == self` and
`prev->next == self`), and the backward traversal from `H` visits the nodes of the
forward traversal in reverse order.  The pushes ask nothing of the rest of the memory:
no second list need exist. -/
theorem dlist_insert_splice_wellformed (h : DHeap) (H dst : Nat) (L : List Nat)
    (hr : Ring h H L) (hdst : dst ∈ H :: L) :
    (∀ x fuel, x ∉ H :: L → L.length + 1 < fuel →
      (∃ h1, dlist_push_after h (some dst) (some x) = some (h1, some x) ∧
        BothWays fuel h1 H (if dst = H then x :: L else insert_after dst [x] L)) ∧
      (∃ h2, dlist_push_before h (some dst) (some x) = some (h2, some x) ∧
        BothWays fuel h2 H (if dst = H then L ++ [x] else insert_before dst [x] L))) ∧
    (∀ S LS fuel, Ring h S LS → (∀ a, a ∈ H :: L → a ∉ S :: LS) →
      L.length + LS.length < fuel →
      (∃ h3 r, dlist_splice_after h (some dst) (some S) = some (h3, r) ∧
        BothWays fuel h3 H (if dst = H then LS ++ L else insert_after dst LS L)) ∧
      (∃ h4 r, dlist_splice_before h (some dst) (some S) = some (h4, r) ∧
        BothWays fuel h4 H (if dst = H then L ++ LS else insert_before dst LS L))) := by
  refine ⟨fun x fuel hx hf => ?_, fun S LS fuel hS hdis hf => ?_⟩
  · have l1 : (if dst = H then x :: L else insert_after dst [x] L).length < fuel := by
      have := insert_after_length_le dst [x] L
      split <;> simp at this ⊢ <;> omega
    have l2 : (if dst = H then L ++ [x] else insert_before dst [x] L).length < fuel := by
      have := insert_before_length_le dst [x] L
      split <;> simp at this ⊢ <;> omega
    obtain ⟨h1, e1, r1, _⟩ := ring_push_after hr hdst hx
    obtain ⟨h2, e2, r2, _⟩ := ring_push_before hr hdst hx
    exact ⟨⟨h1, e1, ring_both_ways r1 fuel l1⟩, ⟨h2, e2, ring_both_ways r2 fuel l2⟩⟩
  · have l3 : (if dst = H then LS ++ L else insert_after dst LS L).length < fuel := by
      have := insert_after_length_le dst LS L
      split <;> simp <;> omega
    have l4 : (if dst = H then L ++ LS else insert_before dst LS L).length < fuel := by
      have := insert_before_length_le dst LS L
      split <;> simp <;> omega
    obtain ⟨h3, q3, e3, r3, _⟩ := ring_splice_after_any hr hS hdis hdst
    obtain ⟨h4, q4, e4, r4, _⟩ := ring_splice_before_any hr hS hdis hdst
    exact ⟨⟨h3, q3, e3, ring_both_ways r3 fuel l3⟩, ⟨h4, q4, e4, ring_both_ways r4 fuel l4⟩⟩

theorem dlist_insert_splice_wellformed_witness :
    (Ring exHeapABC 10 [1, 2, 3] ∧ 2 ∈ [10, 1, 2, 3] ∧ 4 ∉ [10, 1, 2, 3] ∧
      [1, 2, 3].length + 1 < 8 ∧
      Ring exHeapTwo 10 [1, 2, 3] ∧ Ring exHeapTwo 20 [5, 6] ∧
      (∀ a, a ∈ [10, 1, 2, 3] → a ∉ [20, 5, 6]) ∧ [1, 2, 3].length + [5, 6].length < 8) ∧
    ((∃ h1, dlist_push_after exHeapABC (some 2) (some 4) = some (h1, some 4) ∧
        BothWays 8 h1 10 [1, 2, 4, 3]) ∧
      (∃ h2, dlist_push_before exHeapABC (some 2) (some 4) = some (h2, some 4) ∧
        BothWays 8 h2 10 [1, 4, 2, 3])) ∧
    ((∃ h3 r, dlist_splice_after exHeapTwo (some 2) (some 20) = some (h3, r) ∧
        BothWays 8 h3 10 [1, 2, 5, 6, 3]) ∧
      (∃ h4 r, dlist_splice_before exHeapTwo (some 2) (some 20) = some (h4, r) ∧
        BothWays 8 h4 10 [1, 5, 6, 2, 3])) :=
  ⟨by decide,
    (dlist_insert_splice_wellformed exHeapABC 10 2 [1, 2, 3] (by decide) (by decide)).1 4 8
      (by decide) (by decide),
    (dlist_insert_splice_wellformed exHeapTwo 10 2 [1, 2, 3] (by decide) (by decide)).2 20
      [5, 6] 8 (by decide) (by decide) (by decide)⟩

/-! ## Singly-linked list -/

@[simp] theorem sset_next_next (h : SHeap) (a : Nat) (v : Ptr) (b : Nat) :
    (sset_next h a v b).next = if b = a then v else (h b).next := by
  unfold sset_next; by_cases e : b = a <;> simp [Function.update_apply, e]

@[simp] theorem sset_cont_next (h : SHeap) (a : Nat) (v : Option Nat) (b : Nat) :
    (sset_cont h a v b).next = (h b).next := by
  unfold sset_cont; by_cases e : b = a <;> simp [Function.update_apply, e]

theorem schain_frame (h h1 : SHeap) : ∀ (L : List Nat) (n : Nat), schain h n L →
    (∀ u ∈ n :: L, (h1 u).next = (h u).next) → schain h1 n L
  | [], n, hc, hf => by
    simp only [schain] at hc ⊢
    rw [hf n (by simp)]; exact hc
  | x :: xs, n, hc, hf => by
    simp only [schain] at hc ⊢
    refine ⟨by rw [hf n (by simp)]; exact hc.1, schain_frame h h1 xs x hc.2 ?_⟩
    intro u hu
    exact hf u (List.mem_cons_of_mem _ hu)

theorem schain_unique (h : SHeap) : ∀ (L M : List Nat) (n : Nat), schain h n L →
    schain h n M → L = M
  | [], [], _, _, _ => rfl
  | [], y :: ys, n, hl, hm => by
    simp only [schain] at hl hm
    rw [hl] at hm; simp at hm
  | x :: xs, [], n, hl, hm => by
    simp only [schain] at hl hm
    rw [hm] at hl; simp at hl
  | x :: xs, y :: ys, n, hl, hm => by
    simp only [schain] at hl hm
    have e : x = y := by
      have := hl.1.symm.trans hm.1
      simpa using this
    subst e
    rw [schain_unique h xs ys x hl.2 hm.2]

theorem schain_suffix (h : SHeap) : ∀ (A : List Nat) (n x : Nat) (B : List Nat),
    schain h n (A ++ x :: B) → schain h x B
  | [], n, x, B, hc => by
    simp only [List.nil_append, schain] at hc
    exact hc.2
  | a :: A1, n, x, B, hc => by
    simp only [List.cons_append, schain] at hc
    exact schain_suffix h A1 a x B hc.2

theorem schain_not_mem {h : SHeap} {n : Nat} {L : List Nat} (hc : schain h n L) : n ∉ L := by
  intro hm
  obtain ⟨A, B, rfl⟩ := List.append_of_mem hm
  have hB := schain_suffix h A n n B hc
  have := schain_unique h _ _ n hc hB
  have hl := congrArg List.length this
  simp at hl
  omega

theorem slist_push_after_chain (h : SHeap) (dst src : Nat) (L : List Nat)
    (hc : schain h dst L) (hs : src ∉ L) (hsd : src ≠ dst) :
    slist_push_after h (some dst) (some src)
        = some (sset_next (sset_next h src (h dst).next) dst (some src), some src) ∧
      schain (sset_next (sset_next h src (h dst).next) dst (some src)) dst (src :: L) := by
  have hd := schain_not_mem hc
  refine ⟨by simp [slist_push_after, srd_next, swr_next], ?_⟩
  refine ⟨by simp, ?_⟩
  cases L with
  | nil =>
    simp only [schain] at hc ⊢
    simp [hsd, hc]
  | cons x xs =>
    simp only [schain] at hc ⊢
    refine ⟨by simp [hsd, hc.1], schain_frame h _ xs x hc.2 ?_⟩
    intro u hu
    have h1 : u ≠ dst := by rintro rfl; exact hd hu
    have h2 : u ≠ src := by rintro rfl; exact hs hu
    simp [h1, h2]

theorem slist_pop_after_chain (h : SHeap) (dst x : Nat) (rest : List Nat)
    (hc : schain h dst (x :: rest)) :
    slist_pop_after h (some dst) = some (sset_next h dst (h x).next, some x) ∧
      schain (sset_next h dst (h x).next) dst rest := by
  have hd := schain_not_mem hc
  simp only [schain] at hc
  refine ⟨by simp [slist_pop_after, srd_next, swr_next, hc.1], ?_⟩
  cases rest with
  | nil =>
    have := hc.2
    simp only [schain] at this ⊢
    simp [this]
  | cons y ys =>
    have := hc.2
    simp only [schain] at this ⊢
    refine ⟨by simp [this.1], schain_frame h _ ys y this.2 ?_⟩
    intro u hu
    have h1 : u ≠ dst := by rintro rfl; exact hd (List.mem_cons_of_mem _ hu)
    simp [h1]

theorem slist_pop_after_empty (h : SHeap) (dst : Nat) (hc : schain h dst []) :
    slist_pop_after h (some dst) = some (h, none) := by
  simp only [schain] at hc
  simp [slist_pop_after, hc]

/-- C12 (`slist_init`, `slist_pop_after`, `slist_push_after`, `slist_push_front`): for
present nodes `dst` and `src` with `src` neither `dst` nor in the chain `L` of `dst`,
`slist_push_after` (and `slist_push_front`) returns `src` and the chain of `dst`
becomes `src` followed by `L`; `slist_pop_after` directly afterwards returns `src` and
restores `dst->next` and the chain; on a non-empty chain `x` followed by `rest`,
`slist_pop_after` returns `x` and leaves the chain `rest`; on an empty chain it returns
`NULL` and changes nothing; a node after `slist_init` has an empty chain. -/
theorem slist_chain_is_stack (h : SHeap) (dst src : Nat) (L : List Nat)
    (hc : schain h dst L) (hs : src ∉ L) (hsd : src ≠ dst) :
    (∃ h1, slist_push_after h (some dst) (some src) = some (h1, some src) ∧
      slist_push_front h (some dst) (some src) = some (h1, some src) ∧
      schain h1 dst (src :: L) ∧
      ∃ h2, slist_pop_after h1 (some dst) = some (h2, some src) ∧ schain h2 dst L ∧
        (h2 dst).next = (h dst).next) ∧
    (∀ x rest, L = x :: rest →
      ∃ h3, slist_pop_after h (some dst) = some (h3, some x) ∧ schain h3 dst rest) ∧
    (L = [] → slist_pop_after h (some dst) = some (h, none)) ∧
    (∀ (h0 : SHeap) (c : Option Nat),
      ∃ h4, slist_init h0 (some dst) c = some (h4, some dst) ∧ schain h4 dst []) := by
  obtain ⟨e1, c1⟩ := slist_push_after_chain h dst src L hc hs hsd
  obtain ⟨e2, c2⟩ := slist_pop_after_chain _ dst src L c1
  refine ⟨⟨_, e1, e1, c1, _, e2, c2, ?_⟩, ?_, ?_, ?_⟩
  · simp [hsd]
  · rintro x rest rfl
    obtain ⟨e3, c3⟩ := slist_pop_after_chain h dst x rest hc
    exact ⟨_, e3, c3⟩
  · rintro rfl
    exact slist_pop_after_empty h dst hc
  · intro h0 c
    refine ⟨sset_cont (sset_next h0 dst none) dst c, by simp [slist_init, swr_next, swr_cont], ?_⟩
    simp [schain]

theorem slist_chain_is_stack_witness :
    (schain exSHeap 0 [1, 2] ∧ 5 ∉ [1, 2] ∧ 5 ≠ 0) ∧
    (∃ h1, slist_push_after exSHeap (some 0) (some 5) = some (h1, some 5) ∧
      slist_push_front exSHeap (some 0) (some 5) = some (h1, some 5) ∧
      schain h1 0 [5, 1, 2] ∧
      ∃ h2, slist_pop_after h1 (some 0) = some (h2, some 5) ∧ schain h2 0 [1, 2] ∧
        (h2 0).next = some 1) ∧
    (∃ h3, slist_pop_after exSHeap (some 0) = some (h3, some 1) ∧ schain h3 0 [2]) :=
  have w := slist_chain_is_stack exSHeap 0 5 [1, 2] (by decide) (by decide) (by decide)
  ⟨by decide, w.1, w.2.1 1 [2] rfl⟩

/-- C13 (`slist_length`): the function returns 0 for a head whose chain has one node
(and for every other list): it does not count the nodes of the chain. -/
theorem slist_length_returns_zero :
    schain exSHeap 1 [2] ∧ slist_length exSHeap (some 1) = 0 ∧
    schain exSHeap 0 [1, 2] ∧ slist_length exSHeap (some 0) = 0 ∧
    ∀ (h : SHeap) (self : Ptr), slist_length h self = 0 :=
  ⟨by decide, rfl, by decide, rfl, fun _ _ => rfl⟩

/-! ## Return values and absent arguments -/

/-- C14 (`dlist_splice_after`, `dlist_splice_before`): both functions return
`dst->next` of the memory they leave.  With `dst` the node 2 (followed by 3) and the
source list 5, 6, `dlist_splice_after` returns 5, the first inserted node, but
`dlist_splice_before` returns 3 and not the last inserted node 6; with an empty source
both return 3 and not `dst`. -/
theorem dlist_splice_return_values :
    Ring exHeapTwo 10 [1, 2, 3] ∧ Ring exHeapTwo 20 [5, 6] ∧
    (dlist_splice_after exHeapTwo (some 2) (some 20)).map (fun r => r.2) = some (some 5) ∧
    (dlist_splice_before exHeapTwo (some 2) (some 20)).map (fun r => r.2) = some (some 3) ∧
    (dlist_splice_before exHeapTwo (some 2) (some 20)).map (fun r => (r.1 2).prev)
      = some (some 6) ∧
    Ring exHeapEmptySrc 10 [1, 2, 3] ∧ Ring exHeapEmptySrc 20 [] ∧
    (dlist_splice_after exHeapEmptySrc (some 2) (some 20)).map (fun r => r.2)
      = some (some 3) ∧
    (dlist_splice_before exHeapEmptySrc (some 2) (some 20)).map (fun r => r.2)
      = some (some 3) := by
  decide

theorem foreach_reverse_loop_eq {σ : Type} (body : σ → Ptr → σ) (h : DHeap) (list : Ptr) :
    ∀ (fuel : Nat) (iter : Ptr) (st : σ),
      dlist_foreach_reverse_loop body fuel h list iter st
        = dlist_foreach_loop body fuel h list iter st
  | 0, _, _ => rfl
  | fuel + 1, iter, st => by
    simp only [dlist_foreach_reverse_loop, dlist_foreach_loop]
    split
    · rfl
    · cases hn : rd_next h iter with
      | none => rfl
      | some nx => simp [foreach_reverse_loop_eq body h list fuel]

/-- C15 (`dlist_foreach_reverse`): the macro binds its iterator in the order of
`dlist_foreach`, not in reverse: on the list 1, 2, 3 it visits 1, 2, 3, and for every
list, body and state it computes what `dlist_foreach` computes. -/
theorem dlist_foreach_reverse_is_forward :
    Ring exHeapABC 10 [1, 2, 3] ∧
    dlist_foreach_reverse (fun acc it => acc ++ [it]) 8 exHeapABC (some 10) []
      = some [some 1, some 2, some 3] ∧
    dlist_foreach (fun acc it => acc ++ [it]) 8 exHeapABC (some 10) []
      = some [some 1, some 2, some 3] ∧
    ∀ (σ : Type) (body : σ → Ptr → σ) (fuel : Nat) (h : DHeap) (list : Ptr) (st : σ),
      dlist_foreach_reverse body fuel h list st = dlist_foreach body fuel h list st := by
  refine ⟨by decide, by decide, by decide, ?_⟩
  intro σ body fuel h list st
  simp only [dlist_foreach_reverse, dlist_foreach]
  cases rd_next h list with
  | none => rfl
  | some it => simp [foreach_reverse_loop_eq]

/-- C16 (`dlist_pop`, `dlist_push_after`, `dlist_push_before`, `slist_pop_after`,
`slist_push_after`, `dlist_splice_after`, `dlist_splice_before`): the pop and push
functions return `NULL` and write nothing when a node argument is `NULL`; both splice
functions dereference `dst` in `return dst->next` when `dst` is `NULL`, which is
undefined, and with only `src` `NULL` they return `dst->next` and not `NULL`. -/
theorem dlist_null_arguments (h : DHeap) (sh : SHeap) (p : Ptr) (d : Nat) :
    dlist_pop h none = some (h, none) ∧
    dlist_push_after h none p = some (h, none) ∧
    dlist_push_after h p none = some (h, none) ∧
    dlist_push_before h none p = some (h, none) ∧
    dlist_push_before h p none = some (h, none) ∧
    slist_pop_after sh none = some (sh, none) ∧
    slist_push_after sh none p = some (sh, none) ∧
    slist_push_after sh p none = some (sh, none) ∧
    dlist_splice_after h none p = none ∧
    dlist_splice_before h none p = none ∧
    dlist_splice_after h (some d) none = some (h, (h d).next) ∧
    dlist_splice_before h (some d) none = some (h, (h d).next) := by
  refine ⟨rfl, ?_, ?_, ?_, ?_, rfl, ?_, ?_, ?_, ?_, ?_, ?_⟩
  · cases p <;> rfl
  · cases p <;> rfl
  · cases p <;> rfl
  · cases p <;> rfl
  · cases p <;> rfl
  · cases p <;> rfl
  · cases p <;> rfl
  · cases p <;> rfl
  · rfl
  · rfl

/-! ## Splice of a list into itself and removal of the sentinel -/

theorem splice_after_self_fields (h : DHeap) (H f l : Nat) (hf : (h H).next = some f)
    (hl : (h H).prev = some l) (hfH : f ≠ H) (hlH : l ≠ H) :
    ∃ h1, dlist_splice_after h (some H) (some H) = some (h1, some H) ∧
      ∀ a, (h1 a).next = (if a = H then some H else if a = l then some f else (h a).next) ∧
        (h1 a).prev = (if a = H then some H else if a = f then some H else (h a).prev) ∧
        (h1 a).cont = (h a).cont := by
  have he : dlist_splice_after h (some H) (some H)
      = some (set_next (set_prev (set_next (set_prev (set_next (set_prev h f (some l))
          l (some f)) f (some H)) H (some f)) H (some H)) H (some H), some H) := by
    simp [dlist_splice_after, hf, hl, hfH, hlH, Ne.symm hfH, Ne.symm hlH]
  refine ⟨_, he, fun a => ?_⟩
  simp only [set_next_next, set_prev_next, set_next_prev, set_prev_prev, set_next_cont,
    set_prev_cont, and_true]
  constructor <;> split_ifs <;> simp_all

theorem splice_before_self_fields (h : DHeap) (H f l : Nat) (hf : (h H).next = some f)
    (hl : (h H).prev = some l) (hfH : f ≠ H) (hlH : l ≠ H) :
    ∃ h1, dlist_splice_before h (some H) (some H) = some (h1, some H) ∧
      ∀ a, (h1 a).next = (if a = H then some H else if a = l then some H else (h a).next) ∧
        (h1 a).prev = (if a = H then some H else if a = f then some l else (h a).prev) ∧
        (h1 a).cont = (h a).cont := by
  have he : dlist_splice_before h (some H) (some H)
      = some (set_next (set_prev (set_prev (set_next (set_prev (set_next h l (some f))
          f (some l)) l (some H)) H (some l)) H (some H)) H (some H), some H) := by
    simp [dlist_splice_before, hf, hl, hfH, hlH, Ne.symm hfH, Ne.symm hlH]
  refine ⟨_, he, fun a => ?_⟩
  simp only [set_next_next, set_prev_next, set_next_prev, set_prev_prev, set_next_cont,
    set_prev_cont, and_true]
  constructor <;> split_ifs <;> simp_all

theorem ring_ends {h : DHeap} {H : Nat} {L : List Nat} (hr : Ring h H L) (hL : L ≠ []) :
    link h H (L.head hL) ∧ link h (L.getLast hL) H ∧ L.head hL ≠ H ∧ L.getLast hL ≠ H := by
  have hp := ring_path hr
  have h1 := hp
  have e1 : H :: L ++ [H] = [H] ++ (L ++ [H]) := by simp
  rw [e1, chain_join _ _ _ (by simp) (by simp)] at h1
  rw [chain_join _ _ _ (by simp) (by simp)] at hp
  have hnx := h1.2.2
  have hpv := hp.2.2
  simp only [List.getLast_singleton, List.head_cons, List.head_append_of_ne_nil hL,
    List.getLast_cons hL] at hnx hpv
  refine ⟨hnx, hpv, ?_, ?_⟩
  · intro e; exact hr.1 (e ▸ List.head_mem hL)
  · intro e; exact hr.1 (e ▸ List.getLast_mem hL)

theorem ring_of_self {h : DHeap} {H : Nat} (hn : (h H).next = some H)
    (hp : (h H).prev = some H) : Ring h H [] :=
  ⟨by simp, by simp [linked, link, hn, hp]⟩

/-- C17, as amended (`dlist_splice_after`, `dlist_splice_before`): on a well-formed
circular list with sentinel `H`, a splice of the list into itself changes nothing when
the list is empty; when it is not empty, it leaves `H` an empty singleton ring from
which no former element is reached, and after `dlist_splice_after` the first element
has `prev == H` and the last has `next ==` the first, after `dlist_splice_before` the
last element has `next == H` and the first has `prev ==` the last, so that the first
(the last) element does not satisfy `prev->next == self` (`next->prev == self`). -/
theorem dlist_self_splice (h : DHeap) (H : Nat) (L : List Nat) (fuel : Nat)
    (hr : Ring h H L) (hfuel : 0 < fuel) :
    (L = [] → dlist_splice_after h (some H) (some H) = some (h, some H) ∧
      dlist_splice_before h (some H) (some H) = some (h, some H)) ∧
    (∀ hL : L ≠ [],
      (∃ h1, dlist_splice_after h (some H) (some H) = some (h1, some H) ∧
        Ring h1 H [] ∧ dlist_traversal fuel h1 (some H) = some [] ∧
        (h1 (L.head hL)).prev = some H ∧ (h1 (L.getLast hL)).next = some (L.head hL) ∧
        ¬ node_ok h1 (L.head hL)) ∧
      (∃ h2, dlist_splice_before h (some H) (some H) = some (h2, some H) ∧
        Ring h2 H [] ∧ dlist_traversal fuel h2 (some H) = some [] ∧
        (h2 (L.getLast hL)).next = some H ∧ (h2 (L.head hL)).prev = some (L.getLast hL) ∧
        ¬ node_ok h2 (L.getLast hL))) := by
  constructor
  · rintro rfl
    have hSS := ring_empty_self hr
    have e1 := splice_after_empty h H H hSS.1
    have e2 := splice_before_empty h H H hSS.1
    rw [hSS.1] at e1 e2
    exact ⟨e1, e2⟩
  · intro hL
    obtain ⟨hHf, hlH, hfH, hlH1⟩ := ring_ends hr hL
    obtain ⟨h1, e1, f1⟩ := splice_after_self_fields h H _ _ hHf.1 hlH.2 hfH hlH1
    obtain ⟨h2, e2, f2⟩ := splice_before_self_fields h H _ _ hHf.1 hlH.2 hfH hlH1
    have r1 : Ring h1 H [] := ring_of_self (by simp [f1]) (by simp [f1])
    have r2 : Ring h2 H [] := ring_of_self (by simp [f2]) (by simp [f2])
    refine ⟨⟨h1, e1, r1, by simpa using traversal_ring r1 fuel (by simpa using hfuel),
        by simp [f1, hfH], by simp [f1, hlH1], ?_⟩,
      ⟨h2, e2, r2, by simpa using traversal_ring r2 fuel (by simpa using hfuel),
        by simp [f2, hlH1], by simp [f2, hfH], ?_⟩⟩
    · intro hok
      have := hok.2
      simp [f1, hfH, Ne.symm hfH] at this
    · intro hok
      have := hok.1
      simp [f2, hlH1, Ne.symm hlH1] at this

theorem dlist_self_splice_witness :
    (Ring exHeapABC 10 [1, 2, 3] ∧ 0 < 8) ∧
    (∃ h1, dlist_splice_after exHeapABC (some 10) (some 10) = some (h1, some 10) ∧
      Ring h1 10 [] ∧ dlist_traversal 8 h1 (some 10) = some [] ∧
      (h1 1).prev = some 10 ∧ (h1 3).next = some 1 ∧ ¬ node_ok h1 1) ∧
    (∃ h2, dlist_splice_before exHeapABC (some 10) (some 10) = some (h2, some 10) ∧
      Ring h2 10 [] ∧ dlist_traversal 8 h2 (some 10) = some [] ∧
      (h2 3).next = some 10 ∧ (h2 1).prev = some 3 ∧ ¬ node_ok h2 3) :=
  ⟨by decide, (dlist_self_splice exHeapABC 10 [1, 2, 3] 8 (by decide) (by decide)).2
    (by decide)⟩

theorem dlist_self_splice_counterexample :
    Ring exHeapABC 10 [1, 2, 3] ∧
    ¬ (∃ h1 r, dlist_splice_after exHeapABC (some 10) (some 10) = some (h1, r) ∧
        ∀ n ∈ [10, 1, 2, 3], node_ok h1 n) ∧
    ¬ (∃ h2 r, dlist_splice_before exHeapABC (some 10) (some 10) = some (h2, r) ∧
        ∀ n ∈ [10, 1, 2, 3], node_ok h2 n) ∧
    (dlist_splice_after exHeapABC (some 10) (some 10)).bind
      (fun r => dlist_traversal 8 r.1 (some 10)) = some [] ∧
    (dlist_splice_before exHeapABC (some 10) (some 10)).bind
      (fun r => dlist_traversal 8 r.1 (some 10)) = some [] := by
  refine ⟨by decide, ?_, ?_, by decide, by decide⟩
  · rintro ⟨h1, r, he, hok⟩
    have hk : (dlist_splice_after exHeapABC (some 10) (some 10)).map
        (fun q => decide (node_ok q.1 1)) = some false := by decide
    rw [he] at hk
    simp only [Option.map_some', Option.some.injEq, decide_eq_false_iff_not] at hk
    exact hk (hok 1 (by decide))
  · rintro ⟨h2, r, he, hok⟩
    have hk : (dlist_splice_before exHeapABC (some 10) (some 10)).map
        (fun q => decide (node_ok q.1 3)) = some false := by decide
    rw [he] at hk
    simp only [Option.map_some', Option.some.injEq, decide_eq_false_iff_not] at hk
    exact hk (hok 3 (by decide))

/-- C18 (`dlist_pop`): applied to the sentinel 10 of the list 1, 2, 3, `dlist_pop`
returns the sentinel but writes the list: the `next` of the last element 3 changes
from 10 to 1 and the `prev` of the first element 1 from 10 to 3, and a traversal from
the sentinel no longer comes back to it; only on a sentinel that is its own ring does
the call change nothing. -/
theorem dlist_pop_head_unlinks :
    Ring exHeapABC 10 [1, 2, 3] ∧
    (dlist_pop exHeapABC (some 10)).map (fun r => r.2) = some (some 10) ∧
    (exHeapABC 3).next = some 10 ∧
    (dlist_pop exHeapABC (some 10)).map (fun r => (r.1 3).next) = some (some 1) ∧
    (exHeapABC 1).prev = some 10 ∧
    (dlist_pop exHeapABC (some 10)).map (fun r => (r.1 1).prev) = some (some 3) ∧
    dlist_length 64 exHeapABC (some 10) = some 3 ∧
    (dlist_pop exHeapABC (some 10)).bind (fun r => dlist_length 64 r.1 (some 10)) = none ∧
    Ring exHeapEmptySrc 20 [] ∧
    (dlist_pop exHeapEmptySrc (some 20)).map (fun r => (r.2, r.1 20, r.1 10, r.1 1, r.1 3))
      = some (some 20, exHeapEmptySrc 20, exHeapEmptySrc 10, exHeapEmptySrc 1,
          exHeapEmptySrc 3) := by
  decide

/-! ## Draining a list -/

theorem pop_self (h : DHeap) (H : Nat) (hn : (h H).next = some H)
    (hp : (h H).prev = some H) : dlist_pop h (some H) = some (h, some H) := by
  have e : set_prev (set_next h H (some H)) H (some H) = h := by
    funext a
    by_cases ea : a = H
    · subst ea
      exact dlist_eq (by simp [hn]) (by simp [hp]) (by simp)
    · exact dlist_eq (by simp [ea]) (by simp [ea]) (by simp)
  simp [dlist_pop, hn, hp, e]

theorem ring_frame {h h1 : DHeap} {H : Nat} {L : List Nat} (hr : Ring h H L)
    (hf : ∀ a ∈ H :: L, (h1 a).next = (h a).next ∧ (h1 a).prev = (h a).prev) :
    Ring h1 H L := by
  refine ⟨hr.1, (linked_iff_chain h1 _).2 (path_frame h h1 _ (ring_path hr) ?_ ?_)⟩
  · intro u hu
    have : u ∈ H :: L := by
      have := List.mem_of_mem_dropLast hu
      simp at this ⊢
      tauto
    exact (hf u this).1
  · intro v hv
    have : v ∈ H :: L := by
      simp at hv ⊢
      tauto
    exact (hf v this).2

theorem body_keeps_ring_cons {σ : Type} {body : DHeap → σ → Ptr → DHeap × σ} {H e : Nat}
    {es : List Nat} {h h1 : DHeap} {st : σ} (hp : dlist_pop h (some e) = some (h1, some e))
    (hk : body_keeps_ring body H (e :: es) h st) :
    (∀ a ∈ H :: es, ((body h1 st (some e)).1 a).next = (h1 a).next ∧
      ((body h1 st (some e)).1 a).prev = (h1 a).prev) ∧
    body_keeps_ring body H es (body h1 st (some e)).1 (body h1 st (some e)).2 := by
  simpa [body_keeps_ring, hp] using hk

theorem popeach_ring {σ : Type} (body : DHeap → σ → Ptr → DHeap × σ) (H : Nat) :
    ∀ (L : List Nat) (h : DHeap) (st : σ) (acc : List Ptr) (fuel : Nat), Ring h H L →
      L.length < fuel → body_keeps_ring body H L h st →
      ∃ h1 st1, dlist_popeach body fuel h (some H) st = some (h1, st1) ∧
        dlist_popeach (with_log body) fuel h (some H) (st, acc)
          = some (h1, (st1, acc ++ L.map some)) ∧ Ring h1 H []
  | [], h, st, acc, fuel, hr, hf, _ => by
    obtain ⟨k, rfl⟩ : ∃ k, fuel = k + 1 := ⟨fuel - 1, by simp at hf; omega⟩
    have hs := ring_empty_self hr
    refine ⟨h, st, ?_, ?_, hr⟩
    · simp [dlist_popeach, rd_next, hs.1, pop_self h H hs.1 hs.2]
    · simp [dlist_popeach, rd_next, hs.1, pop_self h H hs.1 hs.2]
  | e :: L1, h, st, acc, fuel, hr, hf, hk => by
    obtain ⟨k, rfl⟩ : ∃ k, fuel = k + 1 := ⟨fuel - 1, by simp at hf; omega⟩
    have hHe : link h H e := (ring_ends hr (by simp)).1
    have heH : e ≠ H := fun e1 => hr.1 (by simp [e1])
    obtain ⟨h1, hpop, hr1, _⟩ := ring_pop hr (List.mem_cons_self e L1)
    rw [List.erase_cons_head] at hr1
    obtain ⟨hfr, hk1⟩ := body_keeps_ring_cons hpop hk
    obtain ⟨h2, st2, hl, hlog, hr2⟩ := popeach_ring body H L1 (body h1 st (some e)).1
      (body h1 st (some e)).2 (acc ++ [some e]) k (ring_frame hr1 hfr)
      (by simp at hf; omega) hk1
    refine ⟨h2, st2, ?_, ?_, hr2⟩
    · simp [dlist_popeach, rd_next, hHe.1, hpop, heH, hl]
    · simp [dlist_popeach, rd_next, hHe.1, hpop, heH, with_log, hlog]

theorem popeach_reverse_ring {σ : Type} (body : DHeap → σ → Ptr → DHeap × σ) (H : Nat) :
    ∀ (n : Nat) (L : List Nat) (h : DHeap) (st : σ) (acc : List Ptr) (fuel : Nat),
      L.length = n → Ring h H L → L.length < fuel →
      body_keeps_ring body H L.reverse h st →
      ∃ h1 st1, dlist_popeach_reverse body fuel h (some H) st = some (h1, st1) ∧
        dlist_popeach_reverse (with_log body) fuel h (some H) (st, acc)
          = some (h1, (st1, acc ++ L.reverse.map some)) ∧ Ring h1 H []
  | 0, L, h, st, acc, fuel, hn, hr, hf, _ => by
    obtain rfl : L = [] := List.length_eq_zero.1 hn
    obtain ⟨k, rfl⟩ : ∃ k, fuel = k + 1 := ⟨fuel - 1, by simp at hf; omega⟩
    have hs := ring_empty_self hr
    refine ⟨h, st, ?_, ?_, hr⟩
    · simp [dlist_popeach_reverse, rd_prev, hs.2, pop_self h H hs.1 hs.2]
    · simp [dlist_popeach_reverse, rd_prev, hs.2, pop_self h H hs.1 hs.2]
  | n + 1, L, h, st, acc, fuel, hn, hr, hf, hk => by
    obtain ⟨k, rfl⟩ : ∃ k, fuel = k + 1 := ⟨fuel - 1, by omega⟩
    rcases list_nil_or_snoc L with rfl | ⟨L0, e, rfl⟩
    · simp at hn
    · have hne : L0 ++ [e] ≠ [] := by simp
      have heH : link h e H := by
        have := (ring_ends hr hne).2.1
        simpa using this
      have heH1 : e ≠ H := fun e1 => hr.1 (by simp [e1])
      have hnd := ring_nodup hr
      have heL0 : e ∉ L0 := by
        simp [List.nodup_append] at hnd
        tauto
      obtain ⟨h1, hpop, hr1, _⟩ := ring_pop hr (by simp : e ∈ L0 ++ [e])
      rw [List.erase_append_right _ heL0] at hr1
      simp only [List.erase_cons_head, List.append_nil] at hr1
      rw [List.reverse_append, List.reverse_singleton, List.singleton_append] at hk
      obtain ⟨hfr, hk1⟩ := body_keeps_ring_cons hpop hk
      have hfr1 : ∀ a ∈ H :: L0, ((body h1 st (some e)).1 a).next = (h1 a).next ∧
          ((body h1 st (some e)).1 a).prev = (h1 a).prev := by
        intro a ha
        exact hfr a (by simpa using ha)
      obtain ⟨h2, st2, hl, hlog, hr2⟩ := popeach_reverse_ring body H n L0
        (body h1 st (some e)).1 (body h1 st (some e)).2 (acc ++ [some e]) k
        (by simp at hn; omega) (ring_frame hr1 hfr1) (by simp at hf; omega) hk1
      refine ⟨h2, st2, ?_, ?_, hr2⟩
      · simp [dlist_popeach_reverse, rd_prev, heH.2, hpop, heH1, hl]
      · simp [dlist_popeach_reverse, rd_prev, heH.2, hpop, heH1, with_log, hlog]

/-- A body that, on every memory in which `H` heads a well-formed list and for every
iterator outside that list, leaves the links of the nodes of the list as they were,
keeps the ring of `H` in every run, whatever the order `es` in which the elements are
popped. -/
theorem body_keeps_ring_of_frame {σ : Type} (body : DHeap → σ → Ptr → DHeap × σ) (H : Nat)
    (hb : ∀ (hh : DHeap) (s : σ) (e : Nat) (R : List Nat), Ring hh H R → e ∉ H :: R →
      ∀ a ∈ H :: R, ((body hh s (some e)).1 a).next = (hh a).next ∧
        ((body hh s (some e)).1 a).prev = (hh a).prev) :
    ∀ (es L : List Nat) (h : DHeap) (st : σ), es.Perm L → Ring h H L →
      body_keeps_ring body H es h st
  | [], _, _, _, _, _ => trivial
  | e :: es, L, h, st, hperm, hr => by
    have he : e ∈ L := hperm.subset (List.mem_cons_self e es)
    have hnd := ring_nodup hr
    obtain ⟨h1, hpop, hr1, _⟩ := ring_pop hr he
    have hp1 : es.Perm (L.erase e) :=
      List.Perm.cons_inv (hperm.trans (List.perm_cons_erase he))
    have heR : e ∉ H :: L.erase e := by
      intro hm
      rcases List.mem_cons.1 hm with e1 | e1
      · exact hr.1 (e1 ▸ he)
      · exact ((List.nodup_cons.1 hnd).2.mem_erase_iff.1 e1).1 rfl
    have hfr := hb h1 st e (L.erase e) hr1 heR
    rw [body_keeps_ring, hpop]
    refine ⟨fun a ha => hfr a ?_, body_keeps_ring_of_frame body H hb es (L.erase e) _ _ hp1
      (ring_frame hr1 hfr)⟩
    rcases List.mem_cons.1 ha with e1 | e1
    · exact List.mem_cons.2 (Or.inl e1)
    · exact List.mem_cons.2 (Or.inr (hp1.subset e1))

/-- C19 (`dlist_popeach`, `dlist_popeach_reverse`, `dlist_pop`): on a well-formed circular
list with sentinel `H` and forward traversal `e1, ..., en`, a `dlist_popeach` loop whose
body does not modify the ring of `H` (the body may write every other node, the popped
one included) runs the body exactly `n` times, with the iterator bound to `e1, ..., en`
in this order, as the record kept by `with_log` shows; then it stops (the last
`dlist_pop` is applied to `H` itself and returns `H`) and leaves `H` an empty list with
`H->next == H->prev == H`; `dlist_popeach_reverse` does the same with the iterator
bound to `en, ..., e1`. -/
theorem dlist_popeach_drains {σ : Type} (body : DHeap → σ → Ptr → DHeap × σ) (h : DHeap)
    (H : Nat) (L : List Nat) (fuel : Nat) (st : σ) (hr : Ring h H L)
    (hf : L.length < fuel) :
    (body_keeps_ring body H L h st →
      ∃ h1 st1, dlist_popeach body fuel h (some H) st = some (h1, st1) ∧
        dlist_popeach (with_log body) fuel h (some H) (st, [])
          = some (h1, (st1, L.map some)) ∧
        (h1 H).next = some H ∧ (h1 H).prev = some H ∧
        dlist_pop h1 (some H) = some (h1, some H)) ∧
    (body_keeps_ring body H L.reverse h st →
      ∃ h2 st2, dlist_popeach_reverse body fuel h (some H) st = some (h2, st2) ∧
        dlist_popeach_reverse (with_log body) fuel h (some H) (st, [])
          = some (h2, (st2, L.reverse.map some)) ∧
        (h2 H).next = some H ∧ (h2 H).prev = some H ∧
        dlist_pop h2 (some H) = some (h2, some H)) := by
  refine ⟨fun hk => ?_, fun hk => ?_⟩
  · obtain ⟨h1, st1, e1, l1, r1⟩ := popeach_ring body H L h st [] fuel hr hf hk
    have s1 := ring_empty_self r1
    exact ⟨h1, st1, e1, by simpa using l1, s1.1, s1.2, pop_self h1 H s1.1 s1.2⟩
  · obtain ⟨h2, st2, e2, l2, r2⟩ :=
      popeach_reverse_ring body H L.length L h st [] fuel rfl hr hf hk
    have s2 := ring_empty_self r2
    exact ⟨h2, st2, e2, by simpa using l2, s2.1, s2.2, pop_self h2 H s2.1 s2.2⟩

theorem dlist_popeach_drains_witness :
    (Ring exHeapTwo 10 [1, 2, 3] ∧ [1, 2, 3].length < 8 ∧
      body_keeps_ring exBodyMove 10 [1, 2, 3] exHeapTwo [] ∧
      body_keeps_ring exBodyMove 10 [3, 2, 1] exHeapTwo [] ∧
      (dlist_popeach exBodyMove 8 exHeapTwo (some 10) []).map
          (fun r => (r.2, dlist_traversal 8 r.1 (some 10), dlist_traversal 8 r.1 (some 20)))
        = some ([some 1, some 2, some 3], some [],
            some [some 5, some 6, some 1, some 2, some 3]) ∧
      (dlist_popeach_reverse exBodyMove 8 exHeapTwo (some 10) []).map
          (fun r => (r.2, dlist_traversal 8 r.1 (some 10), dlist_traversal 8 r.1 (some 20)))
        = some ([some 3, some 2, some 1], some [],
            some [some 5, some 6, some 3, some 2, some 1]) ∧
      Ring exHeapABC 10 [1, 2, 3] ∧ body_keeps_ring exBodyInit 10 [1, 2, 3] exHeapABC 0 ∧
      (dlist_popeach exBodyInit 8 exHeapABC (some 10) 0).map
          (fun r => (r.2, dlist_traversal 8 r.1 (some 10), (r.1 2).next, (r.1 2).prev))
        = some (3, some [], some 2, some 2)) ∧
    (∃ h0 n, dlist_popeach exBodyInit 8 exHeapABC (some 10) 0 = some (h0, n) ∧
      dlist_popeach (with_log exBodyInit) 8 exHeapABC (some 10) (0, [])
        = some (h0, (n, [some 1, some 2, some 3])) ∧
      (h0 10).next = some 10 ∧ (h0 10).prev = some 10 ∧
      dlist_pop h0 (some 10) = some (h0, some 10)) ∧
    (∃ h1 st1, dlist_popeach exBodyMove 8 exHeapTwo (some 10) [] = some (h1, st1) ∧
      dlist_popeach (with_log exBodyMove) 8 exHeapTwo (some 10) ([], [])
        = some (h1, (st1, [some 1, some 2, some 3])) ∧
      (h1 10).next = some 10 ∧ (h1 10).prev = some 10 ∧
      dlist_pop h1 (some 10) = some (h1, some 10)) ∧
    (∃ h2 st2, dlist_popeach_reverse exBodyMove 8 exHeapTwo (some 10) [] = some (h2, st2) ∧
      dlist_popeach_reverse (with_log exBodyMove) 8 exHeapTwo (some 10) ([], [])
        = some (h2, (st2, [some 3, some 2, some 1])) ∧
      (h2 10).next = some 10 ∧ (h2 10).prev = some 10 ∧
      dlist_pop h2 (some 10) = some (h2, some 10)) :=
  have w := dlist_popeach_drains exBodyMove exHeapTwo 10 [1, 2, 3] 8 [] (by decide)
    (by decide)
  ⟨⟨by decide, by decide, by decide, by decide, by decide, by decide, by decide, by decide,
      by decide⟩,
    (dlist_popeach_drains exBodyInit exHeapABC 10 [1, 2, 3] 8 0 (by decide) (by decide)).1
      (by decide),
    w.1 (by decide), w.2 (by decide)⟩

/-! ## Ring buffer of capacity zero -/

theorem fifo_zero_size : fifo_size (fifo (buf [])) = 0 := by decide

theorem fifo_zero_push (data : Buf) :
    fifo_push (fifo (buf [])) data = some (fifo (buf []), 0) := by
  simp [fifo_push, fifo, buf, Buf.size]

theorem fifo_zero_peek (dst : Buf) : fifo_peek (fifo (buf [])) dst = some (dst, 0) := by
  by_cases hn : dst.size = 0
  · have hm : dst.mem = [] := List.length_eq_zero.1 hn
    have e : fifo_peek (fifo (buf [])) { mem := [] } = some ({ mem := [] }, 0) := by decide
    cases dst with
    | mk mem =>
      simp only at hm
      subst hm
      exact e
  · have hlt : fifo_size (fifo (buf [])) < dst.size := by
      rw [fifo_zero_size]; omega
    exact fifo_peek_fail _ dst hlt

theorem fifo_zero_pop (dst : Buf) :
    fifo_pop (fifo (buf [])) dst = some (fifo (buf []), dst, 0) := by
  simp [fifo_pop, fifo_zero_peek]

theorem fifo_push_mod_defined (g : Fifo) (data : Buf)
    (h : ¬ sz_add (fifo_size g) data.size ≥ g.buf.size) :
    sz_mod (sz_add g.head data.size) g.buf.size ≠ none := by
  have hc : g.buf.size ≠ 0 := by omega
  simp [sz_mod, hc]

theorem memcpy_nil_src (d : List Nat) (o so n : Nat) (r : List Nat)
    (h : memcpy d o [] so n = some r) : n = 0 := by
  unfold memcpy at h
  split at h
  · rename_i hc
    simp only [List.length_nil, Nat.le_zero_eq, Nat.add_eq_zero_iff] at hc
    exact hc.2.2
  · simp at h

theorem fifo_peek_zero_cap (g : Fifo) (dst : Buf) (hn : dst.size < SIZE_MOD)
    (hc : g.buf.size = 0) (r : Buf × Nat) (hr : fifo_peek g dst = some r) : r.2 = 0 := by
  have hm : g.buf.mem = [] := List.length_eq_zero.1 hc
  by_cases hlt : fifo_size g < dst.size
  · rw [fifo_peek_fail g dst hlt] at hr
    simp only [Option.some.injEq] at hr
    rw [← hr]
  · simp only [fifo_peek, hlt, if_false, hc, ge_iff_le, Nat.zero_le, if_true, hm,
      Option.map_eq_some', Option.bind_eq_some] at hr
    obtain ⟨m2, ⟨m1, hm1, hm2⟩, rfl⟩ := hr
    have k1 := memcpy_nil_src _ _ _ _ _ hm1
    have k2 := memcpy_nil_src _ _ _ _ _ hm2
    rw [k1] at k2
    show dst.size = 0
    simp only [sz_sub, SIZE_MOD] at k2 hn
    omega

/-- C20 (`fifo`, `fifo_size`, `fifo_push`, `fifo_peek`, `fifo_pop`): on the ring buffer
created by `fifo` over a view of capacity 0, `fifo_size` is 0 and `fifo_push`,
`fifo_peek` and `fifo_pop` return 0 for every argument and leave `head` and `tail` at
0, without evaluating `%`; and for every ring buffer, a call of `fifo_push` that passes
its capacity check, or of `fifo_pop` whose `fifo_peek` returned a positive length,
evaluates `% capacity` with a non-zero capacity. -/
theorem fifo_zero_capacity (g : Fifo) (data dst : Buf) (hn : dst.size < SIZE_MOD) :
    fifo_size (fifo (buf [])) = 0 ∧
    fifo_push (fifo (buf [])) data = some (fifo (buf []), 0) ∧
    fifo_peek (fifo (buf [])) dst = some (dst, 0) ∧
    fifo_pop (fifo (buf [])) dst = some (fifo (buf []), dst, 0) ∧
    (fifo (buf [])).head = 0 ∧ (fifo (buf [])).tail = 0 ∧
    (¬ sz_add (fifo_size g) data.size ≥ g.buf.size →
      g.buf.size ≠ 0 ∧ sz_mod (sz_add g.head data.size) g.buf.size ≠ none) ∧
    (∀ r, fifo_peek g dst = some r → ¬ r.2 ≤ 0 →
      g.buf.size ≠ 0 ∧ sz_mod (sz_add g.tail dst.size) g.buf.size ≠ none) := by
  refine ⟨fifo_zero_size, fifo_zero_push data, fifo_zero_peek dst, fifo_zero_pop dst, rfl,
    rfl, ?_, ?_⟩
  · intro h
    exact ⟨by omega, fifo_push_mod_defined g data h⟩
  · intro r hr hpos
    have hc : g.buf.size ≠ 0 := by
      intro hc
      exact hpos (by rw [fifo_peek_zero_cap g dst hn hc r hr])
    exact ⟨hc, by simp [sz_mod, hc]⟩

theorem fifo_zero_capacity_witness :
    Buf.size (buf [0, 0]) < SIZE_MOD ∧
    fifo_size (fifo (buf [])) = 0 ∧
    fifo_push (fifo (buf [])) (buf [6, 7]) = some (fifo (buf []), 0) ∧
    fifo_peek (fifo (buf [])) (buf [0, 0]) = some (buf [0, 0], 0) ∧
    fifo_pop (fifo (buf [])) (buf [0, 0]) = some (fifo (buf []), buf [0, 0], 0) ∧
    fifo_peek (fifo (buf [])) (buf []) = some (buf [], 0) ∧
    fifo_pop (fifo (buf [])) (buf []) = some (fifo (buf []), buf [], 0) ∧
    (exFifo1.buf.size ≠ 0 ∧
      sz_mod (sz_add exFifo1.head (Buf.size (buf [6, 7]))) exFifo1.buf.size ≠ none) ∧
    (exFifo1.buf.size ≠ 0 ∧
      sz_mod (sz_add exFifo1.tail (Buf.size (buf [0, 0]))) exFifo1.buf.size ≠ none) :=
  have w := fifo_zero_capacity exFifo1 (buf [6, 7]) (buf [0, 0]) (by decide)
  have w0 := fifo_zero_capacity exFifo1 (buf [6, 7]) (buf []) (by decide)
  ⟨by decide, w.1, w.2.1, w.2.2.1, w.2.2.2.1, w0.2.2.1, w0.2.2.2.1,
    w.2.2.2.2.2.2.1 (by decide), w.2.2.2.2.2.2.2 (buf [1, 2], 2) (by decide) (by decide)⟩

end Cdst
